import Mathlib

/-!
# Hack assembler (`src/assembly/assembler.cpp`, `src/libs/*`)

A shallow embedding of the assembler: the reader over the source buffer, the
lexer, the recursive-descent parser, the symbol table, the linker and the code
generator, followed by theorems about them.

Modelling conventions.

* The reader is represented by the unread part of the buffer, `buffer[ptr..]`;
  `curch` is its head and `nextch` drops one character.  A `none` character
  stands for the C++ value `EOF`.  Row and column counters only feed the text of
  diagnostics and are dropped; errors are modelled by their kind (`Err`).
* A `Char` stands for one C++ `char` of ASCII text; on any other character the
  `<cctype>` classes are false, as in the C locale.  The C++ keeps `EOF` in a
  (signed) `char`, so a byte 255 of the buffer compares equal to `EOF`: the
  lexer takes the character `eofChar` for the end of input, ends a comment in
  front of it and returns the end-of-file token there without moving the
  reader, while the reader itself tells the end by the index.  The loops of the lexer
  are structural recursions on the unread part (`skipSpaces`, `scanWhile`);
  `skipSpaces_unfold` and `scanWhile_unfold` restate them with `curch` and
  `nextch`.
* `Reader` indexes the buffer with an `int`, so sources are shorter than 2^31
  characters; instruction counts and variable addresses then fit an `int`
  and are modelled without wrap-around.
* The token vectors stored in AST nodes (`toks`) are only printed for
  debugging and are dropped.
* C++ exceptions become `Except.error`; every `throw` site has its own `Err`
  constructor.
* `int` values are `Int`.  `std::bitset<15>` keeps the low 15 bits.
* `std::map` is an association list read with `List.lookup`; an assignment
  `m[k] = v` puts `(k, v)` in front, which shadows any older binding of `k`.
-/

namespace Assembler

/-! ## Errors -/

/-- The kinds of failure of the translator, one per `throw` site (or throwing
library call) of the source.  `outOfFuel` is not a C++ error: it marks the
exhaustion of a loop bound of the model. -/
inductive Err
  | lexComment            -- "Expected '//' for comment"
  | expectedEOInstr       -- "Expected EOL or Comment, got: ..."
  | aInstrOperand         -- "Expected identifier or number after '@' in A-Instruction"
  | constantOutOfRange    -- "Constant value out of range[0-24576]: ..."
  | stoiOutOfRange        -- std::out_of_range thrown by std::stoi
  | compRegister          -- "Invalid C-instruction's comp register: ..."
  | compOperand           -- "Invalid C-instruction's comp operand: ..."
  | invalidDest           -- "Invalid C-instruction's dest: ..."
  | compExpectOperator    -- "... expect operator after first operand"
  | compNoOperands        -- "... no operands found"
  | compMissingSecond     -- "... missing the second operand"
  | compTwoConstants      -- "... two constant operands"
  | compSameIdentifiers   -- "... two same identifiers ..."
  | compMandA             -- "... cannot use M and A together"
  | compAandM             -- "... cannot use A and M together"
  | invalidJump           -- "Invalid C-instruction's jump, ..."
  | labelExpectedIdent    -- "Expected identifier after '(', got: ..."
  | labelPredefined       -- "Label cannot be a predefined symbol: ..."
  | labelExpectedParen    -- "Expected ')' after label, got: ..."
  | symbolNotFound        -- "Symbol not found: ..."
  | mapAt                 -- std::out_of_range thrown by std::map::at
  | outOfFuel
  deriving DecidableEq, Repr

deriving instance DecidableEq for Except

/-! ## Tables (`assembler.cpp` lines 18-47) -/

def presymbols_to_addr : List (String × Int) :=
  [("SP", 0), ("LCL", 1), ("ARG", 2), ("THIS", 3), ("THAT", 4), ("R0", 0),
   ("R1", 1), ("R2", 2), ("R3", 3), ("R4", 4), ("R5", 5), ("R6", 6),
   ("R7", 7), ("R8", 8), ("R9", 9), ("R10", 10), ("R11", 11), ("R12", 12),
   ("R13", 13), ("R14", 14), ("R15", 15), ("SCREEN", 16384), ("KBD", 24576)]

def comp_to_bincode : List (String × String) :=
  [("0", "0101010"), ("1", "0111111"), ("-1", "0111010"), ("D", "0001100"),
   ("A", "0110000"), ("!D", "0001101"), ("!A", "0110001"), ("-D", "0001111"),
   ("-A", "0110011"), ("D+1", "0011111"), ("A+1", "0110111"), ("D-1", "0001110"),
   ("A-1", "0110010"), ("D+A", "0000010"), ("D-A", "0010011"), ("A-D", "0000111"),
   ("D&A", "0000000"), ("D|A", "0010101"), ("M", "1110000"), ("!M", "1110001"),
   ("-M", "1110011"), ("M+1", "1110111"), ("M-1", "1110010"), ("D+M", "1000010"),
   ("D-M", "1010011"), ("M-D", "1000111"), ("D&M", "1000000"), ("D|M", "1010101")]

def dest_to_bincode : List (String × String) :=
  [("", "000"), ("M", "001"), ("D", "010"), ("MD", "011"),
   ("A", "100"), ("AM", "101"), ("AD", "110"), ("AMD", "111")]

def jmp_to_bincode : List (String × String) :=
  [("", "000"), ("JGT", "001"), ("JEQ", "010"), ("JGE", "011"),
   ("JLT", "100"), ("JNE", "101"), ("JLE", "110"), ("JMP", "111")]

/-- The call `m.at(k)` of `std::map`: the bound value, or `std::out_of_range`. -/
def mapAt (m : List (String × String)) (k : String) : Except Err String :=
  match m.lookup k with
  | some v => .ok v
  | none => .error .mapAt

def isregister (s : String) : Bool := s == "A" || s == "D" || s == "M"

/-! ## Symbol table (`assembler.cpp` lines 52-86) -/

structure SymbolTable where
  tbl : List (String × Int)
  freeaddr : Int
  deriving DecidableEq, Repr

namespace SymbolTable

/-- The state set by the constructor `SymbolTable()`, which calls `clear()`. -/
def clear : SymbolTable := { tbl := presymbols_to_addr, freeaddr := 16 }

def put (t : SymbolTable) (name : String) : SymbolTable :=
  if (t.tbl.lookup name).isSome then t
  else { t with tbl := (name, -1) :: t.tbl }

def putwaddr (t : SymbolTable) (name : String) (addr : Int) : SymbolTable :=
  { t with tbl := (name, addr) :: t.tbl }

def putwinc (t : SymbolTable) (name : String) : SymbolTable :=
  if (t.tbl.lookup name).isSome then t
  else { tbl := (name, t.freeaddr) :: t.tbl, freeaddr := t.freeaddr + 1 }

def get (t : SymbolTable) (name : String) : Except Err Int :=
  match t.tbl.lookup name with
  | none => .error .symbolNotFound
  | some addr => .ok addr

end SymbolTable

/-! ## Character classes (`src/libs/type.cpp`, `<cctype>` in the C locale) -/

/-- Modelled from the spec: the macro `EOL` comes from `libs/type.h`, which is
not among the sources; the spec calls the end-of-line token a line break. -/
def EOL : Char := '\n'

def isspace (c : Char) : Bool :=
  c == ' ' || c == '\t' || c == '\n' || c == Char.ofNat 11 || c == Char.ofNat 12 || c == '\r'

def isdigit (c : Char) : Bool := c.isDigit

def isidentnonalnum (c : Char) : Bool := c == '_' || c == ':' || c == '$' || c == '.'

def isidentstart (c : Char) : Bool := c.isAlpha || isidentnonalnum c

def isident (c : Char) : Bool := c.isAlphanum || isidentnonalnum c

def isaddoperator (c : Char) : Bool := c == '+' || c == '-'

/-! ## Reader (`src/libs/reader.cpp`) -/

/-- The unread part of the buffer: `buffer[ptr..]`. -/
abbrev Reader := List Char

/-- `Reader::curch`: the character under the cursor, `none` (EOF) past the end. -/
def curch (r : Reader) : Option Char := r.head?

/-- `Reader::nextch`: at the last character the cursor moves past the end and
EOF is returned; past the end nothing moves; otherwise the cursor advances and
the new current character is returned.  (On an empty buffer the C++ indexes
out of bounds; the lexer never calls `nextch` then.) -/
def nextch : Reader → Option Char × Reader
  | [] => (none, [])
  | [_] => (none, [])
  | _ :: c :: rest => (some c, c :: rest)

/-! ## Tokens (`src/libs/lexer.h`) -/

inductive TokenType
  | TOK_EOF | TOK_EOL | TOK_COMMENT | TOK_ANY | TOK_IDENTIFIER | TOK_NUMBER
  | TOK_OPERATOR | TOK_EQUAL | TOK_SEMICOLONS
  deriving DecidableEq, Repr

structure Token where
  type : TokenType
  value : String
  deriving DecidableEq, Repr

/-! ## Lexer (`assembler.cpp` lines 298-389) -/

/-- The loop `while (isspace(c) && c != EOL) c = reader->nextch();` started with
`c = reader->curch()`. -/
def skipSpaces : Reader → Reader
  | [] => []
  | c :: rest => if isspace c && c != EOL then skipSpaces rest else c :: rest

/-- The loop `while (p(c = reader->nextch())) tok_value += c;`, where `p` is
false on EOF; the first argument is `tok_value`. -/
def scanWhile (p : Char → Bool) : String → Reader → String × Reader
  | v, _ :: c :: rest => if p c then scanWhile p (v.push c) (c :: rest) else (v, c :: rest)
  | v, [_] => (v, [])
  | v, [] => (v, [])

/-- The value `EOF` as a C++ `char`.  The reader returns it past the end of the
buffer, and the lexer keeps what it reads in a `char`: a byte 255 of the buffer
has the same value and compares equal to `EOF`. -/
def eofChar : Char := Char.ofNat 255

/-- The text of the EOF token: `std::string{c}` with `c` the char value of EOF. -/
def eofText : String := String.singleton eofChar

open TokenType in
/-- The embedding of `Lexer::nexttok`. -/
def nexttok (reader : Reader) : Except Err (Token × Reader) :=
  match skipSpaces reader with
  | [] => .ok (⟨TOK_EOF, eofText⟩, [])
  | c :: rest =>
    if isidentstart c then
      let res := scanWhile isident (String.singleton c) (c :: rest)
      .ok (⟨TOK_IDENTIFIER, res.1⟩, res.2)
    else if isdigit c then
      let res := scanWhile isdigit (String.singleton c) (c :: rest)
      .ok (⟨TOK_NUMBER, res.1⟩, res.2)
    else if c == '/' then
      match nextch (c :: rest) with
      | (some c2, r) =>
        if c2 != '/' then .error .lexComment
        else
          let res := scanWhile (fun x => x != eofChar && x != EOL)
            ((String.singleton c).push c2) r
          .ok (⟨TOK_COMMENT, res.1⟩, res.2)
      | (none, _) => .error .lexComment
    else if c == eofChar then
      .ok (⟨TOK_EOF, String.singleton c⟩, c :: rest)
    else
      let tok_type := TOK_ANY
      let tok_type := if isaddoperator c then TOK_OPERATOR else tok_type
      let tok_type := if c == '=' then TOK_EQUAL else tok_type
      let tok_type := if c == ';' then TOK_SEMICOLONS else tok_type
      let tok_type := if c == EOL then TOK_EOL else tok_type
      .ok (⟨tok_type, String.singleton c⟩, (nextch (c :: rest)).2)

/-! ## AST (`assembler.cpp` lines 97-296) -/

inductive AsmExprAST
  | ConstantExprAST (value : Int)
  | SymbolExprAST (name : String)
  deriving DecidableEq, Repr

/-- The constructor of `ConstantExprAST`, which validates the range. -/
def mkConstantExprAST (value : Int) : Except Err AsmExprAST :=
  if value < 0 || value > 24576 then .error .constantOutOfRange
  else .ok (.ConstantExprAST value)

structure CompAST where
  isM : Bool
  raw : String
  op : String
  LHS : Option AsmExprAST
  RHS : Option AsmExprAST
  deriving DecidableEq, Repr

structure DestAST where
  dest : String
  deriving DecidableEq, Repr

structure JmpAST where
  jmp : String
  deriving DecidableEq, Repr

def isdest (s : String) : Bool :=
  s == "M" || s == "D" || s == "MD" || s == "A" || s == "AM" || s == "AD" || s == "AMD"

def isjmp (s : String) : Bool :=
  s == "JMP" || s == "JEQ" || s == "JGT" || s == "JLT" || s == "JNE" || s == "JGE" ||
    s == "JLE"

/-- The real instructions, the elements of `Assembler::ins`. -/
inductive InstrAST
  | AInstrAST (expr : AsmExprAST)
  | CInstrAST (dest : Option DestAST) (comp : CompAST) (jump : Option JmpAST)
  deriving DecidableEq, Repr

structure LabelAST where
  label : String
  location : Int
  deriving DecidableEq, Repr

/-- The string `std::bitset<15>(v).to_string()`: the `int` is converted to
`unsigned long long` (its value modulo 2^64) and bits 14 down to 0 of that are
written, most significant first. -/
def bitset15 (v : Int) : String :=
  let val : Nat := (v % 18446744073709551616).toNat
  String.mk ((List.range 15).reverse.map
    (fun i => if val / 2 ^ i % 2 = 1 then '1' else '0'))

def CompAST.codegen (c : CompAST) : Except Err String := mapAt comp_to_bincode c.raw

def DestAST.codegen (d : DestAST) : Except Err String := mapAt dest_to_bincode d.dest

def JmpAST.codegen (j : JmpAST) : Except Err String := mapAt jmp_to_bincode j.jmp

/-- The embedding of `AInstrAST::codegen` and `CInstrAST::codegen`. -/
def InstrAST.codegen (ctx : SymbolTable) : InstrAST → Except Err String
  | .AInstrAST (.SymbolExprAST name) => do
    let addr ← ctx.get name
    pure ("0" ++ bitset15 addr)
  | .AInstrAST (.ConstantExprAST val) => pure ("0" ++ bitset15 val)
  | .CInstrAST dest comp jump => do
    let c ← comp.codegen
    let d ← (match dest with
      | some d => d.codegen
      | none => pure "000" : Except Err String)
    let j ← (match jump with
      | some j => j.codegen
      | none => pure "000" : Except Err String)
    pure ("111" ++ c ++ d ++ j)

/-! ## Parser (`assembler.cpp` lines 391-674) -/

/-- The number a string of decimal digits denotes, as `std::stoi` accumulates
it: each character contributes its distance from the character 0. -/
def decValue (ds : List Char) : Nat :=
  ds.foldl (fun acc c => acc * 10 + (c.toNat - 48)) 0

/-- The call `std::stoi(s)` on the text of a number token (decimal digits only):
the value, or `std::out_of_range` when it does not fit a 32-bit `int`. -/
def stoi (s : String) : Except Err Int :=
  let v : Nat := decValue s.toList
  if v > 2147483647 then .error .stoiOutOfRange else .ok (v : Int)

/-- The state of the `Assembler` object: the current token, the lexer (its
reader) and the two result vectors. -/
structure State where
  cur_tok : Token
  lexer : Reader
  ins : List InstrAST
  labels : List LabelAST
  deriving DecidableEq, Repr

open TokenType

/-- The statement `cur_tok = lexer->nexttok();`. -/
def advance (a : State) : Except Err State := do
  let r ← nexttok a.lexer
  pure { a with cur_tok := r.1, lexer := r.2 }

/-- The loop of `Assembler::skipEOL`; the first argument bounds the number of
iterations. -/
def skipEOLLoop : Nat → State → Except Err State
  | 0, _ => .error .outOfFuel
  | fuel + 1, a =>
    if a.cur_tok.type = TOK_EOL then do
      let a ← advance a
      skipEOLLoop fuel a
    else pure a

/-- The embedding of `Assembler::skipEOL`: every iteration but the last consumes
a line break, so `lexer.length + 2` tests of the loop condition are enough. -/
def skipEOL (a : State) : Except Err State := skipEOLLoop (a.lexer.length + 2) a

def expectEOInstr (a : State) : Except Err Unit :=
  if a.cur_tok.type ≠ TOK_EOL ∧ a.cur_tok.type ≠ TOK_COMMENT then .error .expectedEOInstr
  else pure ()

def parseAInstr (a : State) : Except Err (InstrAST × State) := do
  let a ← advance a
  let expr ← (match a.cur_tok.type with
    | TOK_IDENTIFIER => pure (AsmExprAST.SymbolExprAST a.cur_tok.value)
    | TOK_NUMBER => do
      let v ← stoi a.cur_tok.value
      mkConstantExprAST v
    | _ => .error .aInstrOperand : Except Err AsmExprAST)
  let a ← advance a
  pure (.AInstrAST expr, a)

/-- The embedding of `Assembler::parseCompOperand`; `none` is the null pointer. -/
def parseCompOperand : Option Token → Except Err (Option AsmExprAST)
  | none => pure none
  | some tok =>
    if tok.type = TOK_IDENTIFIER then
      if !isregister tok.value then .error .compRegister
      else pure (some (.SymbolExprAST tok.value))
    else if tok.type = TOK_NUMBER then do
      let v ← stoi tok.value
      let e ← mkConstantExprAST v
      pure (some e)
    else .error .compOperand

/-- The local variables of `parseCInstr` that its comp loop reads and writes.
`same` records whether the pointers `tok` and `cur_tok` are equal: every
`nexttok()` returns a fresh object, so they are equal exactly when `tok` was
last assigned from `cur_tok`. -/
structure CompState where
  operandidx : Nat
  raw_comp : String
  comp_toks0 : Option Token
  comp_toks1 : Option Token
  comp_toks2 : Option Token
  tok : Token
  same : Bool
  cur_tok : Token
  lexer : Reader
  deriving DecidableEq, Repr

/-- The statement `tok = (cur_tok = (tok == cur_tok ? lexer->nexttok() : cur_tok));`. -/
def CompState.step (s : CompState) : Except Err CompState :=
  if s.same then do
    let r ← nexttok s.lexer
    pure { s with tok := r.1, cur_tok := r.1, lexer := r.2, same := true }
  else pure { s with tok := s.cur_tok, same := true }

/-- The first `if` of the comp loop body (lines 547-553): an operator token is
stored in `comp_toks[1]`, `operandidx` becomes 2 and the next token is taken. -/
def compOperator (s : CompState) : Except Err CompState :=
  if s.tok.type = TOK_OPERATOR then
    CompState.step { s with operandidx := 2, comp_toks1 := some s.tok,
                            raw_comp := s.raw_comp ++ s.tok.value }
  else pure s

/-- The end of the comp loop body (lines 563-566): the operand token is stored
in `comp_toks[operandidx++]` (the index is 0 or 2 there) and the next token is
taken. -/
def compOperand (s : CompState) : Except Err CompState :=
  let s1 : CompState :=
    if s.operandidx = 0 then { s with comp_toks0 := some s.tok }
    else { s with comp_toks2 := some s.tok }
  CompState.step { s1 with operandidx := s.operandidx + 1,
                           raw_comp := s.raw_comp ++ s.tok.value }

/-- The loop `while (operandidx < 3) ...` of `parseCInstr`; the first argument
bounds the number of tests of the loop condition (`operandidx` grows in every
iteration that does not leave the loop, so three are enough). -/
def compLoop : Nat → CompState → Except Err CompState
  | 0, _ => .error .outOfFuel
  | fuel + 1, s =>
    if s.operandidx < 3 then do
      let s1 ← compOperator s
      if s1.tok.type ≠ TOK_IDENTIFIER ∧ s1.tok.type ≠ TOK_NUMBER then pure s1
      else if s1.operandidx = 1 then .error .compExpectOperator
      else do
        let s2 ← compOperand s1
        compLoop fuel s2
    else pure s

/-- The checks of `parseCInstr` on the operand tokens found by the comp loop
(lines 578-610); the result is the flag `isM`. -/
def checkComp (t0 t1 t2 : Option Token) : Except Err Bool :=
  if t0 = none ∧ t2 = none then .error .compNoOperands
  else if t0 ≠ none ∧ t1 ≠ none ∧ t2 = none then .error .compMissingSecond
  else match t0, t2 with
    | some a, some b =>
      if a.type = TOK_NUMBER ∧ b.type = TOK_NUMBER then .error .compTwoConstants
      else if a.type = TOK_IDENTIFIER ∧ b.type = TOK_IDENTIFIER then
        if a.value = b.value then .error .compSameIdentifiers
        else if a.value = "M" ∧ b.value = "A" then .error .compMandA
        else if a.value = "A" ∧ b.value = "M" then .error .compAandM
        else pure (a.value == "M")
      else pure false
    | _, _ => pure false

/-- The dest part of `parseCInstr` (lines 512-536): the optional `dest=`
and the local variables as the comp loop finds them. -/
def parseDest (a : State) : Except Err (Option DestAST × CompState) :=
  let tok := a.cur_tok
  if tok.type = TOK_IDENTIFIER then do
    let r ← nexttok a.lexer
    if r.1.type = TOK_EQUAL then
      if !isdest tok.value then .error .invalidDest
      else do
        let t ← nexttok r.2
        let c ← nexttok t.2
        pure (some (DestAST.mk tok.value),
              CompState.mk 0 "" none none none t.1 false c.1 c.2)
    else
      pure (none, CompState.mk 0 "" none none none tok false r.1 r.2)
  else
    pure (none, CompState.mk 0 "" none none none tok true a.cur_tok a.lexer)

/-- The jump part of `parseCInstr` (lines 622-636). -/
def parseJump (a : State) : Except Err (Option JmpAST × State) :=
  if a.cur_tok.type = TOK_SEMICOLONS then do
    let a ← advance a
    if a.cur_tok.type ≠ TOK_IDENTIFIER ∨ !isjmp a.cur_tok.value then .error .invalidJump
    else do
      let b ← advance a
      pure (some (JmpAST.mk a.cur_tok.value), b)
  else pure (none, a)

/-- The embedding of `Assembler::parseCInstr`: dest, comp loop, checks, the
swap of a lone operand to the right-hand side, the two operand nodes, jump.
The right operand node is built first: C++ leaves the order of the two
`parseCompOperand` calls open and the g++ build evaluates the arguments of
`make_unique` from right to left (only the kind of the error depends on it). -/
def parseCInstr (a : State) : Except Err (InstrAST × State) := do
  let r ← parseDest a
  let s ← compLoop 3 r.2
  let isM ← checkComp s.comp_toks0 s.comp_toks1 s.comp_toks2
  let single : Bool := decide (s.comp_toks0 ≠ none ∧ s.comp_toks1 = none)
  let rhs ← parseCompOperand (if single then s.comp_toks0 else s.comp_toks2)
  let lhs ← parseCompOperand (if single then none else s.comp_toks0)
  let op := match s.comp_toks1 with
    | some t => t.value
    | none => ""
  let j ← parseJump { a with cur_tok := s.cur_tok, lexer := s.lexer }
  pure (.CInstrAST r.1 ⟨isM, s.raw_comp, op, lhs, rhs⟩ j.1, j.2)

/-- The dest and comp parts of `parseCInstr` (lines 506-620) as a function of
their own: the C-instruction is this followed by `parseJump`
(`parseCInstr_eq`).  The result is the dest node, the comp node and the state
in which the jump part starts. -/
def parseCompPart (a : State) : Except Err (Option DestAST × CompAST × State) := do
  let r ← parseDest a
  let s ← compLoop 3 r.2
  let isM ← checkComp s.comp_toks0 s.comp_toks1 s.comp_toks2
  let single : Bool := decide (s.comp_toks0 ≠ none ∧ s.comp_toks1 = none)
  let rhs ← parseCompOperand (if single then s.comp_toks0 else s.comp_toks2)
  let lhs ← parseCompOperand (if single then none else s.comp_toks0)
  let op := match s.comp_toks1 with
    | some t => t.value
    | none => ""
  pure (r.1, ⟨isM, s.raw_comp, op, lhs, rhs⟩, { a with cur_tok := s.cur_tok, lexer := s.lexer })

def parseLabelInstr (a : State) : Except Err (LabelAST × State) := do
  let a ← advance a
  if a.cur_tok.type ≠ TOK_IDENTIFIER then .error .labelExpectedIdent
  else if (presymbols_to_addr.lookup a.cur_tok.value).isSome then .error .labelPredefined
  else do
    let b ← advance a
    if b.cur_tok.value ≠ ")" then .error .labelExpectedParen
    else do
      let c ← advance b
      pure (⟨a.cur_tok.value, (c.ins.length : Int)⟩, c)

/-- The `default:` branch of the switch in `Assembler::parse`: one label
declaration or one real instruction, then `expectEOInstr`. -/
def parseDefault (a : State) : Except Err State := do
  let a ← (
    if a.cur_tok.value = "(" then do
      let r ← parseLabelInstr a
      pure { r.2 with labels := r.2.labels ++ [r.1] }
    else if a.cur_tok.value = "@" then do
      let r ← parseAInstr a
      pure { r.2 with ins := r.2.ins ++ [r.1] }
    else do
      let r ← parseCInstr a
      pure { r.2 with ins := r.2.ins ++ [r.1] }
    : Except Err State)
  let _ ← expectEOInstr a
  pure a

/-- The loop `while (cur_tok->type != TOK_EOF) ...` of `Assembler::parse`; the
first argument bounds the number of iterations. -/
def parseLoop : Nat → State → Except Err State
  | 0, _ => .error .outOfFuel
  | fuel + 1, a =>
    if a.cur_tok.type = TOK_EOF then pure a
    else if a.cur_tok.type = TOK_COMMENT then do
      let a ← advance a
      parseLoop fuel a
    else if a.cur_tok.type = TOK_EOL then do
      let a ← skipEOL a
      parseLoop fuel a
    else do
      let a ← parseDefault a
      let a ← advance a
      parseLoop fuel a

/-- The embedding of `Assembler::parse` on a source buffer: `reset()`, the first
`nexttok()`, then the loop.  Every iteration consumes at least one character
unless the next token is EOF, so `buffer.length + 1` iterations are enough. -/
def parse (buffer : List Char) : Except Err State := do
  let r ← nexttok buffer
  parseLoop (buffer.length + 1) ⟨r.1, r.2, [], []⟩

/-! ## Linker (`assembler.cpp` lines 676-699) -/

/-- The first loop of `link`: `putwaddr` for every label, in order. -/
def linkLabels (labels : List LabelAST) (ctx : SymbolTable) : SymbolTable :=
  labels.foldl (fun t l => t.putwaddr l.label l.location) ctx

/-- The second loop of `link`: `putwinc` for every A-instruction with a symbol
operand, in order. -/
def linkSymbols (ins : List InstrAST) (ctx : SymbolTable) : SymbolTable :=
  ins.foldl (fun t i =>
    match i with
    | .AInstrAST (.SymbolExprAST name) => t.putwinc name
    | _ => t) ctx

/-- The symbol table after the two resolution loops of `link`. -/
def linkTable (ins : List InstrAST) (labels : List LabelAST) (ctx : SymbolTable) :
    SymbolTable :=
  linkSymbols ins (linkLabels labels ctx)

/-- The embedding of `Assembler::link`. -/
def link (ins : List InstrAST) (labels : List LabelAST) (ctx : SymbolTable) :
    Except Err (List String) :=
  ins.mapM (InstrAST.codegen (linkTable ins labels ctx))

/-- The pipeline of `main`: parse the buffer, then link on a fresh symbol
table; the result is the list of lines handed to the writer. -/
def translate (buffer : List Char) : Except Err (List String) := do
  let a ← parse buffer
  link a.ins a.labels SymbolTable.clear

/-! ## Vocabulary of the specification -/

/-- The number a string of binary digits denotes, read most significant digit
first (the reading of an emitted word or of one of its fields). -/
def binaryValue (s : String) : Nat :=
  s.toList.foldl (fun acc c => 2 * acc + (if c = '1' then 1 else 0)) 0

/-- The names used as symbol operands of A-instructions, in the order of the
instruction list. -/
def symbolOperands (ins : List InstrAST) : List String :=
  ins.filterMap (fun i =>
    match i with
    | .AInstrAST (.SymbolExprAST name) => some name
    | _ => none)

/-- The distinct elements of a list, in order of first appearance. -/
def firstOccurrences : List String → List String
  | [] => []
  | x :: xs => x :: (firstOccurrences xs).filter (fun y => y ≠ x)

/-- The variables of a program, as the specification lists them: the distinct
names used as A-instruction symbol operands that are neither predefined
symbols nor declared as a label anywhere in the program, in order of first
appearance in the instruction list. -/
def variableNames (ins : List InstrAST) (labels : List LabelAST) : List String :=
  firstOccurrences ((symbolOperands ins).filter (fun n =>
    (presymbols_to_addr.lookup n).isNone && !(labels.map (fun l => l.label)).contains n))

/-- The source text of `n` lines `@0` followed by the two lines `(L)` and
`@L`: a program whose label `L` is declared after `n` real instructions. -/
def labelAfter (n : Nat) : List Char :=
  (List.replicate n "@0\n".toList).flatten ++ "(L)\n@L\n".toList

/-- A physical line of a source text, as the specification reads it: a real
instruction (its text and the instruction it denotes), a label declaration
`(name)`, a comment `//text`, or a blank line of white space. -/
inductive SrcLine
  | instr (text : List Char) (i : InstrAST)
  | label (name : List Char)
  | comment (text : List Char)
  | blank (ws : List Char)

/-- The characters of a line, without its line break. -/
def SrcLine.text : SrcLine → List Char
  | .instr t _ => t
  | .label n => '(' :: (n ++ [')'])
  | .comment t => '/' :: '/' :: t
  | .blank ws => ws

/-- The source text of a program: its lines in order, each followed by a line
break. -/
def render : List SrcLine → List Char
  | [] => []
  | l :: ls => l.text ++ '\n' :: render ls

/-- The real (A or C) instructions of a program, in source order. -/
def realInstrs : List SrcLine → List InstrAST
  | [] => []
  | .instr _ i :: ls => i :: realInstrs ls
  | _ :: ls => realInstrs ls

/-- The label declarations of a program, in source order, each with the number
of real instructions that precede it in the source; `n` is the number of real
instructions in front of the first line. -/
def labelsFrom (n : Nat) : List SrcLine → List LabelAST
  | [] => []
  | .instr _ _ :: ls => labelsFrom (n + 1) ls
  | .label name :: ls => ⟨⟨name⟩, (n : Int)⟩ :: labelsFrom n ls
  | _ :: ls => labelsFrom n ls

/-- The lines that are neither comments nor blank. -/
def SrcLine.isCode : SrcLine → Bool
  | .instr _ _ => true
  | .label _ => true
  | _ => false

/-- The text `t` is a line that holds the real instruction `i`: whatever text
`r` follows its line break and whatever the two lists hold, the first token of
the line is no end-of-file, comment or end-of-line token, and the rule of the
parser for one instruction, started on that token, appends `i` to the
instruction list, leaves the label list alone and stops at the end of the
line: on the token of the line break, or on a trailing comment in front of the
line break. -/
def instrLine (t : List Char) (i : InstrAST) : Prop :=
  ∀ (r : Reader) (ins : List InstrAST) (labels : List LabelAST),
    ∃ (tok : Token) (rest : Reader) (e : Token) (r1 : Reader),
      nexttok (t ++ '\n' :: r) = .ok (tok, rest) ∧
      tok.type ≠ TOK_EOF ∧ tok.type ≠ TOK_COMMENT ∧ tok.type ≠ TOK_EOL ∧
      parseDefault ⟨tok, rest, ins, labels⟩ = .ok ⟨e, r1, ins ++ [i], labels⟩ ∧
      ((e = ⟨TOK_EOL, "\n"⟩ ∧ r1 = r) ∨ (e.type = TOK_COMMENT ∧ r1 = '\n' :: r))

/-- The lines of a program as the specification understands them: an
instruction line holds its instruction; a label name is an identifier that is
not a predefined symbol; the text of a comment has no line break and no
character with the value of `EOF`; a blank line holds white space only. -/
def SrcLine.wellFormed : SrcLine → Prop
  | .instr t i => instrLine t i
  | .label n =>
    (∃ c cs, n = c :: cs ∧ isidentstart c = true ∧ ∀ x ∈ cs, isident x = true) ∧
      (presymbols_to_addr.lookup ⟨n⟩).isSome = false
  | .comment t => '\n' ∉ t ∧ eofChar ∉ t
  | .blank ws => ∀ x ∈ ws, isspace x = true ∧ x ≠ '\n'

/-- The program of the line `@L`, `n` lines `@0`, the declaration `(L)` and
the line `@L`: the label `L` is referenced before and after its declaration,
which `n + 1` real instructions precede. -/
def labelAround (n : Nat) : List SrcLine :=
  .instr "@L".toList (.AInstrAST (.SymbolExprAST "L")) ::
    (List.replicate n (.instr "@0".toList (.AInstrAST (.ConstantExprAST 0))) ++
      [.label "L".toList, .instr "@L".toList (.AInstrAST (.SymbolExprAST "L"))])

/-- The parse loop from the start of a text: the first token is read, then the
loop runs with the given lists, as `parse` does with empty lists. -/
def parseFrom (f : Nat) (t : Reader) (ins : List InstrAST) (labels : List LabelAST) :
    Except Err State :=
  nexttok t >>= fun r => parseLoop f ⟨r.1, r.2, ins, labels⟩

/-! # Theorems -/

/-! ## The loops of the lexer, in terms of `curch` and `nextch` -/

theorem skipSpaces_unfold (r : Reader) :
    skipSpaces r =
      match curch r with
      | some c => if isspace c && c != EOL then skipSpaces (nextch r).2 else r
      | none => r := by
  cases r with
  | nil => rfl
  | cons c rest =>
    cases rest with
    | nil => simp [skipSpaces, curch, nextch]
    | cons d rest => simp [skipSpaces, curch, nextch]

theorem scanWhile_unfold (p : Char → Bool) (v : String) (r : Reader) :
    scanWhile p v r =
      match nextch r with
      | (some c, r1) => if p c then scanWhile p (v.push c) r1 else (v, r1)
      | (none, r1) => (v, r1) := by
  cases r with
  | nil => rfl
  | cons c rest =>
    cases rest with
    | nil => rfl
    | cons d rest => simp [scanWhile, nextch]

/-! ## Tokens of numbers, line breaks and the A-instruction mark -/

theorem isdigit_mem (c : Char) (h : isdigit c = true) :
    c ∈ ['0', '1', '2', '3', '4', '5', '6', '7', '8', '9'] := by
  have hk : c = Char.ofNat c.toNat := (Char.ofNat_toNat c).symm
  simp only [isdigit, Char.isDigit, Bool.and_eq_true, decide_eq_true_eq] at h
  have h1 : 48 ≤ c.toNat := h.1
  have h2 : c.toNat ≤ 57 := h.2
  generalize c.toNat = k at hk h1 h2
  subst hk
  interval_cases k <;> decide

theorem nextch_snd (c : Char) (r : Reader) : (nextch (c :: r)).2 = r := by
  cases r <;> rfl

theorem scanWhile_run (p : Char → Bool) (cs : List Char) (r : Reader)
    (hcs : ∀ c ∈ cs, p c = true) (hr : ∀ d, r.head? = some d → p d = false) :
    ∀ (v : String) (c0 : Char), scanWhile p v (c0 :: (cs ++ r)) = (⟨v.data ++ cs⟩, r) := by
  induction cs with
  | nil =>
    intro v c0
    cases r with
    | nil => simp [scanWhile]
    | cons d r => simp [scanWhile, hr d rfl]
  | cons c cs ih =>
    intro v c0
    have hc : p c = true := hcs c (by simp)
    have h2 : scanWhile p ⟨v.data ++ [c]⟩ (c :: (cs ++ r)) = (⟨(v.data ++ [c]) ++ cs⟩, r) :=
      ih (fun x hx => hcs x (by simp [hx])) (v.push c) c
    simp [scanWhile, hc, h2, String.push]

theorem nexttok_eol (r : Reader) : nexttok ('\n' :: r) = .ok (⟨TOK_EOL, "\n"⟩, r) := by
  cases r <;> rfl

theorem nexttok_at (r : Reader) : nexttok ('@' :: r) = .ok (⟨TOK_ANY, "@"⟩, r) := by
  cases r <;> rfl

theorem nexttok_nil : nexttok [] = .ok (⟨TOK_EOF, eofText⟩, []) := rfl

theorem nexttok_number (d : Char) (ds : List Char) (r : Reader)
    (hd : isdigit d = true) (hds : ∀ c ∈ ds, isdigit c = true)
    (hr : ∀ x, r.head? = some x → isdigit x = false) :
    nexttok (d :: (ds ++ r)) = .ok (⟨TOK_NUMBER, ⟨d :: ds⟩⟩, r) := by
  have hm := isdigit_mem d hd
  have h1 : isspace d = false := by
    simp only [List.mem_cons, List.mem_singleton, List.not_mem_nil, or_false] at hm
    rcases hm with h | h | h | h | h | h | h | h | h | h <;> subst h <;> rfl
  have h2 : isidentstart d = false := by
    simp only [List.mem_cons, List.mem_singleton, List.not_mem_nil, or_false] at hm
    rcases hm with h | h | h | h | h | h | h | h | h | h <;> subst h <;> rfl
  simp [nexttok, skipSpaces, h1, h2, hd, scanWhile_run isdigit ds r hds hr, String.singleton, String.push]


theorem parseLoop_eof (f : Nat) (a : State) (h : a.cur_tok.type = TOK_EOF) :
    parseLoop (f + 1) a = .ok a := by
  simp [parseLoop, h, pure, Except.pure]

theorem parseLoop_real (f : Nat) (a : State) (h1 : a.cur_tok.type ≠ TOK_EOF)
    (h2 : a.cur_tok.type ≠ TOK_COMMENT) (h3 : a.cur_tok.type ≠ TOK_EOL) :
    parseLoop (f + 1) a = (parseDefault a >>= fun b => advance b >>= parseLoop f) := by
  simp [parseLoop, h1, h2, h3]

theorem parseAInstr_number (a : State) (d : Char) (ds : List Char) (r : Reader)
    (hl : a.lexer = d :: (ds ++ '\n' :: r))
    (hd : isdigit d = true) (hds : ∀ c ∈ ds, isdigit c = true) :
    parseAInstr a =
      (do let v ← stoi ⟨d :: ds⟩
          let e ← mkConstantExprAST v
          pure (.AInstrAST e, { a with cur_tok := ⟨TOK_EOL, "\n"⟩, lexer := r })) := by
  have hn : nexttok (d :: (ds ++ '\n' :: r)) = .ok (⟨TOK_NUMBER, ⟨d :: ds⟩⟩, '\n' :: r) :=
    nexttok_number d ds ('\n' :: r) hd hds (by intro x hx; simp at hx; subst hx; rfl)
  cases hs : stoi ⟨d :: ds⟩ with
  | error e => simp [parseAInstr, advance, hl, hn, hs, bind, Except.bind, pure, Except.pure]
  | ok v =>
    cases hm : mkConstantExprAST v with
    | error e => simp [parseAInstr, advance, hl, hn, hs, hm, bind, Except.bind, pure, Except.pure]
    | ok e => simp [parseAInstr, advance, hl, hn, hs, hm, nexttok_eol, bind, Except.bind, pure, Except.pure]

theorem parse_A_number (d : Char) (ds : List Char)
    (hd : isdigit d = true) (hds : ∀ c ∈ ds, isdigit c = true) :
    parse ('@' :: (d :: ds ++ ['\n'])) =
      (do let v ← stoi ⟨d :: ds⟩
          let e ← mkConstantExprAST v
          pure ⟨⟨TOK_EOF, eofText⟩, [], [.AInstrAST e], []⟩) := by
  have h1 : parse ('@' :: (d :: ds ++ ['\n'])) =
      parseLoop (ds.length + 3 + 1) ⟨⟨TOK_ANY, "@"⟩, d :: (ds ++ ['\n']), [], []⟩ := by
    simp [parse, nexttok_at, bind, Except.bind]
  rw [h1, parseLoop_real _ _ (by simp) (by simp) (by simp)]
  have h2 := parseAInstr_number ⟨⟨TOK_ANY, "@"⟩, d :: (ds ++ ['\n']), [], []⟩ d ds [] rfl hd hds
  cases hs : stoi ⟨d :: ds⟩ with
  | error e => simp [parseDefault, h2, hs, bind, Except.bind, pure, Except.pure]
  | ok v =>
    cases hm : mkConstantExprAST v with
    | error e => simp [parseDefault, h2, hs, hm, bind, Except.bind, pure, Except.pure]
    | ok e =>
      simp [parseDefault, h2, hs, hm, expectEOInstr, advance, nexttok_nil, parseLoop_eof, bind, Except.bind, pure, Except.pure]

/-! ## Decimal numerals -/

theorem toDigitsCore_append (b : Nat) : ∀ (f n : Nat) (ds : List Char),
    Nat.toDigitsCore b f n ds = Nat.toDigitsCore b f n [] ++ ds := by
  intro f
  induction f with
  | zero => intro n ds; simp [Nat.toDigitsCore]
  | succ f ih =>
    intro n ds
    simp only [Nat.toDigitsCore]
    split
    · simp
    · rw [ih (n / b) (_ :: ds), ih (n / b) [_]]; simp

theorem toDigitsCore_fuel (b : Nat) (hb : 2 ≤ b) : ∀ (f1 f2 n : Nat) (ds : List Char),
    n < f1 → n < f2 → Nat.toDigitsCore b f1 n ds = Nat.toDigitsCore b f2 n ds := by
  intro f1
  induction f1 with
  | zero => intro f2 n ds h; omega
  | succ f1 ih =>
    intro f2 n ds h1 h2
    cases f2 with
    | zero => omega
    | succ f2 =>
      simp only [Nat.toDigitsCore]
      split
      · rfl
      · rename_i hne
        have hpos : 0 < n := by
          rcases Nat.eq_zero_or_pos n with h | h
          · subst h; simp at hne
          · exact h
        have hlt : n / b < n := Nat.div_lt_self hpos (by omega)
        exact ih f2 (n / b) _ (by omega) (by omega)

theorem toDigits_lt (b n : Nat) (h : n < b) :
    Nat.toDigits b n = [Nat.digitChar n] := by
  simp [Nat.toDigits, Nat.toDigitsCore, Nat.mod_eq_of_lt h, Nat.div_eq_of_lt h]

theorem toDigits_ge (b n : Nat) (h : b ≤ n) (hb : 2 ≤ b) :
    Nat.toDigits b n = Nat.toDigits b (n / b) ++ [Nat.digitChar (n % b)] := by
  have hne : n / b ≠ 0 := by
    have : 0 < n / b := Nat.div_pos h (by omega)
    omega
  have hlt : n / b < n := Nat.div_lt_self (by omega) (by omega)
  have e1 : Nat.toDigits b n = Nat.toDigitsCore b n (n / b) [Nat.digitChar (n % b)] := by
    simp [Nat.toDigits, Nat.toDigitsCore, hne]
  rw [e1, toDigitsCore_append, toDigitsCore_fuel b hb n (n / b + 1) (n / b) [] hlt (by omega)]
  rfl

theorem digitChar_isdigit (d : Nat) (h : d < 10) : isdigit (Nat.digitChar d) = true := by
  interval_cases d <;> rfl

theorem digitChar_value (d : Nat) (h : d < 10) : (Nat.digitChar d).toNat - 48 = d := by
  interval_cases d <;> rfl

theorem toDigits_isdigit (n : Nat) : ∀ c ∈ Nat.toDigits 10 n, isdigit c = true := by
  induction n using Nat.strong_induction_on with
  | _ n ih =>
    by_cases h : n < 10
    · rw [toDigits_lt 10 n h]
      intro c hc
      simp at hc
      subst hc
      exact digitChar_isdigit n h
    · rw [toDigits_ge 10 n (by omega) (by omega)]
      intro c hc
      simp only [List.mem_append, List.mem_singleton] at hc
      rcases hc with hc | hc
      · exact ih (n / 10) (Nat.div_lt_self (by omega) (by omega)) c hc
      · subst hc
        exact digitChar_isdigit _ (Nat.mod_lt _ (by omega))

theorem decValue_toDigits (n : Nat) : decValue (Nat.toDigits 10 n) = n := by
  induction n using Nat.strong_induction_on with
  | _ n ih =>
    by_cases h : n < 10
    · rw [toDigits_lt 10 n h]
      simp [decValue, digitChar_value n h]
    · rw [toDigits_ge 10 n (by omega) (by omega)]
      have h1 := ih (n / 10) (Nat.div_lt_self (by omega) (by omega))
      have h2 := digitChar_value (n % 10) (Nat.mod_lt _ (by omega))
      simp only [decValue, List.foldl_append, List.foldl_cons, List.foldl_nil] at h1 ⊢
      rw [h1, h2]
      omega

theorem toDigits_ne_nil (n : Nat) : Nat.toDigits 10 n ≠ [] := by
  by_cases h : n < 10
  · rw [toDigits_lt 10 n h]; simp
  · rw [toDigits_ge 10 n (by omega) (by omega)]; simp

/-! ## Binary words -/

theorem bitset15_data (v : Int) :
    (bitset15 v).data = (List.range 15).reverse.map
      (fun i => if (v % 18446744073709551616).toNat / 2 ^ i % 2 = 1 then '1' else '0') := rfl

theorem bits_fold (val : Nat) : ∀ (k acc : Nat),
    ((List.range k).reverse.map
      (fun i => if val / 2 ^ i % 2 = 1 then '1' else '0')).foldl
      (fun acc c => 2 * acc + (if c = '1' then 1 else 0)) acc = acc * 2 ^ k + val % 2 ^ k := by
  intro k
  induction k with
  | zero => intro acc; simp [Nat.mod_one]
  | succ k ih =>
    intro acc
    rw [List.range_succ, List.reverse_append]
    simp only [List.reverse_cons, List.reverse_nil, List.nil_append, List.singleton_append,
      List.map_cons, List.foldl_cons]
    rw [ih, Nat.mod_pow_succ]
    have h2 : val / 2 ^ k % 2 < 2 := Nat.mod_lt _ (by omega)
    by_cases hb : val / 2 ^ k % 2 = 1
    · simp [hb]; ring
    · have h0 : val / 2 ^ k % 2 = 0 := by omega
      simp [h0]; ring

theorem bitset15_length (v : Int) : (bitset15 v).length = 15 := by
  simp [String.length, bitset15_data]

theorem bitset15_binary (v : Int) : ∀ c ∈ (bitset15 v).toList, c = '0' ∨ c = '1' := by
  intro c hc
  simp only [String.toList, bitset15_data, List.mem_map] at hc
  obtain ⟨i, _, hi⟩ := hc
  split at hi <;> simp [← hi]

theorem bitset15_value (v : Int) : binaryValue (bitset15 v) = (v % 32768).toNat := by
  simp only [binaryValue, String.toList, bitset15_data]
  rw [bits_fold]
  have h1 : (0:Int) ≤ v % 18446744073709551616 := Int.emod_nonneg _ (by decide)
  have h2 : (0:Int) ≤ v % 32768 := Int.emod_nonneg _ (by decide)
  zify
  rw [Int.toNat_of_nonneg h1, Int.toNat_of_nonneg h2]
  norm_num

theorem bitset15_value_nat (n : Nat) (h : n < 32768) : binaryValue (bitset15 n) = n := by
  rw [bitset15_value]; omega

/-! ## The end-to-end example and constant A-instructions -/

/-- The outcome of parsing the one-line source `@ds` for a digit string `ds`,
by the value of the digits. -/
theorem parse_A_digits (d : Char) (ds : List Char)
    (hd : isdigit d = true) (hds : ∀ c ∈ ds, isdigit c = true) :
    parse ('@' :: (d :: ds ++ ['\n'])) =
      if decValue (d :: ds) ≤ 24576 then
        .ok ⟨⟨TOK_EOF, eofText⟩, [], [.AInstrAST (.ConstantExprAST (decValue (d :: ds)))], []⟩
      else if decValue (d :: ds) ≤ 2147483647 then .error .constantOutOfRange
      else .error .stoiOutOfRange := by
  rw [parse_A_number d ds hd hds]
  by_cases h1 : decValue (d :: ds) ≤ 24576
  · have h2 : ¬ (decValue (d :: ds) > 2147483647) := by omega
    have h3 : ¬ ((decValue (d :: ds) : Int) > 24576) := by omega
    have h0 : ¬ ((decValue (d :: ds) : Int) < 0) := by omega
    simp [stoi, mkConstantExprAST, h1, h2, h3, h0, bind, Except.bind, pure, Except.pure]
  · by_cases h2 : decValue (d :: ds) ≤ 2147483647
    · have h3 : ¬ (decValue (d :: ds) > 2147483647) := by omega
      have h4 : ((decValue (d :: ds) : Int) > 24576) := by omega
      simp [stoi, mkConstantExprAST, h1, h2, h3, h4, bind, Except.bind, pure, Except.pure]
    · have h3 : (decValue (d :: ds) > 2147483647) := by omega
      simp [stoi, h1, h2, h3, bind, Except.bind]

theorem toString_toList (n : Nat) : (toString n).toList = Nat.toDigits 10 n := rfl

theorem at_line_toList (n : Nat) :
    ("@" ++ toString n ++ "\n").toList = '@' :: (Nat.toDigits 10 n ++ ['\n']) := by
  simp [String.toList, toString, Nat.repr, List.asString]

/-- C1: translating (parse, then link on a fresh symbol table) the six-line
source `@2`, `D=A`, `@3`, `D=D+A`, `@0`, `M=D`, every line ended by a line break,
yields exactly the six expected words, in that order. -/
theorem translate_example :
    translate "@2\nD=A\n@3\nD=D+A\n@0\nM=D\n".toList =
      .ok ["0000000000000010", "1110110000010000", "0000000000000011",
           "1110000010010000", "0000000000000000", "1110001100001000"] := by
  decide

/-- C2: for every `n` with `0 ≤ n ≤ 24576` the line `@n`, `n` written in
decimal, is translated to the single word made of the character 0 followed by
`bitset15 n`, which has 15 binary digits whose value is `n`. -/
theorem translate_constant (n : Nat) (h : n ≤ 24576) :
    translate ("@" ++ toString n ++ "\n").toList = .ok ["0" ++ bitset15 n] ∧
    ("0" ++ bitset15 n).length = 16 ∧
    (bitset15 n).length = 15 ∧
    (∀ c ∈ (bitset15 n).toList, c = '0' ∨ c = '1') ∧
    binaryValue (bitset15 n) = n := by
  refine ⟨?_, ?_, bitset15_length _, bitset15_binary _, bitset15_value_nat n (by omega)⟩
  · rw [at_line_toList]
    have hv := decValue_toDigits n
    have hdig := toDigits_isdigit n
    cases hds : Nat.toDigits 10 n with
    | nil => exact absurd hds (toDigits_ne_nil n)
    | cons d ds =>
      rw [hds] at hv hdig
      have hp := parse_A_digits d ds (hdig d (by simp)) (fun c hc => hdig c (by simp [hc]))
      rw [hv, if_pos h] at hp
      simp only [List.cons_append] at hp
      simp only [translate, List.cons_append, hp, link, bind, Except.bind]
      rw [List.mapM_cons, List.mapM_nil]
      simp [InstrAST.codegen, bind, Except.bind, pure, Except.pure]
  · rw [String.length_append, bitset15_length]; rfl

theorem translate_constant_witness :
    (24576 ≤ 24576) ∧
    translate ("@" ++ toString 24576 ++ "\n").toList = .ok ["0" ++ bitset15 (24576 : Nat)] ∧
    ("0" ++ bitset15 (24576 : Nat)).length = 16 ∧
    (bitset15 (24576 : Nat)).length = 15 ∧
    (∀ c ∈ (bitset15 (24576 : Nat)).toList, c = '0' ∨ c = '1') ∧
    binaryValue (bitset15 (24576 : Nat)) = 24576 :=
  ⟨by decide, translate_constant 24576 (by decide)⟩

/-- C3: an A-instruction whose operand is a number token (a non-empty string
of decimal digits `ds` denoting `n`) is accepted by the parser if and only if
`n ≤ 24576`; for `n ≥ 24577` the parser raises the range error of the constant
node, or that of `std::stoi` when `n` does not fit an `int`. -/
theorem parse_constant_accepted_iff (n : Nat) (ds : List Char) (hne : ds ≠ [])
    (hds : ∀ c ∈ ds, isdigit c = true) (hv : decValue ds = n) :
    ((∃ a, parse ('@' :: (ds ++ ['\n'])) = .ok a) ↔ n ≤ 24576) ∧
    (n ≤ 24576 → parse ('@' :: (ds ++ ['\n'])) =
        .ok ⟨⟨TOK_EOF, eofText⟩, [], [.AInstrAST (.ConstantExprAST n)], []⟩) ∧
    (24577 ≤ n → parse ('@' :: (ds ++ ['\n'])) =
        .error (if n ≤ 2147483647 then .constantOutOfRange else .stoiOutOfRange)) := by
  cases ds with
  | nil => exact absurd rfl hne
  | cons d ds =>
    have hp := parse_A_digits d ds (hds d (by simp)) (fun c hc => hds c (by simp [hc]))
    rw [hv] at hp
    simp only [List.cons_append] at hp ⊢
    rw [hp]
    refine ⟨?_, ?_, ?_⟩
    · by_cases h1 : n ≤ 24576
      · simp [h1]
      · by_cases h2 : n ≤ 2147483647 <;> simp [h1, h2]
    · intro h1; simp [h1]
    · intro h1
      have h2 : ¬ n ≤ 24576 := by omega
      by_cases h3 : n ≤ 2147483647 <;> simp [h2, h3]

theorem parse_constant_accepted_iff_witness :
    (∃ a, parse "@24576\n".toList = .ok a) ∧
    parse "@24577\n".toList = .error .constantOutOfRange ∧
    parse "@2147483648\n".toList = .error .stoiOutOfRange :=
  ⟨((parse_constant_accepted_iff 24576 "24576".toList (by decide) (by decide) (by decide)).1).2
      (by decide),
   (parse_constant_accepted_iff 24577 "24577".toList (by decide) (by decide) (by decide)).2.2
      (by decide),
   (parse_constant_accepted_iff 2147483648 "2147483648".toList (by decide) (by decide)
      (by decide)).2.2 (by decide)⟩

/-! ## Code generation of C-instructions -/

theorem isdest_cases (s : String) (h : isdest s = true) :
    s = "M" ∨ s = "D" ∨ s = "MD" ∨ s = "A" ∨ s = "AM" ∨ s = "AD" ∨ s = "AMD" := by
  simpa [isdest, or_assoc] using h

theorem isjmp_cases (s : String) (h : isjmp s = true) :
    s = "JMP" ∨ s = "JEQ" ∨ s = "JGT" ∨ s = "JLT" ∨ s = "JNE" ∨ s = "JGE" ∨ s = "JLE" := by
  simpa [isjmp, or_assoc] using h

theorem dest_lookup (s : String) (h : isdest s = true) :
    ∃ code, dest_to_bincode.lookup s = some code := by
  rcases isdest_cases s h with h | h | h | h | h | h | h <;> subst h <;> exact ⟨_, rfl⟩

theorem jmp_lookup (s : String) (h : isjmp s = true) :
    ∃ code, jmp_to_bincode.lookup s = some code := by
  rcases isjmp_cases s h with h | h | h | h | h | h | h <;> subst h <;> exact ⟨_, rfl⟩

/-- C4: for a C-instruction with a legal dest (or none), a comp text that is a
key of the comp table and a legal jump (or none), the emitted word is "111"
followed by the comp code, the dest code and the jump code of the tables; an
absent dest and an absent jump are looked up as the empty key, whose code is
"000". -/
theorem codegen_CInstr (ctx : SymbolTable) (dest : Option DestAST) (comp : CompAST)
    (jump : Option JmpAST) (cc : String)
    (hd : ∀ d, dest = some d → isdest d.dest = true)
    (hc : comp_to_bincode.lookup comp.raw = some cc)
    (hj : ∀ j, jump = some j → isjmp j.jmp = true) :
    ∃ dc jc,
      dest_to_bincode.lookup ((dest.map (fun d => d.dest)).getD "") = some dc ∧
      jmp_to_bincode.lookup ((jump.map (fun j => j.jmp)).getD "") = some jc ∧
      InstrAST.codegen ctx (.CInstrAST dest comp jump) = .ok ("111" ++ cc ++ dc ++ jc) ∧
      (dest = none → dc = "000") ∧ (jump = none → jc = "000") := by
  cases dest with
  | none =>
    cases jump with
    | none =>
      exact ⟨"000", "000", rfl, rfl,
        by simp [InstrAST.codegen, CompAST.codegen, mapAt, hc, bind, Except.bind, pure,
          Except.pure], fun _ => rfl, fun _ => rfl⟩
    | some j =>
      obtain ⟨jc, hjc⟩ := jmp_lookup j.jmp (hj j rfl)
      exact ⟨"000", jc, rfl, hjc,
        by simp [InstrAST.codegen, CompAST.codegen, JmpAST.codegen, mapAt, hc, hjc, bind,
          Except.bind, pure, Except.pure], fun _ => rfl, by simp⟩
  | some d =>
    obtain ⟨dc, hdc⟩ := dest_lookup d.dest (hd d rfl)
    cases jump with
    | none =>
      exact ⟨dc, "000", hdc, rfl,
        by simp [InstrAST.codegen, CompAST.codegen, DestAST.codegen, mapAt, hc, hdc, bind,
          Except.bind, pure, Except.pure], by simp, fun _ => rfl⟩
    | some j =>
      obtain ⟨jc, hjc⟩ := jmp_lookup j.jmp (hj j rfl)
      exact ⟨dc, jc, hdc, hjc,
        by simp [InstrAST.codegen, CompAST.codegen, DestAST.codegen, JmpAST.codegen, mapAt, hc,
          hdc, hjc, bind, Except.bind, pure, Except.pure], by simp, by simp⟩

theorem codegen_CInstr_witness :
    ∃ dc jc,
      dest_to_bincode.lookup "AMD" = some dc ∧
      jmp_to_bincode.lookup "" = some jc ∧
      InstrAST.codegen SymbolTable.clear
        (.CInstrAST (some ⟨"AMD"⟩) ⟨false, "D+1", "+", none, none⟩ none) =
          .ok ("111" ++ "0011111" ++ dc ++ jc) ∧
      ((some (DestAST.mk "AMD") = none) → dc = "000") ∧ ((none : Option JmpAST) = none → jc = "000") :=
  codegen_CInstr SymbolTable.clear (some ⟨"AMD"⟩) ⟨false, "D+1", "+", none, none⟩ none "0011111"
    (by decide) (by decide) (by decide)

/-! ## The symbol table during link -/

theorem putwinc_lookup_self (t : SymbolTable) (n : String)
    (h : t.tbl.lookup n = none) : (t.putwinc n).tbl.lookup n = some t.freeaddr := by
  simp [SymbolTable.putwinc, h, List.lookup_cons]

theorem putwinc_lookup_bound (t : SymbolTable) (n x : String) (v : Int)
    (h : t.tbl.lookup x = some v) : (t.putwinc n).tbl.lookup x = some v := by
  unfold SymbolTable.putwinc
  split
  · exact h
  · rename_i hn
    have hne : (x == n) = false := by
      by_contra hc
      simp at hc
      subst hc
      simp [h] at hn
    simp [List.lookup_cons, hne, h]

theorem putwinc_lookup_other (t : SymbolTable) (n x : String) (h : x ≠ n) :
    (t.putwinc n).tbl.lookup x = t.tbl.lookup x := by
  unfold SymbolTable.putwinc
  split
  · rfl
  · have hne : (x == n) = false := by simp [h]
    simp [List.lookup_cons, hne]

/-- The variable loop of `link` is `putwinc` folded over the symbol operands. -/
theorem linkSymbols_eq (ins : List InstrAST) : ∀ t : SymbolTable,
    linkSymbols ins t = (symbolOperands ins).foldl SymbolTable.putwinc t := by
  induction ins with
  | nil => intro t; rfl
  | cons i ins ih =>
    intro t
    simp only [linkSymbols, List.foldl_cons] at ih ⊢
    rcases i with ⟨v | n⟩ | ⟨d, c, j⟩
    · simpa [symbolOperands] using ih t
    · simpa [symbolOperands] using ih (t.putwinc n)
    · simpa [symbolOperands] using ih t

theorem foldl_putwinc_bound (ns : List String) : ∀ (t : SymbolTable) (x : String) (v : Int),
    t.tbl.lookup x = some v → (ns.foldl SymbolTable.putwinc t).tbl.lookup x = some v := by
  induction ns with
  | nil => intro t x v h; exact h
  | cons n ns ih =>
    intro t x v h
    exact ih (t.putwinc n) x v (putwinc_lookup_bound t n x v h)

theorem firstOccurrences_filter (p : String → Bool) : ∀ l : List String,
    firstOccurrences (l.filter p) = (firstOccurrences l).filter p := by
  intro l
  induction l with
  | nil => rfl
  | cons x xs ih =>
    by_cases hx : p x = true
    · simp only [List.filter_cons, hx, if_true, firstOccurrences, ih, List.filter_filter]
      congr 1
      apply List.filter_congr
      intro y _
      exact Bool.and_comm _ _
    · simp only [Bool.not_eq_true] at hx
      simp only [List.filter_cons, hx, firstOccurrences, List.filter_filter]
      simp only [Bool.false_eq_true, if_false]
      rw [ih]
      apply List.filter_congr
      intro y _
      by_cases hy : y = x
      · subst hy; simp [hx]
      · simp [hy]

/-- The addresses `putwinc` hands out: the `k`-th distinct unbound name of the
list receives `freeaddr + k`. -/
theorem foldl_putwinc_fresh (ns : List String) : ∀ (t : SymbolTable) (k : Nat) (x : String),
    (firstOccurrences (ns.filter (fun n => (t.tbl.lookup n).isNone)))[k]? = some x →
    (ns.foldl SymbolTable.putwinc t).tbl.lookup x = some (t.freeaddr + k) := by
  induction ns with
  | nil => intro t k x h; simp [firstOccurrences] at h
  | cons n ns ih =>
    intro t k x h
    by_cases hn : t.tbl.lookup n = none
    · have hfilter : (ns.filter (fun m => ((t.putwinc n).tbl.lookup m).isNone)) =
          (ns.filter (fun m => (t.tbl.lookup m).isNone)).filter (fun y => y ≠ n) := by
        rw [List.filter_filter]
        apply List.filter_congr
        intro y _
        by_cases hy : y = n
        · subst hy; simp [putwinc_lookup_self t y hn]
        · simp [putwinc_lookup_other t n y hy, hy]
      have hfree : (t.putwinc n).freeaddr = t.freeaddr + 1 := by
        simp [SymbolTable.putwinc, hn]
      simp only [List.filter_cons, hn, Option.isNone_none, if_true, firstOccurrences] at h
      cases k with
      | zero =>
        simp at h
        subst h
        simpa using foldl_putwinc_bound ns (t.putwinc n) n t.freeaddr (putwinc_lookup_self t n hn)
      | succ k =>
        simp only [List.getElem?_cons_succ] at h
        rw [← firstOccurrences_filter, ← hfilter] at h
        have := ih (t.putwinc n) k x h
        simp only [List.foldl_cons, this, hfree]
        push_cast
        congr 1
        ring
    · have hsome : (t.tbl.lookup n).isSome = true := by
        cases hl : t.tbl.lookup n with
        | none => exact absurd hl hn
        | some v => rfl
      have hput : t.putwinc n = t := by simp [SymbolTable.putwinc, hsome]
      have hnone : (t.tbl.lookup n).isNone = false := by
        cases hl : t.tbl.lookup n with
        | none => exact absurd hl hn
        | some v => rfl
      simp only [List.filter_cons, hnone, Bool.false_eq_true, if_false] at h
      simpa [hput] using ih t k x h

theorem linkLabels_freeaddr (ls : List LabelAST) : ∀ t : SymbolTable,
    (linkLabels ls t).freeaddr = t.freeaddr := by
  induction ls with
  | nil => intro t; rfl
  | cons l ls ih =>
    intro t
    simp only [linkLabels, List.foldl_cons] at ih ⊢
    rw [ih]
    rfl

theorem linkLabels_isNone (ls : List LabelAST) : ∀ (t : SymbolTable) (x : String),
    ((linkLabels ls t).tbl.lookup x).isNone =
      ((t.tbl.lookup x).isNone && !(ls.map (fun l => l.label)).contains x) := by
  induction ls with
  | nil => intro t x; simp [linkLabels]
  | cons l ls ih =>
    intro t x
    simp only [linkLabels, List.foldl_cons] at ih ⊢
    rw [ih]
    by_cases hx : x = l.label
    · subst hx
      simp [SymbolTable.putwaddr, List.lookup_cons]
    · have hne : (x == l.label) = false := by simp [hx]
      simp [SymbolTable.putwaddr, List.lookup_cons, hne, hx]

theorem linkLabels_other (ls : List LabelAST) (x : String)
    (h : x ∉ ls.map (fun l => l.label)) : ∀ t : SymbolTable,
    (linkLabels ls t).tbl.lookup x = t.tbl.lookup x := by
  induction ls with
  | nil => intro t; rfl
  | cons l ls ih =>
    intro t
    simp only [List.map_cons, List.mem_cons, not_or] at h
    simp only [linkLabels, List.foldl_cons] at ih ⊢
    rw [ih h.2]
    have hne : (x == l.label) = false := by simp [h.1]
    simp [SymbolTable.putwaddr, List.lookup_cons, hne]

theorem linkLabels_append (l1 l2 : List LabelAST) (t : SymbolTable) :
    linkLabels (l1 ++ l2) t = linkLabels l2 (linkLabels l1 t) := by
  simp [linkLabels, List.foldl_append]

/-- A label declared exactly once is bound to its location by the label loop. -/
theorem linkLabels_once (ls : List LabelAST) (L : String) (p : Int) (t : SymbolTable)
    (hmem : (⟨L, p⟩ : LabelAST) ∈ ls) (honce : (ls.map (fun l => l.label)).count L = 1) :
    (linkLabels ls t).tbl.lookup L = some p := by
  obtain ⟨l1, l2, rfl⟩ := List.append_of_mem hmem
  simp only [List.map_append, List.map_cons, List.count_append, List.count_cons_self] at honce
  have h1 : L ∉ l1.map (fun l => l.label) := by
    intro hc
    have := List.count_pos_iff.2 hc
    omega
  have h2 : L ∉ l2.map (fun l => l.label) := by
    intro hc
    have := List.count_pos_iff.2 hc
    omega
  rw [linkLabels_append]
  have : linkLabels (⟨L, p⟩ :: l2) (linkLabels l1 t) =
      linkLabels l2 ((linkLabels l1 t).putwaddr L p) := rfl
  rw [this, linkLabels_other l2 L h2]
  simp [SymbolTable.putwaddr, List.lookup_cons]

theorem firstOccurrences_mem (l : List String) (x : String) :
    x ∈ firstOccurrences l ↔ x ∈ l := by
  induction l with
  | nil => simp [firstOccurrences]
  | cons y ys ih =>
    simp only [firstOccurrences, List.mem_cons, List.mem_filter, ih]
    by_cases h : x = y <;> simp [h]

theorem firstOccurrences_nodup (l : List String) : (firstOccurrences l).Nodup := by
  induction l with
  | nil => simp [firstOccurrences]
  | cons y ys ih =>
    simp only [firstOccurrences, List.nodup_cons]
    exact ⟨by simp [List.mem_filter], ih.filter _⟩

/-- The symbol table after the two loops of `link`, on a fresh table: the
`k`-th variable is bound to `16 + k`. -/
theorem linkTable_variable (ins : List InstrAST) (labels : List LabelAST) (k : Nat)
    (name : String) (h : (variableNames ins labels)[k]? = some name) :
    (linkTable ins labels SymbolTable.clear).tbl.lookup name = some (16 + (k : Int)) := by
  rw [linkTable, linkSymbols_eq]
  have hf := foldl_putwinc_fresh (symbolOperands ins) (linkLabels labels SymbolTable.clear) k name
  rw [linkLabels_freeaddr] at hf
  apply hf
  have hp : (fun n => ((linkLabels labels SymbolTable.clear).tbl.lookup n).isNone) =
      (fun n => (presymbols_to_addr.lookup n).isNone &&
        !(labels.map (fun l => l.label)).contains n) := by
    funext n
    rw [linkLabels_isNone]
    rfl
  rw [hp]
  exact h

/-! ## Inversion of the parser on label declarations -/

theorem bind_ok {α β : Type} (x : Except Err α) (f : α → Except Err β) (b : β) :
    (x >>= f) = .ok b ↔ ∃ a, x = .ok a ∧ f a = .ok b := by
  cases x with
  | error e => simp [bind, Except.bind]
  | ok a => simp [bind, Except.bind]

theorem ite_throw_ok (c : Prop) [Decidable c] (e : Err) (u : PUnit) :
    (if c then throw e else pure PUnit.unit : Except Err PUnit) = .ok u ↔ ¬ c := by
  by_cases h : c <;> simp [h, throw, throwThe, MonadExceptOf.throw, pure, Except.pure]

theorem pure_ok {α : Type} (a b : α) : (pure a : Except Err α) = .ok b ↔ a = b := by
  simp [pure, Except.pure]

theorem advance_ok (a b : State) (h : advance a = .ok b) :
    ∃ t r, nexttok a.lexer = .ok (t, r) ∧ b = { a with cur_tok := t, lexer := r } := by
  unfold advance at h
  cases hn : nexttok a.lexer with
  | error e => simp [hn, bind, Except.bind] at h
  | ok tr =>
    simp [hn, bind, Except.bind, pure, Except.pure] at h
    exact ⟨tr.1, tr.2, rfl, h.symm⟩

theorem advance_ins (a b : State) (h : advance a = .ok b) :
    b.ins = a.ins ∧ b.labels = a.labels := by
  obtain ⟨t, r, _, rfl⟩ := advance_ok a b h
  exact ⟨rfl, rfl⟩

/-- A label declaration records the number of real instructions parsed so
far and leaves the instruction list alone. -/
theorem parseLabelInstr_ok (a b : State) (l : LabelAST) (h : parseLabelInstr a = .ok (l, b)) :
    l.location = (a.ins.length : Int) ∧ b.ins = a.ins ∧ b.labels = a.labels := by
  simp only [parseLabelInstr, bind_ok] at h
  obtain ⟨a1, h1, h⟩ := h
  obtain ⟨i1, l1⟩ := advance_ins a a1 h1
  split at h
  · simp at h
  · split at h
    · simp at h
    · simp only [bind_ok] at h
      obtain ⟨a2, h2, h⟩ := h
      obtain ⟨i2, l2⟩ := advance_ins a1 a2 h2
      split at h
      · simp at h
      · simp only [bind_ok, pure_ok, Prod.mk.injEq] at h
        obtain ⟨a3, h3, rfl, rfl⟩ := h
        obtain ⟨i3, l3⟩ := advance_ins a2 a3 h3
        simp [i1, i2, i3, l1, l2, l3]

theorem parseDefault_label (a b : State) (hv : a.cur_tok.value = "(")
    (h : parseDefault a = .ok b) :
    ∃ name, b.labels = a.labels ++ [⟨name, (a.ins.length : Int)⟩] ∧ b.ins = a.ins := by
  simp only [parseDefault, hv, if_true, bind_ok, pure_ok] at h
  obtain ⟨c, ⟨r, h1, rfl⟩, _, _, rfl⟩ := h
  obtain ⟨hl, hi, hls⟩ := parseLabelInstr_ok a r.2 r.1 h1
  refine ⟨r.1.label, ?_, hi⟩
  simp only [hls, ← hl]

/-! ## Variables and labels -/

theorem linkSymbols_cons (i : InstrAST) (ins : List InstrAST) (t : SymbolTable) :
    linkSymbols (i :: ins) t = linkSymbols ins (linkSymbols [i] t) := rfl

theorem linkSymbols_single_bound (i : InstrAST) (t : SymbolTable) (x : String) (v : Int)
    (h : t.tbl.lookup x = some v) : (linkSymbols [i] t).tbl.lookup x = some v := by
  rw [linkSymbols_eq]
  exact foldl_putwinc_bound _ t x v h

/-- References to a bound name do not touch the symbol table. -/
theorem linkSymbols_filter (L : String) (ins : List InstrAST) : ∀ (t : SymbolTable) (v : Int),
    t.tbl.lookup L = some v →
    linkSymbols ins t =
      linkSymbols (ins.filter (fun i => i ≠ .AInstrAST (.SymbolExprAST L))) t := by
  induction ins with
  | nil => intro t v _; rfl
  | cons i ins ih =>
    intro t v h
    by_cases hi : i = .AInstrAST (.SymbolExprAST L)
    · subst hi
      have hno : linkSymbols [.AInstrAST (.SymbolExprAST L)] t = t := by
        simp [linkSymbols, SymbolTable.putwinc, h]
      rw [linkSymbols_cons, hno]
      simpa using ih t v h
    · have hf : (i :: ins).filter (fun i => i ≠ .AInstrAST (.SymbolExprAST L)) =
          i :: ins.filter (fun i => i ≠ .AInstrAST (.SymbolExprAST L)) := by
        simp [List.filter_cons, hi]
      rw [hf, linkSymbols_cons, linkSymbols_cons i]
      exact ih _ v (linkSymbols_single_bound i t L v h)

/-- C5: on a fresh symbol table, the `k`-th variable of the program (the
distinct A-instruction symbol operands that are neither predefined nor
declared as a label, in order of first appearance) resolves to `16 + k` after
the two loops of `link`, every `@name` for it emits the word of `16 + k`, and
the variables are pairwise distinct, so distinct variables get distinct,
increasing addresses. -/
theorem variable_address (ins : List InstrAST) (labels : List LabelAST) (k : Nat)
    (name : String) (h : (variableNames ins labels)[k]? = some name) :
    (linkTable ins labels SymbolTable.clear).get name = .ok (16 + (k : Int)) ∧
    InstrAST.codegen (linkTable ins labels SymbolTable.clear)
        (.AInstrAST (.SymbolExprAST name)) = .ok ("0" ++ bitset15 (16 + (k : Int))) ∧
    (variableNames ins labels).Nodup ∧
    (∀ j other, (variableNames ins labels)[j]? = some other → j ≠ k → other ≠ name) := by
  have hl := linkTable_variable ins labels k name h
  refine ⟨by simp [SymbolTable.get, hl], by simp [InstrAST.codegen, SymbolTable.get, hl, bind,
    Except.bind, pure, Except.pure], firstOccurrences_nodup _, ?_⟩
  intro j other hj hjk heq
  subst heq
  have hnd : (variableNames ins labels).Nodup := firstOccurrences_nodup _
  obtain ⟨hj1, hj2⟩ := List.getElem?_eq_some_iff.1 hj
  obtain ⟨hk1, hk2⟩ := List.getElem?_eq_some_iff.1 h
  exact hjk ((List.Nodup.getElem_inj_iff hnd).1 (hj2.trans hk2.symm))

theorem variable_address_witness :
    (linkTable [.AInstrAST (.SymbolExprAST "j"), .AInstrAST (.SymbolExprAST "LOOP"),
        .AInstrAST (.SymbolExprAST "R5"), .AInstrAST (.SymbolExprAST "i"),
        .AInstrAST (.SymbolExprAST "j")] [⟨"LOOP", 4⟩] SymbolTable.clear).get "i" =
      .ok (16 + ((1 : Nat) : Int)) :=
  (variable_address [.AInstrAST (.SymbolExprAST "j"), .AInstrAST (.SymbolExprAST "LOOP"),
        .AInstrAST (.SymbolExprAST "R5"), .AInstrAST (.SymbolExprAST "i"),
        .AInstrAST (.SymbolExprAST "j")] [⟨"LOOP", 4⟩] 1 "i" (by decide)).1

/-! ## The emitted words -/

theorem mapM_ok_cons {α β : Type} (f : α → Except Err β) (a : α) (l : List α) (out : List β) :
    (a :: l).mapM f = .ok out ↔ ∃ b bs, f a = .ok b ∧ l.mapM f = .ok bs ∧ out = b :: bs := by
  rw [List.mapM_cons]
  simp only [bind_ok, pure_ok]
  constructor
  · rintro ⟨b, hb, bs, hbs, rfl⟩
    exact ⟨b, bs, hb, hbs, rfl⟩
  · rintro ⟨b, bs, hb, hbs, rfl⟩
    exact ⟨b, hb, bs, hbs, rfl⟩

/-- A successful `mapM` yields one result per element, in order. -/
theorem mapM_ok_get {α β : Type} (f : α → Except Err β) : ∀ (l : List α) (out : List β),
    l.mapM f = .ok out →
    out.length = l.length ∧
    (∀ (i : Nat) (a : α), l[i]? = some a → ∃ b, out[i]? = some b ∧ f a = .ok b) ∧
    (∀ b ∈ out, ∃ a ∈ l, f a = .ok b) := by
  intro l
  induction l with
  | nil =>
    intro out h
    rw [List.mapM_nil, pure_ok] at h
    subst h
    simp
  | cons x xs ih =>
    intro out h
    obtain ⟨b, bs, hb, hbs, rfl⟩ := (mapM_ok_cons f x xs out).1 h
    obtain ⟨h1, h2, h3⟩ := ih bs hbs
    refine ⟨by simp [h1], ?_, ?_⟩
    · intro i a hi
      cases i with
      | zero =>
        simp at hi
        subst hi
        exact ⟨b, by simp, hb⟩
      | succ i =>
        simp only [List.getElem?_cons_succ] at hi ⊢
        exact h2 i a hi
    · intro w hw
      simp only [List.mem_cons] at hw
      rcases hw with rfl | hw
      · exact ⟨x, by simp, hb⟩
      · obtain ⟨a, ha, hfa⟩ := h3 w hw
        exact ⟨a, by simp [ha], hfa⟩

theorem lookup_mem_values (l : List (String × String)) (k v : String)
    (h : l.lookup k = some v) : v ∈ l.map Prod.snd := by
  induction l with
  | nil => simp at h
  | cons x xs ih =>
    obtain ⟨k1, v1⟩ := x
    simp only [List.lookup_cons] at h
    split at h
    · simp at h; simp [h]
    · simp [ih h]

theorem mapAt_ok (l : List (String × String)) (k v : String) (h : mapAt l k = .ok v) :
    v ∈ l.map Prod.snd := by
  unfold mapAt at h
  split at h
  · rename_i w hw
    simp at h
    subst h
    exact lookup_mem_values l k w hw
  · simp at h

/-- The codes of the three tables are binary words of 7, 3 and 3 digits. -/
theorem comp_codes : ∀ v ∈ comp_to_bincode.map Prod.snd,
    v.length = 7 ∧ ∀ c ∈ v.toList, c = '0' ∨ c = '1' := by
  decide

theorem dest_codes : ∀ v ∈ dest_to_bincode.map Prod.snd,
    v.length = 3 ∧ ∀ c ∈ v.toList, c = '0' ∨ c = '1' := by
  decide

theorem jmp_codes : ∀ v ∈ jmp_to_bincode.map Prod.snd,
    v.length = 3 ∧ ∀ c ∈ v.toList, c = '0' ∨ c = '1' := by
  decide

theorem toList_append (s t : String) : (s ++ t).toList = s.toList ++ t.toList := by
  simp [String.toList]

/-- Every emitted word has 16 binary digits. -/
theorem codegen_word (ctx : SymbolTable) (i : InstrAST) (w : String)
    (h : InstrAST.codegen ctx i = .ok w) :
    w.length = 16 ∧ ∀ c ∈ w.toList, c = '0' ∨ c = '1' := by
  rcases i with ⟨v | n⟩ | ⟨d, c, j⟩
  · simp only [InstrAST.codegen, pure_ok] at h
    subst h
    refine ⟨by rw [String.length_append, bitset15_length]; rfl, ?_⟩
    intro c hc
    rw [toList_append, List.mem_append] at hc
    rcases hc with hc | hc
    · simp [String.toList] at hc; simp [hc]
    · exact bitset15_binary _ c hc
  · simp only [InstrAST.codegen, bind_ok, pure_ok] at h
    obtain ⟨addr, _, rfl⟩ := h
    refine ⟨by rw [String.length_append, bitset15_length]; rfl, ?_⟩
    intro c hc
    rw [toList_append, List.mem_append] at hc
    rcases hc with hc | hc
    · simp [String.toList] at hc; simp [hc]
    · exact bitset15_binary _ c hc
  · simp only [InstrAST.codegen, bind_ok, pure_ok] at h
    obtain ⟨cc, hcc, dc, hdc, jc, hjc, rfl⟩ := h
    obtain ⟨c1, c2⟩ := comp_codes cc (mapAt_ok _ _ _ hcc)
    have hd : dc.length = 3 ∧ ∀ c ∈ dc.toList, c = '0' ∨ c = '1' := by
      cases d with
      | none => simp only [pure_ok] at hdc; subst hdc; decide
      | some d => exact dest_codes dc (mapAt_ok _ _ _ hdc)
    have hj : jc.length = 3 ∧ ∀ c ∈ jc.toList, c = '0' ∨ c = '1' := by
      cases j with
      | none => simp only [pure_ok] at hjc; subst hjc; decide
      | some j => exact jmp_codes jc (mapAt_ok _ _ _ hjc)
    refine ⟨by simp only [String.length_append, c1, hd.1, hj.1]; rfl, ?_⟩
    intro c hc
    simp only [toList_append, List.mem_append] at hc
    rcases hc with ((hc | hc) | hc) | hc
    · simp [String.toList] at hc
      simp [hc]
    · exact c2 c hc
    · exact hd.2 c hc
    · exact hj.2 c hc

/-! ## Output lines -/

theorem skipEOLLoop_ins : ∀ (fuel : Nat) (a b : State), skipEOLLoop fuel a = .ok b →
    b.ins = a.ins ∧ b.labels = a.labels := by
  intro fuel
  induction fuel with
  | zero => intro a b h; simp [skipEOLLoop] at h
  | succ fuel ih =>
    intro a b h
    simp only [skipEOLLoop] at h
    split at h
    · simp only [bind_ok] at h
      obtain ⟨c, hc, h⟩ := h
      obtain ⟨h1, h2⟩ := advance_ins a c hc
      obtain ⟨h3, h4⟩ := ih c b h
      exact ⟨h3.trans h1, h4.trans h2⟩
    · simp only [pure_ok] at h
      subst h
      exact ⟨rfl, rfl⟩

theorem skipEOL_ins (a b : State) (h : skipEOL a = .ok b) :
    b.ins = a.ins ∧ b.labels = a.labels :=
  skipEOLLoop_ins _ a b h

theorem parseAInstr_ins (a b : State) (i : InstrAST) (h : parseAInstr a = .ok (i, b)) :
    b.ins = a.ins ∧ b.labels = a.labels := by
  simp only [parseAInstr, bind_ok, pure_ok, Prod.mk.injEq] at h
  obtain ⟨a1, h1, e, _, a2, h2, _, rfl⟩ := h
  obtain ⟨h3, h4⟩ := advance_ins a a1 h1
  obtain ⟨h5, h6⟩ := advance_ins a1 a2 h2
  exact ⟨h5.trans h3, h6.trans h4⟩

theorem parseJump_ins (a b : State) (j : Option JmpAST) (h : parseJump a = .ok (j, b)) :
    b.ins = a.ins ∧ b.labels = a.labels := by
  unfold parseJump at h
  split at h
  · simp only [bind_ok] at h
    obtain ⟨a1, h1, h⟩ := h
    split at h
    · simp at h
    · simp only [bind_ok, pure_ok, Prod.mk.injEq] at h
      obtain ⟨a2, h2, _, rfl⟩ := h
      obtain ⟨h3, h4⟩ := advance_ins a a1 h1
      obtain ⟨h5, h6⟩ := advance_ins a1 a2 h2
      exact ⟨h5.trans h3, h6.trans h4⟩
  · simp only [pure_ok, Prod.mk.injEq] at h
    obtain ⟨_, rfl⟩ := h
    exact ⟨rfl, rfl⟩

theorem parseCInstr_ins (a b : State) (i : InstrAST) (h : parseCInstr a = .ok (i, b)) :
    b.ins = a.ins ∧ b.labels = a.labels := by
  simp only [parseCInstr, bind_ok, pure_ok, Prod.mk.injEq] at h
  obtain ⟨r, _, s, _, isM, _, lhs, _, rhs, _, j, hj, _, rfl⟩ := h
  exact parseJump_ins { a with cur_tok := s.cur_tok, lexer := s.lexer } j.2 j.1 hj

/-- The branch of the parse loop for a real instruction appends exactly one
instruction and no label. -/
theorem parseDefault_instr (a b : State) (hv : a.cur_tok.value ≠ "(")
    (h : parseDefault a = .ok b) :
    ∃ i, b.ins = a.ins ++ [i] ∧ b.labels = a.labels := by
  simp only [parseDefault, hv, if_false, bind_ok, pure_ok] at h
  obtain ⟨c, hc, _, _, rfl⟩ := h
  split at hc
  · simp only [bind_ok, pure_ok] at hc
    obtain ⟨r, hr, rfl⟩ := hc
    obtain ⟨h1, h2⟩ := parseAInstr_ins a r.2 r.1 hr
    exact ⟨r.1, by simp [h1], h2⟩
  · simp only [bind_ok, pure_ok] at hc
    obtain ⟨r, hr, rfl⟩ := hc
    obtain ⟨h1, h2⟩ := parseCInstr_ins a r.2 r.1 hr
    exact ⟨r.1, by simp [h1], h2⟩

/-- The result of `link`: one word per instruction, in order. -/
theorem link_ok (ins : List InstrAST) (labels : List LabelAST) (ctx : SymbolTable)
    (out : List String) (h : link ins labels ctx = .ok out) :
    out.length = ins.length ∧
    (∀ (i : Nat) (instr : InstrAST), ins[i]? = some instr →
      ∃ w, out[i]? = some w ∧ InstrAST.codegen (linkTable ins labels ctx) instr = .ok w) ∧
    (∀ w ∈ out, w.length = 16 ∧ ∀ c ∈ w.toList, c = '0' ∨ c = '1') := by
  obtain ⟨h1, h2, h3⟩ := mapM_ok_get _ ins out h
  refine ⟨h1, h2, ?_⟩
  intro w hw
  obtain ⟨i, _, hi⟩ := h3 w hw
  exact codegen_word _ i w hi

theorem translate_ok (src : List Char) (out : List String) (h : translate src = .ok out) :
    ∃ a, parse src = .ok a ∧ link a.ins a.labels SymbolTable.clear = .ok out := by
  simpa only [translate, bind_ok] using h

/-- C8: when a program translates successfully, every output line has
exactly 16 characters and each of them is the character 0 or the character
1. -/
theorem translate_words (src : List Char) (out : List String)
    (h : translate src = .ok out) :
    ∀ w ∈ out, w.length = 16 ∧ ∀ c ∈ w.toList, c = '0' ∨ c = '1' := by
  obtain ⟨a, _, hl⟩ := translate_ok src out h
  exact (link_ok _ _ _ out hl).2.2

theorem translate_words_witness :
    translate "@21\nAMD=D-1;JNE\n".toList = .ok ["0000000000010101", "1110001110111101"] ∧
    ∀ w ∈ ["0000000000010101", "1110001110111101"],
      w.length = 16 ∧ ∀ c ∈ w.toList, c = '0' ∨ c = '1' :=
  ⟨by decide, translate_words "@21\nAMD=D-1;JNE\n".toList
    ["0000000000010101", "1110001110111101"] (by decide)⟩

/-! ## End of instruction, and the comp mnemonics -/

theorem expectEOInstr_ok_iff (a : State) :
    expectEOInstr a = .ok () ↔ (a.cur_tok.type = TOK_EOL ∨ a.cur_tok.type = TOK_COMMENT) := by
  unfold expectEOInstr
  by_cases h1 : a.cur_tok.type = TOK_EOL
  · simp [h1, pure, Except.pure]
  · by_cases h2 : a.cur_tok.type = TOK_COMMENT
    · simp [h2, pure, Except.pure]
    · simp [h1, h2]

theorem expectEOInstr_error (a : State)
    (h : ¬ (a.cur_tok.type = TOK_EOL ∨ a.cur_tok.type = TOK_COMMENT)) :
    expectEOInstr a = .error .expectedEOInstr := by
  unfold expectEOInstr
  simp only [not_or] at h
  simp [h.1, h.2]

/-- C9 as stated fails: the well-formed instructions `@2` and `D=A` are each
followed by the end-of-file token when they end the source without a line
break, and the parser rejects both sources with the end-of-instruction error. -/
theorem eof_after_instruction_rejected :
    parseAInstr ⟨⟨TOK_ANY, "@"⟩, "2".toList, [], []⟩ =
      .ok (.AInstrAST (.ConstantExprAST 2), ⟨⟨TOK_EOF, eofText⟩, [], [], []⟩) ∧
    parse "@2".toList = .error .expectedEOInstr ∧
    parseCInstr ⟨⟨TOK_IDENTIFIER, "D"⟩, "=A".toList, [], []⟩ =
      .ok (.CInstrAST (some ⟨"D"⟩) ⟨false, "A", "", none, some (.SymbolExprAST "A")⟩ none,
           ⟨⟨TOK_EOF, eofText⟩, [], [], []⟩) ∧
    parse "D=A".toList = .error .expectedEOInstr ∧
    translate "@2\nD=A".toList = .error .expectedEOInstr := by
  decide

/-- C9, amended: once a real instruction (A or C) has been parsed, the parser
accepts it, appending it to the instruction list, exactly when the token that
follows is end-of-line or a comment; for a following token of any other kind,
end-of-file included, it raises the end-of-instruction error. -/
theorem instruction_end (a a1 : State) (i : InstrAST) (hv : a.cur_tok.value ≠ "(")
    (hi : (if a.cur_tok.value = "@" then parseAInstr a else parseCInstr a) = .ok (i, a1)) :
    ((a1.cur_tok.type = TOK_EOL ∨ a1.cur_tok.type = TOK_COMMENT) →
      parseDefault a = .ok { a1 with ins := a1.ins ++ [i] }) ∧
    (¬ (a1.cur_tok.type = TOK_EOL ∨ a1.cur_tok.type = TOK_COMMENT) →
      parseDefault a = .error .expectedEOInstr) ∧
    (a1.cur_tok.type = TOK_EOF → parseDefault a = .error .expectedEOInstr) ∧
    ((∃ b, parseDefault a = .ok b) ↔
      (a1.cur_tok.type = TOK_EOL ∨ a1.cur_tok.type = TOK_COMMENT)) := by
  have hstep : parseDefault a =
      (expectEOInstr { a1 with ins := a1.ins ++ [i] } >>= fun _ =>
        pure { a1 with ins := a1.ins ++ [i] }) := by
    by_cases h : a.cur_tok.value = "@"
    · simp only [h, if_true] at hi
      simp [parseDefault, h, hi, bind, Except.bind, pure, Except.pure]
    · simp only [h, if_false] at hi
      simp [parseDefault, hv, h, hi, bind, Except.bind, pure, Except.pure]
  have hok : (a1.cur_tok.type = TOK_EOL ∨ a1.cur_tok.type = TOK_COMMENT) →
      parseDefault a = .ok { a1 with ins := a1.ins ++ [i] } := by
    intro h
    have := (expectEOInstr_ok_iff { a1 with ins := a1.ins ++ [i] }).2 h
    rw [hstep, this]
    rfl
  have herr : ¬ (a1.cur_tok.type = TOK_EOL ∨ a1.cur_tok.type = TOK_COMMENT) →
      parseDefault a = .error .expectedEOInstr := by
    intro h
    have := expectEOInstr_error { a1 with ins := a1.ins ++ [i] } h
    rw [hstep, this]
    rfl
  refine ⟨hok, herr, ?_, ?_⟩
  · intro h
    exact herr (by simp [h])
  · constructor
    · rintro ⟨b, hb⟩
      by_contra hc
      rw [herr hc] at hb
      simp at hb
    · intro h
      exact ⟨_, hok h⟩

theorem instruction_end_witness :
    parseDefault ⟨⟨TOK_ANY, "@"⟩, "7 // seven\n".toList, [], []⟩ =
      .ok ⟨⟨TOK_COMMENT, "// seven"⟩, "\n".toList, [.AInstrAST (.ConstantExprAST 7)], []⟩ :=
  (instruction_end ⟨⟨TOK_ANY, "@"⟩, "7 // seven\n".toList, [], []⟩
    ⟨⟨TOK_COMMENT, "// seven"⟩, "\n".toList, [], []⟩ (.AInstrAST (.ConstantExprAST 7))
    (by decide) (by decide)).1 (by decide)

/-- C10 on the code: a line `D=c` is accepted and emitted with the comp code
of the table for the 21 mnemonics written with `+`, `-` or no operator, and is
rejected by the parser for the 7 mnemonics of the table written with `!`, `&`
or `|`; the two lists together are the 28 keys of the comp table. -/
theorem comp_mnemonics :
    (∀ c ∈ ["0", "1", "-1", "D", "A", "-D", "-A", "D+1", "A+1", "D-1", "A-1", "D+A", "D-A",
            "A-D", "M", "-M", "M+1", "M-1", "D+M", "D-M", "M-D"],
      (comp_to_bincode.lookup c).isSome = true ∧
      translate ("D=" ++ c ++ "\n").toList =
        (mapAt comp_to_bincode c).map (fun code => ["111" ++ code ++ "010" ++ "000"])) ∧
    (∀ c ∈ ["!D", "!A", "!M"],
      (comp_to_bincode.lookup c).isSome = true ∧
      parse ("D=" ++ c ++ "\n").toList = .error .compNoOperands) ∧
    (∀ c ∈ ["D&A", "D|A", "D&M", "D|M"],
      (comp_to_bincode.lookup c).isSome = true ∧
      parse ("D=" ++ c ++ "\n").toList = .error .expectedEOInstr) ∧
    (∀ k ∈ comp_to_bincode.map Prod.fst,
      k ∈ ["0", "1", "-1", "D", "A", "-D", "-A", "D+1", "A+1", "D-1", "A-1", "D+A", "D-A",
           "A-D", "M", "-M", "M+1", "M-1", "D+M", "D-M", "M-D"] ∨
      k ∈ ["!D", "!A", "!M", "D&A", "D|A", "D&M", "D|M"]) ∧
    comp_to_bincode.length = 28 := by
  decide

/-! ## The symbol table: predefined symbols and putwinc -/

theorem lookup_isSome_keys (l : List (String × Int)) (k : String) :
    (l.lookup k).isSome = true ↔ k ∈ l.map Prod.fst := by
  rw [List.lookup_isSome_iff]
  simp only [List.mem_map, beq_iff_eq]
  constructor
  · rintro ⟨p, hp, rfl⟩
    exact ⟨p, hp, rfl⟩
  · rintro ⟨p, hp, rfl⟩
    exact ⟨p, hp, rfl⟩

/-- C17: in a freshly constructed symbol table `Rk` resolves to `k` for
`k = 0..15`; `SP`, `LCL`, `ARG`, `THIS`, `THAT` resolve to 0..4; `SCREEN`
resolves to 16384 and `KBD` to 24576; a name is bound exactly when it is one of
these 23; the free-address pointer is 16; and the lines `@SCREEN` and `@KBD`
are translated to 0100000000000000 and 0110000000000000. -/
theorem fresh_symbol_table :
    (∀ k ∈ List.range 16, SymbolTable.clear.get ("R" ++ toString k) = .ok (k : Int)) ∧
    SymbolTable.clear.get "SP" = .ok 0 ∧ SymbolTable.clear.get "LCL" = .ok 1 ∧
    SymbolTable.clear.get "ARG" = .ok 2 ∧ SymbolTable.clear.get "THIS" = .ok 3 ∧
    SymbolTable.clear.get "THAT" = .ok 4 ∧
    SymbolTable.clear.get "SCREEN" = .ok 16384 ∧ SymbolTable.clear.get "KBD" = .ok 24576 ∧
    (∀ name : String, (SymbolTable.clear.tbl.lookup name).isSome = true ↔
      name ∈ ["SP", "LCL", "ARG", "THIS", "THAT", "R0", "R1", "R2", "R3", "R4", "R5", "R6",
              "R7", "R8", "R9", "R10", "R11", "R12", "R13", "R14", "R15", "SCREEN", "KBD"]) ∧
    (∀ name : String, (SymbolTable.clear.tbl.lookup name).isSome = false →
      SymbolTable.clear.get name = .error .symbolNotFound) ∧
    SymbolTable.clear.freeaddr = 16 ∧
    translate "@SCREEN\n".toList = .ok ["0100000000000000"] ∧
    translate "@KBD\n".toList = .ok ["0110000000000000"] := by
  refine ⟨by decide, by decide, by decide, by decide, by decide, by decide, by decide,
    by decide, ?_, ?_, rfl, by decide, by decide⟩
  · intro name
    rw [lookup_isSome_keys]
    rfl
  · intro name h
    cases hl : SymbolTable.clear.tbl.lookup name with
    | none => simp [SymbolTable.get, hl]
    | some v => simp [hl] at h

/-- C18: `putwinc` on a name that is already bound returns the table unchanged
(mapping and free-address pointer); on an absent name it binds the name to the
current free-address pointer, increments the pointer by exactly one and
leaves the binding of every other name as it was. -/
theorem putwinc_frame (t : SymbolTable) (name : String) :
    ((t.tbl.lookup name).isSome = true → t.putwinc name = t) ∧
    ((t.tbl.lookup name) = none →
      (t.putwinc name).tbl.lookup name = some t.freeaddr ∧
      (t.putwinc name).get name = .ok t.freeaddr ∧
      (t.putwinc name).freeaddr = t.freeaddr + 1 ∧
      ∀ other : String, other ≠ name →
        (t.putwinc name).tbl.lookup other = t.tbl.lookup other) := by
  constructor
  · intro h
    simp [SymbolTable.putwinc, h]
  · intro h
    have h1 := putwinc_lookup_self t name h
    refine ⟨h1, by simp [SymbolTable.get, h1], by simp [SymbolTable.putwinc, h], ?_⟩
    intro other ho
    exact putwinc_lookup_other t name other ho

theorem putwinc_frame_witness :
    (SymbolTable.clear.putwinc "KBD" = SymbolTable.clear) ∧
    ((SymbolTable.clear.putwinc "sum").tbl.lookup "sum" = some 16 ∧
      (SymbolTable.clear.putwinc "sum").get "sum" = .ok 16 ∧
      (SymbolTable.clear.putwinc "sum").freeaddr = 16 + 1 ∧
      ∀ other : String, other ≠ "sum" →
        (SymbolTable.clear.putwinc "sum").tbl.lookup other = SymbolTable.clear.tbl.lookup other) :=
  ⟨(putwinc_frame SymbolTable.clear "KBD").1 (by decide),
   (putwinc_frame SymbolTable.clear "sum").2 (by decide)⟩

/-! ## The lexer in general: skipped characters and maximal munch -/

/-- The characters `nexttok` skips before a token: white space other than the
line break. -/
theorem skipSpaces_eq_dropWhile (r : Reader) :
    skipSpaces r = r.dropWhile (fun c => isspace c && c != EOL) := by
  induction r with
  | nil => rfl
  | cons c rest ih =>
    by_cases h : (isspace c && c != EOL) = true
    · simp only [skipSpaces, List.dropWhile_cons, h, if_true, ih]
    · simp only [skipSpaces, List.dropWhile_cons, h, if_false]
      simp

/-- The scanning loop takes the longest run of characters satisfying `p` that
follows the current character, and stops in front of the first other one. -/
theorem scanWhile_eq (p : Char → Bool) (rest : List Char) :
    ∀ (v : String) (c0 : Char),
      scanWhile p v (c0 :: rest) = (⟨v.data ++ rest.takeWhile p⟩, rest.dropWhile p) := by
  induction rest with
  | nil => intro v c0; simp [scanWhile]
  | cons c cs ih =>
    intro v c0
    by_cases hc : p c = true
    · have h2 : scanWhile p ⟨v.data ++ [c]⟩ (c :: cs) =
          (⟨(v.data ++ [c]) ++ cs.takeWhile p⟩, cs.dropWhile p) := ih (v.push c) c
      simp [scanWhile, hc, h2, String.push, List.takeWhile_cons, List.dropWhile_cons]
    · simp [scanWhile, hc, List.takeWhile_cons, List.dropWhile_cons]

theorem takeWhile_all (p : Char → Bool) (l : List Char) : ∀ c ∈ l.takeWhile p, p c = true :=
  fun _ hc => List.mem_takeWhile_imp hc

theorem dropWhile_head (p : Char → Bool) (l : List Char) :
    ∀ d, (l.dropWhile p).head? = some d → p d = false := by
  intro d hd
  induction l with
  | nil => simp at hd
  | cons c cs ih =>
    by_cases hc : p c = true
    · rw [List.dropWhile_cons_of_pos hc] at hd
      exact ih hd
    · rw [List.dropWhile_cons_of_neg hc] at hd
      simp at hd
      subst hd
      simpa using hc

theorem isspace_cases (c : Char) (h : isspace c = true) :
    c = ' ' ∨ c = '\t' ∨ c = '\n' ∨ c = Char.ofNat 11 ∨ c = Char.ofNat 12 ∨ c = '\r' := by
  simpa [isspace, or_assoc] using h

theorem isidentstart_not_space (c : Char) (h : isidentstart c = true) : isspace c = false := by
  by_contra hc
  simp only [Bool.not_eq_false] at hc
  rcases isspace_cases c hc with rfl | rfl | rfl | rfl | rfl | rfl <;> exact absurd h (by decide)

theorem isdigit_not_space (c : Char) (h : isdigit c = true) : isspace c = false := by
  have hm := isdigit_mem c h
  simp only [List.mem_cons, List.mem_singleton, List.not_mem_nil, or_false] at hm
  rcases hm with h | h | h | h | h | h | h | h | h | h <;> subst h <;> rfl

theorem isdigit_not_identstart (c : Char) (h : isdigit c = true) : isidentstart c = false := by
  have hm := isdigit_mem c h
  simp only [List.mem_cons, List.mem_singleton, List.not_mem_nil, or_false] at hm
  rcases hm with h | h | h | h | h | h | h | h | h | h <;> subst h <;> rfl

theorem skipSpaces_idem (r : Reader) : skipSpaces (skipSpaces r) = skipSpaces r := by
  induction r with
  | nil => rfl
  | cons c rest ih =>
    by_cases h : (isspace c && c != EOL) = true
    · simp only [skipSpaces, h, if_true, ih]
    · simp only [skipSpaces, h, if_false]

/-- The token depends only on what follows the skipped characters. -/
theorem nexttok_skip (r : Reader) : nexttok r = nexttok (skipSpaces r) := by
  simp only [nexttok, skipSpaces_idem]

theorem skipSpaces_blanks (ws : List Char) (c : Char) (rest : List Char)
    (hws : ∀ x ∈ ws, isspace x = true ∧ x ≠ '\n') (hc : (isspace c && c != EOL) = false) :
    skipSpaces (ws ++ c :: rest) = c :: rest := by
  induction ws with
  | nil => simp [skipSpaces, hc]
  | cons w ws ih =>
    have hw := hws w (by simp)
    have hw2 : (isspace w && w != EOL) = true := by
      simp [hw.1, EOL, hw.2]
    simp only [List.cons_append, skipSpaces, hw2, if_true]
    exact ih (fun x hx => hws x (by simp [hx]))

theorem nexttok_ident (c : Char) (rest : List Char) (h : isidentstart c = true) :
    nexttok (c :: rest) =
      .ok (⟨TOK_IDENTIFIER, ⟨c :: rest.takeWhile isident⟩⟩, rest.dropWhile isident) := by
  have h1 := isidentstart_not_space c h
  simp [nexttok, skipSpaces, h1, h, scanWhile_eq, String.singleton, String.push]

theorem nexttok_digits (c : Char) (rest : List Char) (h : isdigit c = true) :
    nexttok (c :: rest) =
      .ok (⟨TOK_NUMBER, ⟨c :: rest.takeWhile isdigit⟩⟩, rest.dropWhile isdigit) := by
  have h1 := isdigit_not_space c h
  have h2 := isdigit_not_identstart c h
  simp [nexttok, skipSpaces, h1, h2, h, scanWhile_eq, String.singleton, String.push]

theorem nexttok_plus (rest : List Char) :
    nexttok ('+' :: rest) = .ok (⟨TOK_OPERATOR, "+"⟩, rest) := by
  cases rest <;> rfl

theorem nexttok_equal (rest : List Char) :
    nexttok ('=' :: rest) = .ok (⟨TOK_EQUAL, "="⟩, rest) := by
  cases rest <;> rfl

theorem nexttok_semicolon (rest : List Char) :
    nexttok (';' :: rest) = .ok (⟨TOK_SEMICOLONS, ";"⟩, rest) := by
  cases rest <;> rfl

theorem nexttok_slash (rest : List Char) (h : rest.head? ≠ some '/') :
    nexttok ('/' :: rest) = .error .lexComment := by
  cases rest with
  | nil => rfl
  | cons d rest =>
    have hd : d ≠ '/' := by
      intro hc
      subst hc
      simp at h
    have h1 : isspace '/' = false := rfl
    have h2 : isidentstart '/' = false := rfl
    have h3 : isdigit '/' = false := rfl
    simp [nexttok, skipSpaces, h1, h2, h3, nextch, hd]

theorem nexttok_comment (body : List Char) :
    nexttok ('/' :: '/' :: body) =
      .ok (⟨TOK_COMMENT, ⟨'/' :: '/' :: body.takeWhile (fun c => c != eofChar && c != '\n')⟩⟩,
           body.dropWhile (fun c => c != eofChar && c != '\n')) := by
  have h1 : isspace '/' = false := rfl
  have h2 : isidentstart '/' = false := rfl
  have h3 : isdigit '/' = false := rfl
  have h4 : scanWhile (fun x => x != eofChar && x != '\n') ((String.singleton '/').push '/')
        ('/' :: body) =
      (⟨'/' :: '/' :: body.takeWhile (fun c => c != eofChar && c != '\n')⟩,
        body.dropWhile (fun c => c != eofChar && c != '\n')) :=
    scanWhile_eq (fun x => x != eofChar && x != '\n') body ((String.singleton '/').push '/') '/'
  simp [nexttok, skipSpaces, h1, h2, h3, nextch, EOL, h4]

/-! ## Comments and token classes -/

theorem nexttok_eofChar (rest : List Char) :
    nexttok (eofChar :: rest) = .ok (⟨TOK_EOF, eofText⟩, eofChar :: rest) := by
  cases rest <;> rfl

theorem takeWhile_noEof (body : List Char) (h : eofChar ∉ body) :
    body.takeWhile (fun c => c != eofChar && c != '\n') = body.takeWhile (fun c => c != '\n') ∧
    body.dropWhile (fun c => c != eofChar && c != '\n') =
      body.dropWhile (fun c => c != '\n') := by
  induction body with
  | nil => exact ⟨rfl, rfl⟩
  | cons c t ih =>
    have hc : c ≠ eofChar := fun e => h (by rw [e]; exact List.mem_cons_self _ _)
    have ht : eofChar ∉ t := fun m => h (List.mem_cons_of_mem _ m)
    obtain ⟨i1, i2⟩ := ih ht
    have hp : (c != eofChar && c != '\n') = (c != '\n') := by simp [hc]
    simp only [List.takeWhile_cons, List.dropWhile_cons, hp, i1, i2]
    exact ⟨trivial, trivial⟩

/-- C19: when the next character after the skipped blanks is `/`, `nexttok`
raises the lexical error unless a second `/` follows.  When it does and no
character of the rest of the input has the value of `EOF` (the byte 255), the
token is a comment whose text is `//` followed by the characters up to, but
not including, the next line break (or to the end of input), and the reader is
left in front of that line break, which the following call returns as the
end-of-line token.  In general the scan of the comment also stops in front of
a character with the value of `EOF`: the text of the comment ends there, the
reader stays on that character and the following call returns the end-of-file
token instead of an end-of-line token, as on the line `//a`, byte 255, `b`. -/
theorem comment_token (ws rest : List Char) (hws : ∀ x ∈ ws, isspace x = true ∧ x ≠ '\n') :
    (rest.head? ≠ some '/' → nexttok (ws ++ '/' :: rest) = .error .lexComment) ∧
    (∀ body, rest = '/' :: body → eofChar ∉ body →
      nexttok (ws ++ '/' :: rest) =
        .ok (⟨TOK_COMMENT, ⟨'/' :: '/' :: body.takeWhile (fun c => c != '\n')⟩⟩,
             body.dropWhile (fun c => c != '\n')) ∧
      body = body.takeWhile (fun c => c != '\n') ++ body.dropWhile (fun c => c != '\n') ∧
      '\n' ∉ body.takeWhile (fun c => c != '\n') ∧
      (body.dropWhile (fun c => c != '\n') = [] ∨
        ∃ t, body.dropWhile (fun c => c != '\n') = '\n' :: t ∧
          nexttok (body.dropWhile (fun c => c != '\n')) = .ok (⟨TOK_EOL, "\n"⟩, t))) ∧
    (∀ body, rest = '/' :: body →
      nexttok (ws ++ '/' :: rest) =
        .ok (⟨TOK_COMMENT,
              ⟨'/' :: '/' :: body.takeWhile (fun c => c != eofChar && c != '\n')⟩⟩,
             body.dropWhile (fun c => c != eofChar && c != '\n')) ∧
      body = body.takeWhile (fun c => c != eofChar && c != '\n') ++
        body.dropWhile (fun c => c != eofChar && c != '\n') ∧
      (body.dropWhile (fun c => c != eofChar && c != '\n') = [] ∨
        (∃ t, body.dropWhile (fun c => c != eofChar && c != '\n') = '\n' :: t ∧
          nexttok ('\n' :: t) = .ok (⟨TOK_EOL, "\n"⟩, t)) ∨
        (∃ t, body.dropWhile (fun c => c != eofChar && c != '\n') = eofChar :: t ∧
          nexttok (eofChar :: t) = .ok (⟨TOK_EOF, eofText⟩, eofChar :: t)))) ∧
    (nexttok "//a\xffb\n@1\n".toList = .ok (⟨TOK_COMMENT, "//a"⟩, "\xffb\n@1\n".toList) ∧
      nexttok "\xffb\n@1\n".toList = .ok (⟨TOK_EOF, eofText⟩, "\xffb\n@1\n".toList)) := by
  have hskip : skipSpaces (ws ++ '/' :: rest) = '/' :: rest :=
    skipSpaces_blanks ws '/' rest hws rfl
  refine ⟨?_, ?_, ?_, by decide⟩
  · intro h
    rw [nexttok_skip, hskip]
    exact nexttok_slash rest h
  · intro body hb hne
    subst hb
    obtain ⟨e1, e2⟩ := takeWhile_noEof body hne
    refine ⟨?_, (List.takeWhile_append_dropWhile _ _).symm, ?_, ?_⟩
    · rw [nexttok_skip, hskip, ← e1, ← e2]
      exact nexttok_comment body
    · intro hc
      have := takeWhile_all (fun c => c != '\n') body '\n' hc
      simp at this
    · cases hd : body.dropWhile (fun c => c != '\n') with
      | nil => exact Or.inl rfl
      | cons d t =>
        right
        have := dropWhile_head (fun c => c != '\n') body d (by rw [hd]; rfl)
        simp at this
        subst this
        exact ⟨t, rfl, nexttok_eol t⟩
  · intro body hb
    subst hb
    refine ⟨?_, (List.takeWhile_append_dropWhile _ _).symm, ?_⟩
    · rw [nexttok_skip, hskip]
      exact nexttok_comment body
    · cases hd : body.dropWhile (fun c => c != eofChar && c != '\n') with
      | nil => exact Or.inl rfl
      | cons d t =>
        right
        have := dropWhile_head (fun c => c != eofChar && c != '\n') body d (by rw [hd]; rfl)
        simp only [Bool.and_eq_false_imp, bne_eq_false_iff_eq, bne_iff_ne, ne_eq,
          Decidable.not_not] at this
        by_cases hde : d = eofChar
        · right
          subst hde
          exact ⟨t, rfl, nexttok_eofChar t⟩
        · left
          have hdn : d = '\n' := this hde
          subst hdn
          exact ⟨t, rfl, nexttok_eol t⟩

theorem comment_token_witness :
    nexttok " \t/ x".toList = .error .lexComment ∧
    nexttok " \t// D=A \n@1".toList = .ok (⟨TOK_COMMENT, "// D=A "⟩, "\n@1".toList) :=
  ⟨(comment_token " \t".toList " x".toList (by decide)).1 (by decide),
   ((comment_token " \t".toList "/ D=A \n@1".toList (by decide)).2.1 " D=A \n@1".toList rfl
      (by decide)).1⟩

theorem error_bind {α β : Type} (e : Err) (f : α → Except Err β) :
    ((Except.error e : Except Err α) >>= f) = .error e := rfl

theorem ok_bind {α β : Type} (a : α) (f : α → Except Err β) :
    ((Except.ok a : Except Err α) >>= f) = f a := rfl

/-- The only failure of `nexttok` is the lexical error of a lone `/`. -/
theorem nexttok_error (r : Reader) (e : Err) (h : nexttok r = .error e) : e = .lexComment := by
  unfold nexttok at h
  split at h
  · simp at h
  · split at h
    · simp at h
    · split at h
      · simp at h
      · split at h
        · split at h
          · split at h
            · simpa using h.symm
            · simp at h
          · simpa using h.symm
        · split at h
          · simp at h
          · simp at h

/-- C13: when a C-instruction starts with an identifier `d` followed by `=`,
the parser raises the dest error unless `d` is one of M, D, MD, A, AM, AD,
AMD; when it is, the dest part is accepted as soon as the two tokens after
`=` can be read, and every C-instruction the parser then returns carries `d`
as its dest. -/
theorem dest_part (a : State) (d e : String) (r0 : Reader)
    (hcur : a.cur_tok = ⟨TOK_IDENTIFIER, d⟩)
    (heq : nexttok a.lexer = .ok (⟨TOK_EQUAL, e⟩, r0)) :
    (isdest d = true ↔ d ∈ ["M", "D", "MD", "A", "AM", "AD", "AMD"]) ∧
    (isdest d = false → parseDest a = .error .invalidDest ∧
      parseCInstr a = .error .invalidDest) ∧
    (isdest d = true → ∀ (t c : Token) (r1 r2 : Reader),
      nexttok r0 = .ok (t, r1) → nexttok r1 = .ok (c, r2) →
      parseDest a = .ok (some ⟨d⟩, ⟨0, "", none, none, none, t, false, c, r2⟩)) ∧
    (∀ (i : InstrAST) (b : State), parseCInstr a = .ok (i, b) →
      isdest d = true ∧ ∃ comp jump, i = .CInstrAST (some ⟨d⟩) comp jump) := by
  have hdest : ∀ (dest : Option DestAST) (s : CompState), parseDest a = .ok (dest, s) →
      isdest d = true ∧ dest = some ⟨d⟩ := by
    intro dest s h
    simp only [parseDest, hcur, heq, ok_bind, if_true] at h
    split at h
    · simp at h
    · rename_i hd
      simp only [bind_ok, pure_ok, Prod.mk.injEq] at h
      obtain ⟨t, _, c, _, h1, _⟩ := h
      exact ⟨by simpa using hd, h1.symm⟩
  refine ⟨?_, ?_, ?_, ?_⟩
  · constructor
    · intro h
      have := isdest_cases d h
      simpa [or_assoc] using this
    · intro h
      simp only [List.mem_cons, List.mem_singleton, List.not_mem_nil, or_false] at h
      rcases h with rfl | rfl | rfl | rfl | rfl | rfl | rfl <;> rfl
  · intro h
    have h1 : parseDest a = .error .invalidDest := by
      simp [parseDest, hcur, heq, ok_bind, h]
    exact ⟨h1, by simp only [parseCInstr, h1, error_bind]⟩
  · intro h t c r1 r2 ht hc
    simp [parseDest, hcur, heq, ok_bind, h, ht, hc, pure, Except.pure]
  · intro i b h
    simp only [parseCInstr, bind_ok, pure_ok, Prod.mk.injEq] at h
    obtain ⟨r, hr, s, _, isM, _, lhs, _, rhs, _, j, _, hi, _⟩ := h
    obtain ⟨h1, h2⟩ := hdest r.1 r.2 hr
    exact ⟨h1, _, _, by rw [← hi, h2]⟩

theorem dest_part_witness :
    parseCInstr ⟨⟨TOK_IDENTIFIER, "DM"⟩, "=A\n".toList, [], []⟩ = .error .invalidDest ∧
    parseDest ⟨⟨TOK_IDENTIFIER, "MD"⟩, "=A\n".toList, [], []⟩ =
      .ok (some ⟨"MD"⟩, ⟨0, "", none, none, none, ⟨TOK_IDENTIFIER, "A"⟩, false,
            ⟨TOK_EOL, "\n"⟩, []⟩) ∧
    parse "X=D\n".toList = .error .invalidDest ∧
    translate "AMD=D\n".toList = .ok ["1110001100111000"] :=
  ⟨((dest_part ⟨⟨TOK_IDENTIFIER, "DM"⟩, "=A\n".toList, [], []⟩ "DM" "=" "A\n".toList rfl
      (by decide)).2.1 (by decide)).2,
   (dest_part ⟨⟨TOK_IDENTIFIER, "MD"⟩, "=A\n".toList, [], []⟩ "MD" "=" "A\n".toList rfl
      (by decide)).2.2.1 (by decide) ⟨TOK_IDENTIFIER, "A"⟩ ⟨TOK_EOL, "\n"⟩ "\n".toList []
      (by decide) (by decide),
   by decide, by decide⟩

/-! ## The jump part of a C-instruction -/

/-- A C-instruction is its dest and comp parts followed by its jump part. -/
theorem parseCInstr_eq (a : State) :
    parseCInstr a = (do
      let p ← parseCompPart a
      let j ← parseJump p.2.2
      pure (.CInstrAST p.1 p.2.1 j.1, j.2)) := by
  simp only [parseCInstr, parseCompPart, bind_assoc, pure_bind]

theorem isjmp_iff (s : String) :
    isjmp s = true ↔ s ∈ ["JGT", "JEQ", "JGE", "JLT", "JNE", "JLE", "JMP"] := by
  constructor
  · intro h
    rcases isjmp_cases s h with rfl | rfl | rfl | rfl | rfl | rfl | rfl <;> decide
  · intro h
    simp only [List.mem_cons, List.mem_singleton, List.not_mem_nil, or_false] at h
    rcases h with rfl | rfl | rfl | rfl | rfl | rfl | rfl <;> rfl

/-- C12: when the comp of a C-instruction is followed by `;`, the parser
raises the jump error unless the token after `;` is an identifier equal to
one of JGT, JEQ, JGE, JLT, JNE, JLE, JMP; when it is, the jump is accepted
and the instruction is returned with that jump as soon as the token after the
mnemonic can be read (if it cannot, the lexical error is raised). -/
theorem jump_part (a a1 : State) (dest : Option DestAST) (comp : CompAST) (t : Token)
    (r : Reader) (hcomp : parseCompPart a = .ok (dest, comp, a1))
    (hsemi : a1.cur_tok.type = TOK_SEMICOLONS) (ht : nexttok a1.lexer = .ok (t, r)) :
    (∀ s : String, isjmp s = true ↔ s ∈ ["JGT", "JEQ", "JGE", "JLT", "JNE", "JLE", "JMP"]) ∧
    (¬ (t.type = TOK_IDENTIFIER ∧ isjmp t.value = true) →
      parseCInstr a = .error .invalidJump) ∧
    (t.type = TOK_IDENTIFIER ∧ isjmp t.value = true →
      (∀ (n : Token) (r2 : Reader), nexttok r = .ok (n, r2) →
        parseCInstr a = .ok (.CInstrAST dest comp (some ⟨t.value⟩),
          { a1 with cur_tok := n, lexer := r2 })) ∧
      (∀ e : Err, nexttok r = .error e → parseCInstr a = .error e)) ∧
    ((∃ i b, parseCInstr a = .ok (i, b)) →
      t.type = TOK_IDENTIFIER ∧ isjmp t.value = true) := by
  have hbad : ¬ (t.type = TOK_IDENTIFIER ∧ isjmp t.value = true) →
      parseCInstr a = .error .invalidJump := by
    intro h
    have h2 : t.type ≠ TOK_IDENTIFIER ∨ (!isjmp t.value) = true := by
      by_cases h1 : t.type = TOK_IDENTIFIER
      · right
        by_cases h3 : isjmp t.value = true
        · exact absurd ⟨h1, h3⟩ h
        · simpa using h3
      · exact Or.inl h1
    have hj : parseJump a1 = .error .invalidJump := by
      simp only [parseJump, hsemi, if_true, advance, ht, ok_bind, pure, Except.pure]
      rw [if_pos h2]
    simp only [parseCInstr_eq, hcomp, ok_bind, hj, error_bind]
  refine ⟨isjmp_iff, hbad, ?_, ?_⟩
  · rintro ⟨h1, h2⟩
    have h3 : ¬ (t.type ≠ TOK_IDENTIFIER ∨ (!isjmp t.value) = true) := by
      simp [h1, h2]
    constructor
    · intro n r2 hn
      have hj : parseJump a1 = .ok (some ⟨t.value⟩, { a1 with cur_tok := n, lexer := r2 }) := by
        simp only [parseJump, hsemi, if_true, advance, ht, ok_bind, pure, Except.pure]
        rw [if_neg h3]
        simp only [hn, ok_bind]
      simp only [parseCInstr_eq, hcomp, ok_bind, hj, pure, Except.pure]
    · intro e he
      have hj : parseJump a1 = .error e := by
        simp only [parseJump, hsemi, if_true, advance, ht, ok_bind, pure, Except.pure]
        rw [if_neg h3]
        simp only [he, error_bind]
      simp only [parseCInstr_eq, hcomp, ok_bind, hj, error_bind]
  · rintro ⟨i, b, h⟩
    by_contra hc
    rw [hbad hc] at h
    simp at h

theorem jump_part_witness :
    parseCInstr ⟨⟨TOK_IDENTIFIER, "D"⟩, ";JXX\n".toList, [], []⟩ = .error .invalidJump ∧
    parseCInstr ⟨⟨TOK_IDENTIFIER, "D"⟩, ";JGT\n".toList, [], []⟩ =
      .ok (.CInstrAST none ⟨false, "D", "", none, some (.SymbolExprAST "D")⟩ (some ⟨"JGT"⟩),
           ⟨⟨TOK_EOL, "\n"⟩, [], [], []⟩) ∧
    parse "0;7\n".toList = .error .invalidJump ∧
    parse "0;\n".toList = .error .invalidJump ∧
    translate "0;JMP\n".toList = .ok ["1110101010000111"] :=
  ⟨(jump_part ⟨⟨TOK_IDENTIFIER, "D"⟩, ";JXX\n".toList, [], []⟩
      ⟨⟨TOK_SEMICOLONS, ";"⟩, "JXX\n".toList, [], []⟩ none
      ⟨false, "D", "", none, some (.SymbolExprAST "D")⟩ ⟨TOK_IDENTIFIER, "JXX"⟩ "\n".toList
      (by decide) (by decide) (by decide)).2.1 (by decide),
   ((jump_part ⟨⟨TOK_IDENTIFIER, "D"⟩, ";JGT\n".toList, [], []⟩
      ⟨⟨TOK_SEMICOLONS, ";"⟩, "JGT\n".toList, [], []⟩ none
      ⟨false, "D", "", none, some (.SymbolExprAST "D")⟩ ⟨TOK_IDENTIFIER, "JGT"⟩ "\n".toList
      (by decide) (by decide) (by decide)).2.2.1 (by decide)).1 ⟨TOK_EOL, "\n"⟩ [] (by decide),
   by decide, by decide, by decide⟩

/-! ## Two identifier operands -/

/-- The comp loop on `x op y` with identifier operands: the three tokens are
stored and the token after `y` is read. -/
theorem compLoop_pair (x o y : String) (r1 r2 : Reader)
    (h2 : nexttok r1 = .ok (⟨TOK_IDENTIFIER, y⟩, r2)) :
    compLoop 3 ⟨0, "", none, none, none, ⟨TOK_IDENTIFIER, x⟩, false, ⟨TOK_OPERATOR, o⟩, r1⟩ =
      (nexttok r2 >>= fun n =>
        pure ⟨3, "" ++ x ++ o ++ y, some ⟨TOK_IDENTIFIER, x⟩, some ⟨TOK_OPERATOR, o⟩,
              some ⟨TOK_IDENTIFIER, y⟩, n.1, true, n.1, n.2⟩) := by
  cases h3 : nexttok r2 with
  | error e =>
    simp [compLoop, compOperator, compOperand, CompState.step, h2, h3, bind, Except.bind, pure,
      Except.pure]
  | ok n =>
    simp [compLoop, compOperator, compOperand, CompState.step, h2, h3, bind, Except.bind, pure,
      Except.pure]

theorem parseCInstr_invalidDest (a : State) (d e : String) (r0 : Reader)
    (hcur : a.cur_tok = ⟨TOK_IDENTIFIER, d⟩)
    (heq : nexttok a.lexer = .ok (⟨TOK_EQUAL, e⟩, r0)) (hd : isdest d = false) :
    parseCInstr a = .error .invalidDest := by
  have h1 : parseDest a = .error .invalidDest := by
    simp [parseDest, hcur, heq, ok_bind, hd]
  simp only [parseCInstr, h1, error_bind]

/-- The dest part when a legal dest and `=` come first. -/
theorem parseDest_dest (a : State) (d e : String) (r0 r1 r2 : Reader) (t c : Token)
    (hcur : a.cur_tok = ⟨TOK_IDENTIFIER, d⟩) (hd : isdest d = true)
    (heq : nexttok a.lexer = .ok (⟨TOK_EQUAL, e⟩, r0))
    (ht : nexttok r0 = .ok (t, r1)) (hc : nexttok r1 = .ok (c, r2)) :
    parseDest a = .ok (some ⟨d⟩, ⟨0, "", none, none, none, t, false, c, r2⟩) := by
  simp [parseDest, hcur, heq, ok_bind, hd, ht, hc, pure, Except.pure]

/-- The dest part when an identifier that is not followed by `=` comes first. -/
theorem parseDest_ident (a : State) (x : String) (n : Token) (r : Reader)
    (hcur : a.cur_tok = ⟨TOK_IDENTIFIER, x⟩) (hn : nexttok a.lexer = .ok (n, r))
    (hne : n.type ≠ TOK_EQUAL) :
    parseDest a = .ok (none, ⟨0, "", none, none, none, ⟨TOK_IDENTIFIER, x⟩, false, n, r⟩) := by
  simp [parseDest, hcur, hn, ok_bind, hne, pure, Except.pure]

theorem parseCInstr_error (a : State) (e : Err) (h : parseCompPart a = .error e) :
    parseCInstr a = .error e := by
  simp only [parseCInstr_eq, h, error_bind]

theorem parseCompPart_pair (a : State) (dest : Option DestAST) (x o y : String)
    (r1 r2 : Reader)
    (hd : parseDest a = .ok (dest, ⟨0, "", none, none, none, ⟨TOK_IDENTIFIER, x⟩, false,
      ⟨TOK_OPERATOR, o⟩, r1⟩))
    (h2 : nexttok r1 = .ok (⟨TOK_IDENTIFIER, y⟩, r2))
    (hbad : x = y ∨ (x = "A" ∧ y = "M") ∨ (x = "M" ∧ y = "A")) :
    parseCompPart a = .error (match nexttok r2 with
      | .error e => e
      | .ok _ => if x = y then .compSameIdentifiers
                 else if x = "M" then .compMandA else .compAandM) := by
  have hl := compLoop_pair x o y r1 r2 h2
  cases h3 : nexttok r2 with
  | error e =>
    rw [h3] at hl
    simp only [parseCompPart, hd, ok_bind, hl, error_bind]
  | ok n =>
    rw [h3] at hl
    simp only [ok_bind, pure, Except.pure] at hl
    simp only [parseCompPart, hd, ok_bind, hl]
    rcases hbad with h | ⟨h1, h2⟩ | ⟨h1, h2⟩
    · subst h
      simp [checkComp, error_bind]
    · subst h1 h2
      simp [checkComp, error_bind]
    · subst h1 h2
      simp [checkComp, error_bind]

/-- C11: a C-instruction whose comp is `x op y` with two identifier operands
that are the same identifier, or A and M in either order, is rejected by the
parser, with or without a dest in front and whatever follows the second
operand: the error is the one of the operand check (or the lexical error when
the token after `y` cannot be read, or the dest error when the dest is
illegal). -/
theorem operand_pair_rejected (x o y : String) (r1 r2 : Reader) (err : Err)
    (h2 : nexttok r1 = .ok (⟨TOK_IDENTIFIER, y⟩, r2))
    (hbad : x = y ∨ (x = "A" ∧ y = "M") ∨ (x = "M" ∧ y = "A"))
    (herr : err = match nexttok r2 with
      | .error e => e
      | .ok _ => if x = y then .compSameIdentifiers
                 else if x = "M" then .compMandA else .compAandM) :
    err ∈ [Err.lexComment, Err.compSameIdentifiers, Err.compMandA, Err.compAandM] ∧
    (∀ a : State, a.cur_tok = ⟨TOK_IDENTIFIER, x⟩ →
      nexttok a.lexer = .ok (⟨TOK_OPERATOR, o⟩, r1) →
      parseCInstr a = .error err) ∧
    (∀ (a : State) (d e : String) (r0 rx : Reader), a.cur_tok = ⟨TOK_IDENTIFIER, d⟩ →
      nexttok a.lexer = .ok (⟨TOK_EQUAL, e⟩, r0) →
      nexttok r0 = .ok (⟨TOK_IDENTIFIER, x⟩, rx) →
      nexttok rx = .ok (⟨TOK_OPERATOR, o⟩, r1) →
      parseCInstr a = .error (if isdest d = true then err else .invalidDest)) := by
  refine ⟨?_, ?_, ?_⟩
  · subst herr
    cases h3 : nexttok r2 with
    | error e =>
      have := nexttok_error r2 e h3
      subst this
      simp
    | ok n =>
      simp only []
      by_cases h : x = y
      · rw [if_pos h]; decide
      · rw [if_neg h]
        by_cases h' : x = "M"
        · rw [if_pos h']; decide
        · rw [if_neg h']; decide
  · intro a hcur hop
    have hd := parseDest_ident a x ⟨TOK_OPERATOR, o⟩ r1 hcur hop (by simp)
    rw [herr]
    exact parseCInstr_error a _ (parseCompPart_pair a none x o y r1 r2 hd h2 hbad)
  · intro a d e r0 rx hcur heq hx hop
    by_cases hdest : isdest d = true
    · have hd := parseDest_dest a d e r0 rx r1 _ _ hcur hdest heq hx hop
      rw [if_pos hdest, herr]
      exact parseCInstr_error a _ (parseCompPart_pair a _ x o y r1 r2 hd h2 hbad)
    · rw [if_neg hdest]
      have : isdest d = false := by simpa using hdest
      exact parseCInstr_invalidDest a d e r0 hcur heq this

theorem operand_pair_rejected_witness :
    parseCInstr ⟨⟨TOK_IDENTIFIER, "A"⟩, "+A\n".toList, [], []⟩ = .error .compSameIdentifiers ∧
    parseCInstr ⟨⟨TOK_IDENTIFIER, "MD"⟩, "=M-A;JGT\n".toList, [], []⟩ =
      .error (if isdest "MD" = true then .compMandA else .invalidDest) ∧
    parse "A+A\n".toList = .error .compSameIdentifiers ∧
    parse "D-D\n".toList = .error .compSameIdentifiers ∧
    parse "A+M\n".toList = .error .compAandM ∧
    parse "M+A\n".toList = .error .compMandA ∧
    parse "A-M\n".toList = .error .compAandM ∧
    parse "M-A\n".toList = .error .compMandA ∧
    parse "D=A+M;JMP\n".toList = .error .compAandM :=
  ⟨(operand_pair_rejected "A" "+" "A" "A\n".toList "\n".toList .compSameIdentifiers
      (by decide) (by decide) (by decide)).2.1 ⟨⟨TOK_IDENTIFIER, "A"⟩, "+A\n".toList, [], []⟩
      rfl (by decide),
   (operand_pair_rejected "M" "-" "A" "A;JGT\n".toList ";JGT\n".toList .compMandA
      (by decide) (by decide) (by decide)).2.2
      ⟨⟨TOK_IDENTIFIER, "MD"⟩, "=M-A;JGT\n".toList, [], []⟩ "MD" "=" "M-A;JGT\n".toList
      "-A;JGT\n".toList rfl (by decide) (by decide) (by decide),
   by decide, by decide, by decide, by decide, by decide, by decide, by decide⟩

/-! ## A lone operand -/

/-- The comp loop on a lone operand `t` when the token after it, `n`, has
already been read (`tok` and `cur_tok` differ). -/
theorem compLoop_single_ahead (t n : Token) (r : Reader)
    (ht : t.type = TOK_IDENTIFIER ∨ t.type = TOK_NUMBER)
    (hn : n.type ≠ TOK_OPERATOR ∧ n.type ≠ TOK_IDENTIFIER ∧ n.type ≠ TOK_NUMBER) :
    compLoop 3 ⟨0, "", none, none, none, t, false, n, r⟩ =
      .ok ⟨1, "" ++ t.value, some t, none, none, n, true, n, r⟩ := by
  obtain ⟨n1, n2, n3⟩ := hn
  rcases ht with h | h
  · simp [compLoop, compOperator, compOperand, CompState.step, h, n1, n2, n3, bind, Except.bind,
      pure, Except.pure]
  · simp [compLoop, compOperator, compOperand, CompState.step, h, n1, n2, n3, bind, Except.bind,
      pure, Except.pure]

/-- The comp loop on a lone operand `t` when `tok` and `cur_tok` are the same
token, so that the token after it is read by the loop. -/
theorem compLoop_single_fetch (t c n : Token) (l r : Reader)
    (ht : t.type = TOK_IDENTIFIER ∨ t.type = TOK_NUMBER)
    (hn : n.type ≠ TOK_OPERATOR ∧ n.type ≠ TOK_IDENTIFIER ∧ n.type ≠ TOK_NUMBER)
    (hl : nexttok l = .ok (n, r)) :
    compLoop 3 ⟨0, "", none, none, none, t, true, c, l⟩ =
      .ok ⟨1, "" ++ t.value, some t, none, none, n, true, n, r⟩ := by
  obtain ⟨n1, n2, n3⟩ := hn
  rcases ht with h | h
  · simp [compLoop, compOperator, compOperand, CompState.step, h, hl, n1, n2, n3, bind,
      Except.bind, pure, Except.pure]
  · simp [compLoop, compOperator, compOperand, CompState.step, h, hl, n1, n2, n3, bind,
      Except.bind, pure, Except.pure]

theorem parseCompOperand_none : parseCompOperand none = .ok none := rfl

/-- The dest and comp parts once the comp loop has found a lone operand. -/
theorem parseCompPart_single (a : State) (dest : Option DestAST) (s0 : CompState)
    (t n : Token) (r : Reader)
    (hd : parseDest a = .ok (dest, s0))
    (hl : compLoop 3 s0 = .ok ⟨1, "" ++ t.value, some t, none, none, n, true, n, r⟩) :
    parseCompPart a =
      (parseCompOperand (some t) >>= fun rhs =>
        pure (dest, ⟨false, t.value, "", none, rhs⟩, { a with cur_tok := n, lexer := r })) := by
  simp only [parseCompPart, hd, ok_bind, hl]
  cases hr : parseCompOperand (some t) with
  | error e => simp [checkComp, parseCompOperand_none, hr, bind, Except.bind, pure, Except.pure]
  | ok rhs => simp [checkComp, parseCompOperand_none, hr, bind, Except.bind, pure, Except.pure]

/-- C15: a comp made of exactly one operand `t` (an identifier or a number,
followed by a token `n` that is neither an operator nor an operand) is parsed,
with or without a dest in front, as the comp node with no left operand, no
operator, the node of `t` as right operand and the text of `t` as textual
form.  Consequently the line `M` has comp bits 1110000, and the comp `D-1` has
comp bits 0001110. -/
theorem lone_operand (t n : Token) (r : Reader)
    (ht : t.type = TOK_IDENTIFIER ∨ t.type = TOK_NUMBER)
    (hn : n.type ≠ TOK_OPERATOR ∧ n.type ≠ TOK_IDENTIFIER ∧ n.type ≠ TOK_NUMBER) :
    (∀ a : State, a.cur_tok = t → nexttok a.lexer = .ok (n, r) →
      (t.type = TOK_IDENTIFIER → n.type ≠ TOK_EQUAL) →
      parseCompPart a =
        (parseCompOperand (some t) >>= fun rhs =>
          pure (none, ⟨false, t.value, "", none, rhs⟩,
                { a with cur_tok := n, lexer := r }))) ∧
    (∀ (a : State) (d e : String) (r0 r1 : Reader), a.cur_tok = ⟨TOK_IDENTIFIER, d⟩ →
      isdest d = true → nexttok a.lexer = .ok (⟨TOK_EQUAL, e⟩, r0) →
      nexttok r0 = .ok (t, r1) → nexttok r1 = .ok (n, r) →
      parseCompPart a =
        (parseCompOperand (some t) >>= fun rhs =>
          pure (some ⟨d⟩, ⟨false, t.value, "", none, rhs⟩,
                { a with cur_tok := n, lexer := r }))) ∧
    (t.type = TOK_IDENTIFIER → isregister t.value = true →
      parseCompOperand (some t) = .ok (some (.SymbolExprAST t.value))) ∧
    (∀ rhs : Option AsmExprAST,
      CompAST.codegen ⟨false, t.value, "", none, rhs⟩ = mapAt comp_to_bincode t.value) ∧
    parseCompPart ⟨⟨TOK_IDENTIFIER, "M"⟩, "\n".toList, [], []⟩ =
      .ok (none, ⟨false, "M", "", none, some (.SymbolExprAST "M")⟩,
           ⟨⟨TOK_EOL, "\n"⟩, [], [], []⟩) ∧
    CompAST.codegen ⟨false, "M", "", none, some (.SymbolExprAST "M")⟩ = .ok "1110000" ∧
    translate "M\n".toList = .ok ["111" ++ "1110000" ++ "000" ++ "000"] ∧
    parseCompPart ⟨⟨TOK_IDENTIFIER, "D"⟩, "-1\n".toList, [], []⟩ =
      .ok (none, ⟨false, "D-1", "-", some (.SymbolExprAST "D"), some (.ConstantExprAST 1)⟩,
           ⟨⟨TOK_EOL, "\n"⟩, [], [], []⟩) ∧
    CompAST.codegen ⟨false, "D-1", "-", some (.SymbolExprAST "D"),
      some (.ConstantExprAST 1)⟩ = .ok "0001110" ∧
    translate "D-1\n".toList = .ok ["111" ++ "0001110" ++ "000" ++ "000"] := by
  refine ⟨?_, ?_, ?_, fun _ => rfl, by decide, by decide, by decide, by decide, by decide,
    by decide⟩
  · intro a hcur hnext hne
    rcases ht with h | h
    · have hd : parseDest a = .ok (none, ⟨0, "", none, none, none, t, false, n, r⟩) := by
        simp [parseDest, hcur, h, hnext, ok_bind, hne h, pure, Except.pure]
      exact parseCompPart_single a none _ t n r hd (compLoop_single_ahead t n r (Or.inl h) hn)
    · have hd : parseDest a = .ok (none, ⟨0, "", none, none, none, t, true, t, a.lexer⟩) := by
        simp [parseDest, hcur, h, pure, Except.pure]
      exact parseCompPart_single a none _ t n r hd
        (compLoop_single_fetch t t n a.lexer r (Or.inr h) hn hnext)
  · intro a d e r0 r1 hcur hdest heq ht1 hn1
    have hd := parseDest_dest a d e r0 r1 r t n hcur hdest heq ht1 hn1
    exact parseCompPart_single a _ _ t n r hd (compLoop_single_ahead t n r ht hn)
  · intro h1 h2
    simp [parseCompOperand, h1, h2, pure, Except.pure]

theorem lone_operand_witness :
    parseCompPart ⟨⟨TOK_NUMBER, "0"⟩, ";JMP\n".toList, [], []⟩ =
      (parseCompOperand (some ⟨TOK_NUMBER, "0"⟩) >>= fun rhs =>
        pure (none, ⟨false, "0", "", none, rhs⟩,
              ⟨⟨TOK_SEMICOLONS, ";"⟩, "JMP\n".toList, [], []⟩)) ∧
    parseCompPart ⟨⟨TOK_IDENTIFIER, "AM"⟩, "=A // x\n".toList, [], []⟩ =
      (parseCompOperand (some ⟨TOK_IDENTIFIER, "A"⟩) >>= fun rhs =>
        pure (some ⟨"AM"⟩, ⟨false, "A", "", none, rhs⟩,
              ⟨⟨TOK_COMMENT, "// x"⟩, "\n".toList, [], []⟩)) :=
  ⟨(lone_operand ⟨TOK_NUMBER, "0"⟩ ⟨TOK_SEMICOLONS, ";"⟩ "JMP\n".toList (by decide)
      (by decide)).1 ⟨⟨TOK_NUMBER, "0"⟩, ";JMP\n".toList, [], []⟩ rfl (by decide) (by decide),
   (lone_operand ⟨TOK_IDENTIFIER, "A"⟩ ⟨TOK_COMMENT, "// x"⟩ "\n".toList (by decide)
      (by decide)).2.1 ⟨⟨TOK_IDENTIFIER, "AM"⟩, "=A // x\n".toList, [], []⟩ "AM" "="
      "A // x\n".toList " // x\n".toList rfl (by decide) (by decide) (by decide) (by decide)⟩

/-! ## Label declarations -/

theorem takeWhile_run (p : Char → Bool) (cs : List Char) (d : Char) (rest : List Char)
    (hcs : ∀ x ∈ cs, p x = true) (hd : p d = false) :
    (cs ++ d :: rest).takeWhile p = cs ∧ (cs ++ d :: rest).dropWhile p = d :: rest := by
  induction cs with
  | nil => simp [List.takeWhile_cons, List.dropWhile_cons, hd]
  | cons c cs ih =>
    have hc := hcs c (by simp)
    obtain ⟨h1, h2⟩ := ih (fun x hx => hcs x (by simp [hx]))
    simp [List.takeWhile_cons, List.dropWhile_cons, hc, h1, h2]

theorem nexttok_lparen (rest : List Char) :
    nexttok ('(' :: rest) = .ok (⟨TOK_ANY, "("⟩, rest) := by
  cases rest <;> rfl

theorem nexttok_rparen (rest : List Char) :
    nexttok (')' :: rest) = .ok (⟨TOK_ANY, ")"⟩, rest) := by
  cases rest <;> rfl

/-- The token of an identifier that is followed by `)`. -/
theorem nexttok_ident_rparen (c : Char) (cs rest : List Char) (hc : isidentstart c = true)
    (hcs : ∀ x ∈ cs, isident x = true) :
    nexttok (c :: (cs ++ ')' :: rest)) = .ok (⟨TOK_IDENTIFIER, ⟨c :: cs⟩⟩, ')' :: rest) := by
  obtain ⟨h1, h2⟩ := takeWhile_run isident cs ')' rest hcs rfl
  rw [nexttok_ident c _ hc, h1, h2]

/-- The label rule on `name)` and a line break, for an identifier `name`. -/
theorem parseLabelInstr_ident (a : State) (c : Char) (cs rest : List Char)
    (hc : isidentstart c = true) (hcs : ∀ x ∈ cs, isident x = true)
    (hlex : a.lexer = c :: (cs ++ ')' :: '\n' :: rest)) :
    parseLabelInstr a =
      if (presymbols_to_addr.lookup ⟨c :: cs⟩).isSome = true then .error .labelPredefined
      else .ok (⟨⟨c :: cs⟩, (a.ins.length : Int)⟩,
                { a with cur_tok := ⟨TOK_EOL, "\n"⟩, lexer := rest }) := by
  have h1 := nexttok_ident_rparen c cs ('\n' :: rest) hc hcs
  by_cases hp : (presymbols_to_addr.lookup ⟨c :: cs⟩).isSome = true
  · simp [parseLabelInstr, advance, hlex, h1, ok_bind, hp]
  · simp [parseLabelInstr, advance, hlex, h1, ok_bind, hp, nexttok_rparen, nexttok_eol, pure,
      Except.pure]

/-- C14: for an identifier `name`, the declaration `(name)` followed by a
line break is rejected with the predefined-symbol error when `name` is a key
of the predefined table, and is accepted otherwise: the label is recorded
with the current instruction count and parsing goes on after the line break.
Every key of the predefined table is such an identifier, and the one-line
program `(name)` is rejected for each of them. -/
theorem label_declaration (a : State) (c : Char) (cs rest : List Char)
    (hcur : a.cur_tok.value = "(") (hc : isidentstart c = true)
    (hcs : ∀ x ∈ cs, isident x = true)
    (hlex : a.lexer = c :: (cs ++ ')' :: '\n' :: rest)) :
    ((presymbols_to_addr.lookup ⟨c :: cs⟩).isSome = true →
      parseLabelInstr a = .error .labelPredefined ∧
      parseDefault a = .error .labelPredefined) ∧
    ((presymbols_to_addr.lookup ⟨c :: cs⟩).isSome = false →
      parseDefault a = .ok ⟨⟨TOK_EOL, "\n"⟩, rest, a.ins,
        a.labels ++ [⟨⟨c :: cs⟩, (a.ins.length : Int)⟩]⟩ ∧
      parse ('(' :: (c :: (cs ++ [')', '\n']))) =
        .ok ⟨⟨TOK_EOF, eofText⟩, [], [], [⟨⟨c :: cs⟩, 0⟩]⟩) ∧
    (∀ k ∈ presymbols_to_addr.map Prod.fst,
      (match k.data with
        | [] => false
        | x :: xs => isidentstart x && xs.all isident) = true ∧
      parse ("(" ++ k ++ ")\n").toList = .error .labelPredefined) := by
  have hl := parseLabelInstr_ident a c cs rest hc hcs hlex
  refine ⟨?_, ?_, by decide⟩
  · intro hp
    rw [if_pos hp] at hl
    exact ⟨hl, by simp only [parseDefault, hcur, if_true, hl, error_bind]⟩
  · intro hp
    have hp2 : ¬ (presymbols_to_addr.lookup ⟨c :: cs⟩).isSome = true := by simp [hp]
    rw [if_neg hp2] at hl
    constructor
    · simp [parseDefault, hcur, hl, ok_bind, expectEOInstr, pure, Except.pure]
    · have h1 : parse ('(' :: (c :: (cs ++ [')', '\n']))) =
          parseLoop (cs.length + 4 + 1) ⟨⟨TOK_ANY, "("⟩, c :: (cs ++ [')', '\n']), [], []⟩ := by
        simp [parse, nexttok_lparen, bind, Except.bind]
      have hl2 := parseLabelInstr_ident ⟨⟨TOK_ANY, "("⟩, c :: (cs ++ [')', '\n']), [], []⟩
        c cs [] hc hcs rfl
      rw [if_neg hp2] at hl2
      rw [h1, parseLoop_real _ _ (by simp) (by simp) (by simp)]
      simp [parseDefault, hl2, ok_bind, expectEOInstr, advance, nexttok_nil, parseLoop_eof,
        bind, Except.bind, pure, Except.pure]

theorem label_declaration_witness :
    parseDefault ⟨⟨TOK_ANY, "("⟩, "SCREEN)\n@1\n".toList, [.AInstrAST (.ConstantExprAST 0)], []⟩ =
      .error .labelPredefined ∧
    parseDefault ⟨⟨TOK_ANY, "("⟩, "loop.1)\n@1\n".toList, [.AInstrAST (.ConstantExprAST 0)], []⟩ =
      .ok ⟨⟨TOK_EOL, "\n"⟩, "@1\n".toList, [.AInstrAST (.ConstantExprAST 0)],
           [⟨"loop.1", 1⟩]⟩ :=
  ⟨((label_declaration
      ⟨⟨TOK_ANY, "("⟩, "SCREEN)\n@1\n".toList, [.AInstrAST (.ConstantExprAST 0)], []⟩
      'S' "CREEN".toList "@1\n".toList rfl (by decide) (by decide) rfl).1 (by decide)).2,
   ((label_declaration
      ⟨⟨TOK_ANY, "("⟩, "loop.1)\n@1\n".toList, [.AInstrAST (.ConstantExprAST 0)], []⟩
      'l' "oop.1".toList "@1\n".toList rfl (by decide) (by decide) rfl).2.1 (by decide)).1⟩

/-! ## The text of a comp -/

theorem step_ok (s s1 : CompState) (h : CompState.step s = .ok s1) :
    s1.operandidx = s.operandidx ∧ s1.raw_comp = s.raw_comp ∧
    s1.comp_toks0 = s.comp_toks0 ∧ s1.comp_toks1 = s.comp_toks1 ∧
    s1.comp_toks2 = s.comp_toks2 := by
  unfold CompState.step at h
  split at h
  · simp only [bind_ok, pure_ok] at h
    obtain ⟨r, _, rfl⟩ := h
    simp
  · simp only [pure_ok] at h
    subst h
    simp

/-- The invariant of the comp loop at the loop test: the text collected so far
is the concatenation of the texts of the stored tokens, and tokens are stored
from left to right. -/
theorem compLoop_raw : ∀ (fuel : Nat) (s s1 : CompState),
    s.raw_comp = ((s.comp_toks0.map Token.value).getD "") ++
      ((s.comp_toks1.map Token.value).getD "") ++ ((s.comp_toks2.map Token.value).getD "") →
    (s.operandidx ≤ 1 → s.comp_toks1 = none ∧ s.comp_toks2 = none) →
    (s.operandidx = 0 → s.comp_toks0 = none) →
    s.operandidx ≠ 2 →
    compLoop fuel s = .ok s1 →
    s1.raw_comp = ((s1.comp_toks0.map Token.value).getD "") ++
      ((s1.comp_toks1.map Token.value).getD "") ++ ((s1.comp_toks2.map Token.value).getD "") := by
  intro fuel
  induction fuel with
  | zero => intro s s1 _ _ _ _ h; simp [compLoop] at h
  | succ fuel ih =>
    intro s s1 hraw h1 h0 h2 h
    simp only [compLoop] at h
    split at h
    · rename_i hlt
      have hle : s.operandidx ≤ 1 := by omega
      obtain ⟨ht1, ht2⟩ := h1 hle
      simp only [bind_ok] at h
      obtain ⟨sa, hsa, h⟩ := h
      -- the state after the operator step
      have hA : sa.raw_comp = ((sa.comp_toks0.map Token.value).getD "") ++
            ((sa.comp_toks1.map Token.value).getD "") ++
            ((sa.comp_toks2.map Token.value).getD "") ∧
          sa.comp_toks2 = none ∧
          ((sa.operandidx = 2) ∨
            (sa.operandidx = s.operandidx ∧ sa.comp_toks1 = none ∧
              sa.comp_toks0 = s.comp_toks0)) := by
        unfold compOperator at hsa
        split at hsa
        · obtain ⟨e1, e2, e3, e4, e5⟩ := step_ok _ sa hsa
          simp only at e1 e2 e3 e4 e5
          refine ⟨?_, by rw [e5, ht2], Or.inl e1⟩
          rw [e2, e3, e4, e5, hraw, ht1, ht2]
          simp
        · simp only [pure_ok] at hsa
          subst hsa
          exact ⟨hraw, ht2, Or.inr ⟨rfl, ht1, rfl⟩⟩
      obtain ⟨hAraw, hA2, hAidx⟩ := hA
      split at h
      · simp only [pure_ok] at h
        subst h
        exact hAraw
      · split at h
        · simp at h
        · rename_i hne1
          simp only [bind_ok] at h
          obtain ⟨sb, hsb, h⟩ := h
          unfold compOperand at hsb
          obtain ⟨e1, e2, e3, e4, e5⟩ := step_ok _ sb hsb
          simp only at e1 e2 e3 e4 e5
          rcases hAidx with hidx | ⟨hidx, hA1, hA0⟩
          · -- an operator was read: the operand goes to slot 2
            have hz : ¬ sa.operandidx = 0 := by omega
            simp only [hz, if_false] at e3 e4 e5
            apply ih sb s1 _ _ _ _ h
            · rw [e2, e3, e4, e5, hAraw, hA2]
              simp
            · intro hc; omega
            · intro hc; omega
            · omega
          · -- no operator: the operand goes to slot 0
            have hz : sa.operandidx = 0 := by omega
            have hs0 := h0 (by omega)
            simp only [hz, if_true] at e3 e4 e5
            apply ih sb s1 _ _ _ _ h
            · rw [e2, e3, e4, e5, hAraw, hA1, hA2, hA0, hs0]
              simp
            · intro _
              rw [e4, e5]
              exact ⟨hA1, hA2⟩
            · intro hc; omega
            · omega
    · simp only [pure_ok] at h
      subst h
      exact hraw

/-! ## Comp texts outside the comp table -/

theorem parseDest_init (a : State) (dest : Option DestAST) (s : CompState)
    (h : parseDest a = .ok (dest, s)) :
    s.operandidx = 0 ∧ s.raw_comp = "" ∧ s.comp_toks0 = none ∧ s.comp_toks1 = none ∧
    s.comp_toks2 = none := by
  unfold parseDest at h
  simp only at h
  split at h
  · simp only [bind_ok] at h
    obtain ⟨r, _, h⟩ := h
    split at h
    · split at h
      · simp at h
      · simp only [bind_ok, pure_ok, Prod.mk.injEq] at h
        obtain ⟨t, _, c, _, _, rfl⟩ := h
        simp
    · simp only [pure_ok, Prod.mk.injEq] at h
      obtain ⟨_, rfl⟩ := h
      simp
  · simp only [pure_ok, Prod.mk.injEq] at h
    obtain ⟨_, rfl⟩ := h
    simp

/-- The text stored in a comp node is the concatenation of the texts of the
operand and operator tokens the comp loop found. -/
theorem parseCompPart_raw (a a1 : State) (dest : Option DestAST) (comp : CompAST)
    (h : parseCompPart a = .ok (dest, comp, a1)) :
    ∃ (s0 s : CompState), parseDest a = .ok (dest, s0) ∧ compLoop 3 s0 = .ok s ∧
      comp.raw = ((s.comp_toks0.map Token.value).getD "") ++
        ((s.comp_toks1.map Token.value).getD "") ++ ((s.comp_toks2.map Token.value).getD "") := by
  simp only [parseCompPart, bind_ok, pure_ok, Prod.mk.injEq] at h
  obtain ⟨r, hr, s, hs, isM, _, lhs, _, rhs, _, h1, h2, _⟩ := h
  obtain ⟨i0, i1, i2, i3, i4⟩ := parseDest_init a r.1 r.2 hr
  refine ⟨r.2, s, by rw [← h1, hr], hs, ?_⟩
  rw [← h2]
  exact compLoop_raw 3 r.2 s (by simp [i1, i2, i3, i4]) (fun _ => ⟨i3, i4⟩) (fun _ => i2)
    (by omega) hs

theorem foldl_putwinc_mem (ns : List String) : ∀ (t : SymbolTable) (x : String),
    x ∈ ns → ∃ v, (ns.foldl SymbolTable.putwinc t).tbl.lookup x = some v := by
  induction ns with
  | nil => intro t x h; simp at h
  | cons n ns ih =>
    intro t x h
    simp only [List.mem_cons] at h
    by_cases hx : x = n
    · subst hx
      cases hl : t.tbl.lookup x with
      | none =>
        exact ⟨_, foldl_putwinc_bound ns _ x _ (putwinc_lookup_self t x hl)⟩
      | some v =>
        exact ⟨v, foldl_putwinc_bound ns _ x v (putwinc_lookup_bound t x x v hl)⟩
    · rcases h with h | h
      · exact absurd h hx
      · exact ih (t.putwinc n) x h

/-- After the variable loop every symbol operand is bound. -/
theorem linkSymbols_bound (ins : List InstrAST) (t : SymbolTable) (name : String)
    (h : InstrAST.AInstrAST (.SymbolExprAST name) ∈ ins) :
    ∃ v, (linkSymbols ins t).tbl.lookup name = some v := by
  rw [linkSymbols_eq]
  apply foldl_putwinc_mem
  simp only [symbolOperands, List.mem_filterMap]
  exact ⟨_, h, rfl⟩

/-- The errors of code generation: a failed table lookup, or an unbound
symbol operand. -/
theorem codegen_error (ctx : SymbolTable) (i : InstrAST) (e : Err)
    (h : InstrAST.codegen ctx i = .error e) :
    e = .mapAt ∨ (e = .symbolNotFound ∧ ∃ name, i = .AInstrAST (.SymbolExprAST name) ∧
      ctx.tbl.lookup name = none) := by
  have hmap : ∀ (m : List (String × String)) (k : String), mapAt m k = .error e → e = .mapAt := by
    intro m k hm
    unfold mapAt at hm
    split at hm
    · simp at hm
    · simpa using hm.symm
  rcases i with ⟨v | n⟩ | ⟨d, c, j⟩
  · simp [InstrAST.codegen, pure, Except.pure] at h
  · right
    cases hl : ctx.tbl.lookup n with
    | none =>
      simp [InstrAST.codegen, SymbolTable.get, hl, bind, Except.bind] at h
      exact ⟨h.symm, n, rfl, hl⟩
    | some v =>
      simp [InstrAST.codegen, SymbolTable.get, hl, bind, Except.bind, pure, Except.pure] at h
  · left
    simp only [InstrAST.codegen] at h
    cases hc : c.codegen with
    | error e1 =>
      rw [hc, error_bind] at h
      simp only [Except.error.injEq] at h
      subst h
      exact hmap _ _ hc
    | ok cc =>
      rw [hc, ok_bind] at h
      cases hd : (match d with
        | some d => d.codegen
        | none => (pure "000" : Except Err String)) with
      | error e1 =>
        rw [hd, error_bind] at h
        simp only [Except.error.injEq] at h
        subst h
        cases d with
        | none => simp [pure, Except.pure] at hd
        | some d => exact hmap _ _ hd
      | ok dc =>
        rw [hd, ok_bind] at h
        cases hj : (match j with
          | some j => j.codegen
          | none => (pure "000" : Except Err String)) with
        | error e1 =>
          rw [hj, error_bind] at h
          simp only [Except.error.injEq] at h
          subst h
          cases j with
          | none => simp [pure, Except.pure] at hj
          | some j => exact hmap _ _ hj
        | ok jc =>
          rw [hj, ok_bind] at h
          simp [pure, Except.pure] at h

theorem mapM_error {α β : Type} (f : α → Except Err β) : ∀ (l : List α) (e : Err),
    l.mapM f = .error e → ∃ a ∈ l, f a = .error e := by
  intro l
  induction l with
  | nil => intro e h; rw [List.mapM_nil] at h; simp [pure, Except.pure] at h
  | cons x xs ih =>
    intro e h
    rw [List.mapM_cons] at h
    cases hx : f x with
    | error e1 =>
      rw [hx, error_bind] at h
      simp only [Except.error.injEq] at h
      subst h
      exact ⟨x, by simp, hx⟩
    | ok b =>
      rw [hx, ok_bind] at h
      cases hxs : xs.mapM f with
      | error e2 =>
        rw [hxs, error_bind] at h
        simp only [Except.error.injEq] at h
        subst h
        obtain ⟨a, ha, hfa⟩ := ih e2 hxs
        exact ⟨a, by simp [ha], hfa⟩
      | ok bs =>
        rw [hxs, ok_bind] at h
        simp [pure, Except.pure] at h

/-- The only error `link` can raise is that of a failed table lookup. -/
theorem link_error (ins : List InstrAST) (labels : List LabelAST) (ctx : SymbolTable) (e : Err)
    (h : link ins labels ctx = .error e) : e = .mapAt := by
  obtain ⟨i, hi, hc⟩ := mapM_error _ ins e h
  rcases codegen_error _ i e hc with h1 | ⟨_, name, rfl, hnone⟩
  · exact h1
  · obtain ⟨v, hv⟩ := linkSymbols_bound ins (linkLabels labels ctx) name hi
    rw [linkTable, hv] at hnone
    simp at hnone

/-- A C-instruction whose comp text is not a key of the comp table makes
`link` fail. -/
theorem link_unknown_comp (ins : List InstrAST) (labels : List LabelAST) (ctx : SymbolTable)
    (d : Option DestAST) (c : CompAST) (j : Option JmpAST)
    (hmem : InstrAST.CInstrAST d c j ∈ ins) (hkey : comp_to_bincode.lookup c.raw = none) :
    link ins labels ctx = .error .mapAt := by
  cases hl : link ins labels ctx with
  | error e => rw [link_error ins labels ctx e hl]
  | ok out =>
    obtain ⟨_, h2, _⟩ := mapM_ok_get _ ins out hl
    obtain ⟨n, hn, hget⟩ := List.getElem_of_mem hmem
    have hsome : ins[n]? = some (InstrAST.CInstrAST d c j) := by
      rw [List.getElem?_eq_getElem hn, hget]
    obtain ⟨w, _, hw⟩ := h2 n _ hsome
    simp [InstrAST.codegen, CompAST.codegen, mapAt, hkey, bind, Except.bind] at hw

/-- C16: when the parser returns a program that contains a C-instruction whose
comp text is not one of the 28 keys of the comp table, the translation (parse,
then link) fails with the error of the failed table lookup and returns no
output lines; the same holds for `link` on any instruction list, label list
and symbol table.  The comp text of a parsed instruction is the concatenation
of the texts of the operand and operator tokens the comp loop found, and a
program the parser rejects is not translated either. -/
theorem unknown_comp_fails (src : List Char) (a : State) (d : Option DestAST) (c : CompAST)
    (j : Option JmpAST) (hp : parse src = .ok a) (hmem : InstrAST.CInstrAST d c j ∈ a.ins)
    (hkey : comp_to_bincode.lookup c.raw = none) :
    translate src = .error .mapAt ∧
    (∀ out : List String, translate src ≠ .ok out) ∧
    (∀ (ins : List InstrAST) (labels : List LabelAST) (ctx : SymbolTable),
      InstrAST.CInstrAST d c j ∈ ins → link ins labels ctx = .error .mapAt) ∧
    (∀ (b b1 : State) (dest : Option DestAST) (comp : CompAST),
      parseCompPart b = .ok (dest, comp, b1) →
      ∃ (s0 s : CompState), parseDest b = .ok (dest, s0) ∧ compLoop 3 s0 = .ok s ∧
        comp.raw = ((s.comp_toks0.map Token.value).getD "") ++
          ((s.comp_toks1.map Token.value).getD "") ++
          ((s.comp_toks2.map Token.value).getD "")) ∧
    comp_to_bincode.length = 28 ∧
    (∀ (other : List Char) (e : Err), parse other = .error e → translate other = .error e) := by
  have ht : translate src = .error .mapAt := by
    simp only [translate, hp, ok_bind]
    exact link_unknown_comp a.ins a.labels _ d c j hmem hkey
  refine ⟨ht, ?_, ?_, parseCompPart_raw, rfl, ?_⟩
  · intro out hc
    rw [ht] at hc
    simp at hc
  · intro ins labels ctx hi
    exact link_unknown_comp ins labels ctx d c j hi hkey
  · intro other e he
    simp only [translate, he, error_bind]

theorem unknown_comp_fails_witness :
    translate "@1\nD=M+D\n@2\n".toList = .error .mapAt ∧
    translate "D=5\n".toList = .error .mapAt :=
  ⟨(unknown_comp_fails "@1\nD=M+D\n@2\n".toList
      ⟨⟨TOK_EOF, eofText⟩, [],
        [.AInstrAST (.ConstantExprAST 1),
         .CInstrAST (some ⟨"D"⟩)
           ⟨true, "M+D", "+", some (.SymbolExprAST "M"), some (.SymbolExprAST "D")⟩ none,
         .AInstrAST (.ConstantExprAST 2)], []⟩
      (some ⟨"D"⟩) ⟨true, "M+D", "+", some (.SymbolExprAST "M"), some (.SymbolExprAST "D")⟩ none
      (by decide) (by decide) (by decide)).1,
   (unknown_comp_fails "D=5\n".toList
      ⟨⟨TOK_EOF, eofText⟩, [],
        [.CInstrAST (some ⟨"D"⟩) ⟨false, "5", "", none, some (.ConstantExprAST 5)⟩ none], []⟩
      (some ⟨"D"⟩) ⟨false, "5", "", none, some (.ConstantExprAST 5)⟩ none
      (by decide) (by decide) (by decide)).1⟩

/-! ## Symbol operands are bound at emission -/

theorem get_ok (t : SymbolTable) (name : String) (v : Int)
    (h : t.tbl.lookup name = some v) : t.get name = .ok v := by
  simp [SymbolTable.get, h]

/-- C23: `link` never raises the "Symbol not found" error, whatever the
instruction list, the label list and the symbol table it starts from (in
particular for the lists of a successfully parsed program and the fresh
table): after the label loop and the variable loop every name used as an
A-instruction symbol operand is bound in the table, so `get` returns its
address, the instruction is emitted as the bit 0 followed by the fifteen bits
of that address, and no instruction of the list makes code generation fail
with the unresolved-symbol error. -/
theorem link_never_symbol_not_found (ins : List InstrAST) (labels : List LabelAST)
    (ctx : SymbolTable) :
    link ins labels ctx ≠ .error .symbolNotFound ∧
    (∀ name : String, InstrAST.AInstrAST (.SymbolExprAST name) ∈ ins →
      ∃ v : Int, (linkTable ins labels ctx).get name = .ok v ∧
        InstrAST.codegen (linkTable ins labels ctx) (.AInstrAST (.SymbolExprAST name)) =
          .ok ("0" ++ bitset15 v)) ∧
    (∀ i ∈ ins, InstrAST.codegen (linkTable ins labels ctx) i ≠ .error .symbolNotFound) ∧
    (∀ (src : List Char) (a : State), parse src = .ok a →
      translate src = link a.ins a.labels SymbolTable.clear ∧
      translate src ≠ .error .symbolNotFound) := by
  have hbound : ∀ name : String, InstrAST.AInstrAST (.SymbolExprAST name) ∈ ins →
      ∃ v : Int, (linkTable ins labels ctx).get name = .ok v := by
    intro name hmem
    obtain ⟨v, hv⟩ := linkSymbols_bound ins (linkLabels labels ctx) name hmem
    exact ⟨v, get_ok _ _ _ hv⟩
  refine ⟨?_, ?_, ?_, ?_⟩
  · intro h
    have := link_error ins labels ctx _ h
    simp at this
  · intro name hmem
    obtain ⟨v, hv⟩ := hbound name hmem
    refine ⟨v, hv, ?_⟩
    simp only [InstrAST.codegen, hv, ok_bind]
    rfl
  · intro i hi h
    rcases codegen_error _ i _ h with h1 | ⟨_, name, rfl, hnone⟩
    · simp at h1
    · obtain ⟨v, hv⟩ := hbound name hi
      simp [SymbolTable.get, hnone] at hv
  · intro src a hp
    have e : translate src = link a.ins a.labels SymbolTable.clear := by
      simp only [translate, hp, ok_bind]
    refine ⟨e, ?_⟩
    rw [e]
    intro h
    have := link_error _ _ _ _ h
    simp at this

theorem link_never_symbol_not_found_witness :
    translate "@i\n(LOOP)\n@LOOP\n@R2\n@j\n".toList =
      .ok ["0000000000010000", "0000000000000001", "0000000000000010", "0000000000010001"] ∧
    (∃ v : Int,
      (linkTable [.AInstrAST (.SymbolExprAST "i"), .AInstrAST (.SymbolExprAST "LOOP")]
          [⟨"LOOP", 1⟩] ⟨[], 0⟩).get "i" = .ok v ∧
      InstrAST.codegen
          (linkTable [.AInstrAST (.SymbolExprAST "i"), .AInstrAST (.SymbolExprAST "LOOP")]
            [⟨"LOOP", 1⟩] ⟨[], 0⟩) (.AInstrAST (.SymbolExprAST "i")) =
        .ok ("0" ++ bitset15 v)) :=
  ⟨by decide,
   (link_never_symbol_not_found
      [.AInstrAST (.SymbolExprAST "i"), .AInstrAST (.SymbolExprAST "LOOP")]
      [⟨"LOOP", 1⟩] ⟨[], 0⟩).2.1 "i" (by decide)⟩

/-! ## Injectivity of the encoding -/

theorem lookup_mem_pair (l : List (String × String)) (k v : String)
    (h : l.lookup k = some v) : (k, v) ∈ l := by
  induction l with
  | nil => simp at h
  | cons x xs ih =>
    obtain ⟨k1, v1⟩ := x
    simp only [List.lookup_cons] at h
    split at h
    · rename_i hk
      simp only [beq_iff_eq] at hk
      simp only [Option.some.injEq] at h
      subst hk
      subst h
      simp
    · simp [ih h]

/-- A table whose codes are pairwise distinct maps distinct keys to distinct
codes. -/
theorem lookup_inj (l : List (String × String)) (hnd : (l.map Prod.snd).Nodup)
    (k1 k2 v : String) (h1 : l.lookup k1 = some v) (h2 : l.lookup k2 = some v) : k1 = k2 := by
  have e := List.inj_on_of_nodup_map hnd (lookup_mem_pair l k1 v h1) (lookup_mem_pair l k2 v h2) rfl
  exact (Prod.mk.inj e).1

theorem comp_codes_nodup : (comp_to_bincode.map Prod.snd).Nodup := by decide

theorem dest_codes_nodup : (dest_to_bincode.map Prod.snd).Nodup := by decide

theorem jmp_codes_nodup : (jmp_to_bincode.map Prod.snd).Nodup := by decide

theorem mapAt_lookup (l : List (String × String)) (k v : String) (h : mapAt l k = .ok v) :
    l.lookup k = some v := by
  unfold mapAt at h
  split at h
  · rename_i w hw
    simp only [Except.ok.injEq] at h
    rw [hw, h]
  · simp at h

theorem string_append_inj (s1 t1 s2 t2 : String) (h : s1 ++ t1 = s2 ++ t2)
    (hl : t1.length = t2.length) : s1 = s2 ∧ t1 = t2 := by
  have e := congrArg String.toList h
  rw [toList_append, toList_append] at e
  obtain ⟨e1, e2⟩ := List.append_inj' e hl
  exact ⟨String.ext e1, String.ext e2⟩

theorem string_append_cancel (s t1 t2 : String) (h : s ++ t1 = s ++ t2) : t1 = t2 := by
  have e := congrArg String.toList h
  rw [toList_append, toList_append] at e
  exact String.ext (List.append_cancel_left e)

/-- The dest field of an emitted word determines the dest node, when the node
holds a legal dest code. -/
theorem dest_field_inj (d1 d2 : Option DestAST) (x : String)
    (l1 : ∀ d, d1 = some d → isdest d.dest = true)
    (l2 : ∀ d, d2 = some d → isdest d.dest = true)
    (h1 : (match d1 with
      | some d => d.codegen
      | none => (pure "000" : Except Err String)) = .ok x)
    (h2 : (match d2 with
      | some d => d.codegen
      | none => (pure "000" : Except Err String)) = .ok x) : d1 = d2 := by
  have hne : ∀ d : DestAST, isdest d.dest = true → d.codegen ≠ .ok "000" := by
    intro d hd
    obtain ⟨s⟩ := d
    rcases isdest_cases s hd with h | h | h | h | h | h | h <;> subst h <;> decide
  cases d1 with
  | none =>
    cases d2 with
    | none => rfl
    | some b =>
      simp only [pure_ok] at h1
      subst h1
      exact absurd h2 (hne b (l2 b rfl))
  | some a =>
    cases d2 with
    | none =>
      simp only [pure_ok] at h2
      subst h2
      exact absurd h1 (hne a (l1 a rfl))
    | some b =>
      simp only [DestAST.codegen] at h1 h2
      have e := lookup_inj _ dest_codes_nodup _ _ _ (mapAt_lookup _ _ _ h1) (mapAt_lookup _ _ _ h2)
      obtain ⟨s⟩ := a
      obtain ⟨t⟩ := b
      simp only at e
      rw [e]

/-- The jump field of an emitted word determines the jump node, when the node
holds a legal jump mnemonic. -/
theorem jmp_field_inj (j1 j2 : Option JmpAST) (x : String)
    (l1 : ∀ j, j1 = some j → isjmp j.jmp = true)
    (l2 : ∀ j, j2 = some j → isjmp j.jmp = true)
    (h1 : (match j1 with
      | some j => j.codegen
      | none => (pure "000" : Except Err String)) = .ok x)
    (h2 : (match j2 with
      | some j => j.codegen
      | none => (pure "000" : Except Err String)) = .ok x) : j1 = j2 := by
  have hne : ∀ j : JmpAST, isjmp j.jmp = true → j.codegen ≠ .ok "000" := by
    intro j hj
    obtain ⟨s⟩ := j
    rcases isjmp_cases s hj with h | h | h | h | h | h | h <;> subst h <;> decide
  cases j1 with
  | none =>
    cases j2 with
    | none => rfl
    | some b =>
      simp only [pure_ok] at h1
      subst h1
      exact absurd h2 (hne b (l2 b rfl))
  | some a =>
    cases j2 with
    | none =>
      simp only [pure_ok] at h2
      subst h2
      exact absurd h1 (hne a (l1 a rfl))
    | some b =>
      simp only [JmpAST.codegen] at h1 h2
      have e := lookup_inj _ jmp_codes_nodup _ _ _ (mapAt_lookup _ _ _ h1) (mapAt_lookup _ _ _ h2)
      obtain ⟨s⟩ := a
      obtain ⟨t⟩ := b
      simp only at e
      rw [e]

theorem codegen_C_inj (ctx1 ctx2 : SymbolTable) (d1 d2 : Option DestAST) (c1 c2 : CompAST)
    (j1 j2 : Option JmpAST) (w : String)
    (ld1 : ∀ d, d1 = some d → isdest d.dest = true)
    (ld2 : ∀ d, d2 = some d → isdest d.dest = true)
    (lj1 : ∀ j, j1 = some j → isjmp j.jmp = true)
    (lj2 : ∀ j, j2 = some j → isjmp j.jmp = true)
    (h1 : InstrAST.codegen ctx1 (.CInstrAST d1 c1 j1) = .ok w)
    (h2 : InstrAST.codegen ctx2 (.CInstrAST d2 c2 j2) = .ok w) :
    d1 = d2 ∧ c1.raw = c2.raw ∧ j1 = j2 := by
  simp only [InstrAST.codegen, bind_ok, pure_ok] at h1 h2
  obtain ⟨cc1, hc1, dc1, hd1, jc1, hj1, hw1⟩ := h1
  obtain ⟨cc2, hc2, dc2, hd2, jc2, hj2, hw2⟩ := h2
  have lenj : ∀ (j : Option JmpAST) (x : String), (match j with
      | some j => j.codegen
      | none => (pure "000" : Except Err String)) = .ok x → x.length = 3 := by
    intro j x hx
    cases j with
    | none => simp only [pure_ok] at hx; subst hx; rfl
    | some j => exact (jmp_codes x (mapAt_ok _ _ _ hx)).1
  have lend : ∀ (d : Option DestAST) (x : String), (match d with
      | some d => d.codegen
      | none => (pure "000" : Except Err String)) = .ok x → x.length = 3 := by
    intro d x hx
    cases d with
    | none => simp only [pure_ok] at hx; subst hx; rfl
    | some d => exact (dest_codes x (mapAt_ok _ _ _ hx)).1
  have hw : "111" ++ cc1 ++ dc1 ++ jc1 = "111" ++ cc2 ++ dc2 ++ jc2 := by rw [hw1, hw2]
  obtain ⟨e1, ej⟩ := string_append_inj _ _ _ _ hw (by rw [lenj j1 jc1 hj1, lenj j2 jc2 hj2])
  obtain ⟨e2, ed⟩ := string_append_inj _ _ _ _ e1 (by rw [lend d1 dc1 hd1, lend d2 dc2 hd2])
  have ec := string_append_cancel _ _ _ e2
  subst ej
  subst ed
  subst ec
  refine ⟨dest_field_inj d1 d2 dc1 ld1 ld2 hd1 hd2, ?_, jmp_field_inj j1 j2 jc1 lj1 lj2 hj1 hj2⟩
  simp only [CompAST.codegen] at hc1 hc2
  exact lookup_inj _ comp_codes_nodup _ _ _ (mapAt_lookup _ _ _ hc1) (mapAt_lookup _ _ _ hc2)

theorem codegen_A_first (ctx : SymbolTable) (e : AsmExprAST) (w : String)
    (h : InstrAST.codegen ctx (.AInstrAST e) = .ok w) : w.toList.head? = some '0' := by
  cases e with
  | ConstantExprAST v =>
    simp only [InstrAST.codegen, pure_ok] at h
    subst h
    rw [toList_append]
    rfl
  | SymbolExprAST n =>
    simp only [InstrAST.codegen, bind_ok, pure_ok] at h
    obtain ⟨addr, _, rfl⟩ := h
    rw [toList_append]
    rfl

theorem codegen_C_first (ctx : SymbolTable) (d : Option DestAST) (c : CompAST)
    (j : Option JmpAST) (w : String)
    (h : InstrAST.codegen ctx (.CInstrAST d c j) = .ok w) : w.toList.head? = some '1' := by
  simp only [InstrAST.codegen, bind_ok, pure_ok] at h
  obtain ⟨cc, _, dc, _, jc, _, rfl⟩ := h
  rw [toList_append, toList_append, toList_append]
  rfl

theorem codegen_A_inj (ctx1 ctx2 : SymbolTable) (n m : Int) (hn0 : 0 ≤ n) (hn : n ≤ 24576)
    (hm0 : 0 ≤ m) (hm : m ≤ 24576)
    (h : InstrAST.codegen ctx1 (.AInstrAST (.ConstantExprAST n)) =
      InstrAST.codegen ctx2 (.AInstrAST (.ConstantExprAST m))) : n = m := by
  simp only [InstrAST.codegen, pure, Except.pure, Except.ok.injEq] at h
  have e := congrArg binaryValue (string_append_cancel _ _ _ h)
  rw [bitset15_value, bitset15_value] at e
  omega

/-- C24: the instruction encoding is injective.  Each of the comp, dest and
jump tables maps distinct keys to distinct codes.  Two C-instructions whose
dest and jump nodes, when present, hold legal codes (and whose comp texts are
keys of the comp table, as emission requires) are emitted as the same word only
if they have the same dest, the same comp text and the same jump.  Two
A-instructions with constants in [0, 24576] are emitted as the same word only
if the constants are equal.  No word of an A-instruction (constant or symbol
operand) is the word of a C-instruction: the former starts with the digit 0,
the latter with the digit 1. -/
theorem encoding_injective :
    (∀ k1 k2 v : String, comp_to_bincode.lookup k1 = some v →
      comp_to_bincode.lookup k2 = some v → k1 = k2) ∧
    (∀ k1 k2 v : String, dest_to_bincode.lookup k1 = some v →
      dest_to_bincode.lookup k2 = some v → k1 = k2) ∧
    (∀ k1 k2 v : String, jmp_to_bincode.lookup k1 = some v →
      jmp_to_bincode.lookup k2 = some v → k1 = k2) ∧
    (∀ (ctx1 ctx2 : SymbolTable) (d1 d2 : Option DestAST) (c1 c2 : CompAST)
      (j1 j2 : Option JmpAST) (w : String),
      (∀ d, d1 = some d → isdest d.dest = true) →
      (∀ d, d2 = some d → isdest d.dest = true) →
      (∀ j, j1 = some j → isjmp j.jmp = true) →
      (∀ j, j2 = some j → isjmp j.jmp = true) →
      InstrAST.codegen ctx1 (.CInstrAST d1 c1 j1) = .ok w →
      InstrAST.codegen ctx2 (.CInstrAST d2 c2 j2) = .ok w →
      d1 = d2 ∧ c1.raw = c2.raw ∧ j1 = j2) ∧
    (∀ (ctx1 ctx2 : SymbolTable) (n m : Int), 0 ≤ n → n ≤ 24576 → 0 ≤ m → m ≤ 24576 →
      InstrAST.codegen ctx1 (.AInstrAST (.ConstantExprAST n)) =
        InstrAST.codegen ctx2 (.AInstrAST (.ConstantExprAST m)) → n = m) ∧
    (∀ (ctx1 ctx2 : SymbolTable) (e : AsmExprAST) (d : Option DestAST) (c : CompAST)
      (j : Option JmpAST) (w : String),
      InstrAST.codegen ctx1 (.AInstrAST e) = .ok w →
      InstrAST.codegen ctx2 (.CInstrAST d c j) ≠ .ok w) := by
  refine ⟨lookup_inj _ comp_codes_nodup, lookup_inj _ dest_codes_nodup,
    lookup_inj _ jmp_codes_nodup, codegen_C_inj, codegen_A_inj, ?_⟩
  intro ctx1 ctx2 e d c j w h1 h2
  have e1 := codegen_A_first ctx1 e w h1
  have e2 := codegen_C_first ctx2 d c j w h2
  rw [e1] at e2
  simp at e2

theorem encoding_injective_witness :
    ((some (DestAST.mk "D") = some (DestAST.mk "D")) ∧
      (CompAST.mk true "D+M" "+" (some (.SymbolExprAST "D")) (some (.SymbolExprAST "M"))).raw =
        (CompAST.mk false "D+M" "" none none).raw ∧
      (some (JmpAST.mk "JGT") = some (JmpAST.mk "JGT"))) ∧
    ((24576 : Int) = 24576) ∧
    "A" = "A" :=
  ⟨encoding_injective.2.2.2.1 SymbolTable.clear ⟨[], 0⟩ (some ⟨"D"⟩) (some ⟨"D"⟩)
      ⟨true, "D+M", "+", some (.SymbolExprAST "D"), some (.SymbolExprAST "M")⟩
      ⟨false, "D+M", "", none, none⟩ (some ⟨"JGT"⟩) (some ⟨"JGT"⟩) "1111000010010001"
      (by decide) (by decide) (by decide) (by decide) (by decide) (by decide),
   encoding_injective.2.2.2.2.1 SymbolTable.clear ⟨[], 0⟩ 24576 24576
      (by decide) (by decide) (by decide) (by decide) (by decide),
   encoding_injective.1 "A" "A" "0110000" (by decide) (by decide)⟩

/-! ## A label declared after many instructions -/

/-- One iteration of the parse loop on the line `@0`. -/
theorem parseLoop_zero_line (f : Nat) (r : Reader) (ins : List InstrAST)
    (labels : List LabelAST) :
    parseLoop (f + 1) ⟨⟨TOK_ANY, "@"⟩, '0' :: '\n' :: r, ins, labels⟩ =
      (advance ⟨⟨TOK_EOL, "\n"⟩, r, ins ++ [.AInstrAST (.ConstantExprAST 0)], labels⟩ >>=
        parseLoop f) := by
  rw [parseLoop_real _ _ (by simp) (by simp) (by simp)]
  have h2 := parseAInstr_number ⟨⟨TOK_ANY, "@"⟩, '0' :: '\n' :: r, ins, labels⟩ '0' [] r rfl
    (by decide) (by simp)
  have hs : stoi ⟨['0']⟩ = .ok 0 := by decide
  have hm : mkConstantExprAST 0 = .ok (.ConstantExprAST 0) := by decide
  rw [hs, ok_bind, hm, ok_bind] at h2
  have hd : parseDefault ⟨⟨TOK_ANY, "@"⟩, '0' :: '\n' :: r, ins, labels⟩ =
      .ok ⟨⟨TOK_EOL, "\n"⟩, r, ins ++ [.AInstrAST (.ConstantExprAST 0)], labels⟩ := by
    simp [parseDefault, h2, expectEOInstr, bind, Except.bind, pure, Except.pure]
  rw [hd, ok_bind]

theorem parseLoop_zero_lines (r : Reader) (labels : List LabelAST) :
    ∀ (n f : Nat) (ins : List InstrAST),
    parseLoop (f + n) ⟨⟨TOK_ANY, "@"⟩,
        '0' :: '\n' :: ((List.replicate n "@0\n".toList).flatten ++ r), ins, labels⟩ =
      parseLoop f ⟨⟨TOK_ANY, "@"⟩, '0' :: '\n' :: r,
        ins ++ List.replicate n (.AInstrAST (.ConstantExprAST 0)), labels⟩ := by
  intro n
  induction n with
  | zero => intro f ins; simp
  | succ n ih =>
    intro f ins
    have e : f + (n + 1) = (f + n) + 1 := by omega
    have hj : (List.replicate (n + 1) "@0\n".toList).flatten ++ r =
        '@' :: '0' :: '\n' :: ((List.replicate n "@0\n".toList).flatten ++ r) := by
      simp [List.replicate_succ]
    rw [e, parseLoop_zero_line, hj]
    simp only [advance, nexttok_at, ok_bind]
    have := ih f (ins ++ [.AInstrAST (.ConstantExprAST 0)])
    simp only [pure, Except.pure, ok_bind]
    rw [this]
    simp [List.replicate_succ]

/-- The end of the program `labelAfter`: the last `@0`, the declaration of `L`
and the reference to it. -/
theorem parseLoop_label_tail (f : Nat) (ins : List InstrAST) :
    parseLoop (f + 4) ⟨⟨TOK_ANY, "@"⟩, "0\n(L)\n@L\n".toList, ins, []⟩ =
      .ok ⟨⟨TOK_EOF, eofText⟩, [],
        ins ++ [.AInstrAST (.ConstantExprAST 0), .AInstrAST (.SymbolExprAST "L")],
        [⟨"L", ((ins.length + 1 : Nat) : Int)⟩]⟩ := by
  have e1 : "0\n(L)\n@L\n".toList = '0' :: '\n' :: "(L)\n@L\n".toList := rfl
  have e2 : "(L)\n@L\n".toList = '(' :: "L)\n@L\n".toList := rfl
  rw [e1, parseLoop_zero_line]
  simp only [advance, e2, nexttok_lparen, ok_bind, pure, Except.pure]
  rw [parseLoop_real _ _ (by simp) (by simp) (by simp)]
  have hl := parseLabelInstr_ident
    ⟨⟨TOK_ANY, "("⟩, "L)\n@L\n".toList, ins ++ [.AInstrAST (.ConstantExprAST 0)], []⟩
    'L' [] "@L\n".toList (by decide) (by simp) rfl
  rw [if_neg (by decide)] at hl
  have hd : parseDefault
      ⟨⟨TOK_ANY, "("⟩, "L)\n@L\n".toList, ins ++ [.AInstrAST (.ConstantExprAST 0)], []⟩ =
      .ok ⟨⟨TOK_EOL, "\n"⟩, "@L\n".toList, ins ++ [.AInstrAST (.ConstantExprAST 0)],
        [⟨"L", ((ins.length + 1 : Nat) : Int)⟩]⟩ := by
    simp only [parseDefault, if_true]
    rw [hl]
    simp [expectEOInstr, bind, Except.bind, pure, Except.pure]
  rw [hd, ok_bind]
  have e3 : "@L\n".toList = '@' :: "L\n".toList := rfl
  simp only [advance, e3, nexttok_at, ok_bind, pure, Except.pure]
  rw [parseLoop_real _ _ (by simp) (by simp) (by simp)]
  have n1 : nexttok ['L', '\n'] = .ok (⟨TOK_IDENTIFIER, "L"⟩, ['\n']) := by decide
  have hd2 : parseDefault
      ⟨⟨TOK_ANY, "@"⟩, "L\n".toList, ins ++ [.AInstrAST (.ConstantExprAST 0)],
        [⟨"L", ((ins.length + 1 : Nat) : Int)⟩]⟩ =
      .ok ⟨⟨TOK_EOL, "\n"⟩, [],
        ins ++ [.AInstrAST (.ConstantExprAST 0), .AInstrAST (.SymbolExprAST "L")],
        [⟨"L", ((ins.length + 1 : Nat) : Int)⟩]⟩ := by
    simp [parseDefault, parseAInstr, advance, n1, nexttok_eol, expectEOInstr, bind, Except.bind,
      pure, Except.pure]
  rw [hd2, ok_bind]
  simp only [advance, nexttok_nil, ok_bind, pure, Except.pure]
  exact parseLoop_eof _ _ rfl

/-- The parse of `labelAfter`: the label is recorded with the number of lines
`@0` before it. -/
theorem parse_labelAfter (k : Nat) :
    parse (labelAfter (k + 1)) =
      .ok ⟨⟨TOK_EOF, eofText⟩, [],
        List.replicate (k + 1) (.AInstrAST (.ConstantExprAST 0)) ++
          [.AInstrAST (.SymbolExprAST "L")],
        [⟨"L", ((k + 1 : Nat) : Int)⟩]⟩ := by
  have hsrc : labelAfter (k + 1) =
      '@' :: '0' :: '\n' :: ((List.replicate k "@0\n".toList).flatten ++ "(L)\n@L\n".toList) := by
    simp [labelAfter, List.replicate_succ]
  have hlen : (labelAfter (k + 1)).length + 1 = (2 * k + 7 + 4) + k := by
    simp [labelAfter, List.length_flatten, List.map_replicate, List.sum_replicate, smul_eq_mul]
    omega
  simp only [parse]
  rw [hlen, hsrc, nexttok_at, ok_bind]
  have h1 := parseLoop_zero_lines "(L)\n@L\n".toList [] k (2 * k + 7 + 4) []
  simp only at h1
  rw [h1, List.nil_append]
  have h2 := parseLoop_label_tail (2 * k + 7)
    (List.replicate k (.AInstrAST (.ConstantExprAST 0)))
  have e1 : '0' :: '\n' :: "(L)\n@L\n".toList = "0\n(L)\n@L\n".toList := rfl
  rw [e1, h2, List.length_replicate, List.replicate_succ', List.append_assoc]
  rfl

theorem mapM_append_ok {α β : Type} (f : α → Except Err β) (l2 : List α) (o2 : List β)
    (h2 : l2.mapM f = .ok o2) : ∀ (l1 : List α) (o1 : List β), l1.mapM f = .ok o1 →
    (l1 ++ l2).mapM f = .ok (o1 ++ o2) := by
  intro l1
  induction l1 with
  | nil =>
    intro o1 h1
    rw [List.mapM_nil, pure_ok] at h1
    subst h1
    simpa using h2
  | cons x xs ih =>
    intro o1 h1
    obtain ⟨b, bs, hb, hbs, rfl⟩ := (mapM_ok_cons f x xs o1).1 h1
    rw [List.cons_append, mapM_ok_cons]
    exact ⟨b, bs ++ o2, hb, ih bs hbs, rfl⟩

theorem mapM_replicate_ok {α β : Type} (f : α → Except Err β) (a : α) (b : β)
    (h : f a = .ok b) : ∀ n : Nat,
    (List.replicate n a).mapM f = .ok (List.replicate n b) := by
  intro n
  induction n with
  | zero => rw [List.replicate_zero, List.mapM_nil]; rfl
  | succ n ih =>
    rw [List.replicate_succ, mapM_ok_cons]
    exact ⟨b, List.replicate n b, h, ih, by rw [List.replicate_succ]⟩

/-- The translation of `labelAfter`: the label resolves to the number of
lines before it, and the last word holds the low 15 bits of that number. -/
theorem translate_labelAfter (k : Nat) :
    (linkTable (List.replicate (k + 1) (.AInstrAST (.ConstantExprAST 0)) ++
        [.AInstrAST (.SymbolExprAST "L")]) [⟨"L", ((k + 1 : Nat) : Int)⟩]
      SymbolTable.clear).get "L" = .ok ((k + 1 : Nat) : Int) ∧
    translate (labelAfter (k + 1)) =
      .ok (List.replicate (k + 1) "0000000000000000" ++
        ["0" ++ bitset15 ((k + 1 : Nat) : Int)]) := by
  have h1 := linkLabels_once [⟨"L", ((k + 1 : Nat) : Int)⟩] "L" ((k + 1 : Nat) : Int)
    SymbolTable.clear (by simp) (by simp)
  have h2 : (linkTable (List.replicate (k + 1) (.AInstrAST (.ConstantExprAST 0)) ++
        [.AInstrAST (.SymbolExprAST "L")]) [⟨"L", ((k + 1 : Nat) : Int)⟩]
      SymbolTable.clear).tbl.lookup "L" = some ((k + 1 : Nat) : Int) := by
    rw [linkTable, linkSymbols_eq]
    exact foldl_putwinc_bound _ _ "L" _ h1
  have h3 := get_ok _ _ _ h2
  refine ⟨h3, ?_⟩
  simp only [translate, parse_labelAfter, ok_bind, link]
  apply mapM_append_ok
  · rw [List.mapM_cons, List.mapM_nil]
    simp only [InstrAST.codegen, h3, ok_bind]
    rfl
  · exact mapM_replicate_ok (InstrAST.codegen _) (.AInstrAST (.ConstantExprAST 0))
      "0000000000000000" rfl (k + 1)

/-- C22: the word emitted for an A-instruction with a symbol operand is the
digit 0 followed by `bitset15` of the address the symbol table resolves the name
to, and the value of those 15 digits is the address modulo 32768: it is the
address when the address is in [0, 32767], and differs from it otherwise.  The
program of 32768 lines `@0` followed by `(L)` and `@L` is parsed and
translated, `L` resolves to 32768, and the word emitted for `@L` is sixteen
zeros, the word of address 0. -/
theorem symbol_address_word :
    (∀ (ctx : SymbolTable) (name : String) (v : Int), ctx.get name = .ok v →
      InstrAST.codegen ctx (.AInstrAST (.SymbolExprAST name)) = .ok ("0" ++ bitset15 v) ∧
      binaryValue (bitset15 v) = (v % 32768).toNat ∧
      (0 ≤ v → v < 32768 → binaryValue (bitset15 v) = v.toNat) ∧
      (32768 ≤ v → binaryValue (bitset15 v) ≠ v.toNat)) ∧
    parse (labelAfter 32768) =
      .ok ⟨⟨TOK_EOF, eofText⟩, [],
        List.replicate 32768 (.AInstrAST (.ConstantExprAST 0)) ++
          [.AInstrAST (.SymbolExprAST "L")], [⟨"L", 32768⟩]⟩ ∧
    (linkTable (List.replicate 32768 (.AInstrAST (.ConstantExprAST 0)) ++
        [.AInstrAST (.SymbolExprAST "L")]) [⟨"L", 32768⟩] SymbolTable.clear).get "L" =
      .ok 32768 ∧
    translate (labelAfter 32768) =
      .ok (List.replicate 32768 "0000000000000000" ++ ["0000000000000000"]) ∧
    binaryValue "000000000000000" = 0 := by
  refine ⟨?_, parse_labelAfter 32767, (translate_labelAfter 32767).1,
    (translate_labelAfter 32767).2, rfl⟩
  intro ctx name v h
  refine ⟨by simp only [InstrAST.codegen, h, ok_bind]; rfl, bitset15_value v, ?_, ?_⟩
  · intro h0 h1
    rw [bitset15_value]
    congr 1
    omega
  · intro h1
    rw [bitset15_value]
    omega

theorem symbol_address_word_witness :
    InstrAST.codegen SymbolTable.clear (.AInstrAST (.SymbolExprAST "SCREEN")) =
      .ok ("0" ++ bitset15 16384) ∧
    binaryValue (bitset15 16384) = 16384 :=
  ⟨(symbol_address_word.1 SymbolTable.clear "SCREEN" 16384 (by decide)).1,
   (symbol_address_word.1 SymbolTable.clear "SCREEN" 16384 (by decide)).2.2.1 (by decide)
     (by decide)⟩

/-! ## The operand slots of an accepted comp -/

/-- The slots of the comp loop: the operator slot holds an operator token, and
the right operand slot is filled only after the operator slot. -/
theorem compLoop_slots : ∀ (fuel : Nat) (s s1 : CompState),
    (s.operandidx ≤ 1 → s.comp_toks1 = none ∧ s.comp_toks2 = none) →
    s.operandidx ≠ 2 →
    (s.comp_toks2 ≠ none → s.comp_toks1 ≠ none) →
    (∀ t, s.comp_toks1 = some t → t.type = TOK_OPERATOR) →
    compLoop fuel s = .ok s1 →
    (s1.comp_toks2 ≠ none → s1.comp_toks1 ≠ none) ∧
    (∀ t, s1.comp_toks1 = some t → t.type = TOK_OPERATOR) := by
  intro fuel
  induction fuel with
  | zero => intro s s1 _ _ _ _ h; simp [compLoop] at h
  | succ fuel ih =>
    intro s s1 h1 h2 h21 hop h
    simp only [compLoop] at h
    split at h
    · rename_i hlt
      have hle : s.operandidx ≤ 1 := by omega
      obtain ⟨ht1, ht2⟩ := h1 hle
      simp only [bind_ok] at h
      obtain ⟨sa, hsa, h⟩ := h
      have hA : sa.comp_toks2 = none ∧
          ((sa.operandidx = 2 ∧ sa.comp_toks1 = some s.tok ∧ s.tok.type = TOK_OPERATOR) ∨
            (sa.operandidx = s.operandidx ∧ sa.comp_toks1 = none)) := by
        unfold compOperator at hsa
        split at hsa
        · rename_i hty
          obtain ⟨e1, e2, e3, e4, e5⟩ := step_ok _ sa hsa
          simp only at e1 e2 e3 e4 e5
          exact ⟨by rw [e5, ht2], Or.inl ⟨e1, e4, hty⟩⟩
        · simp only [pure_ok] at hsa
          subst hsa
          exact ⟨ht2, Or.inr ⟨rfl, ht1⟩⟩
      obtain ⟨hA2, hAidx⟩ := hA
      split at h
      · simp only [pure_ok] at h
        subst h
        refine ⟨fun hc => absurd hA2 hc, ?_⟩
        intro t ht
        rcases hAidx with ⟨_, e, hty⟩ | ⟨_, e⟩
        · rw [e] at ht
          simp only [Option.some.injEq] at ht
          rw [← ht]
          exact hty
        · rw [e] at ht
          simp at ht
      · split at h
        · simp at h
        · rename_i hne1
          simp only [bind_ok] at h
          obtain ⟨sb, hsb, h⟩ := h
          unfold compOperand at hsb
          obtain ⟨e1, e2, e3, e4, e5⟩ := step_ok _ sb hsb
          simp only at e1 e2 e3 e4 e5
          rcases hAidx with ⟨hidx, hA1, hty⟩ | ⟨hidx, hA1⟩
          · have hz : ¬ sa.operandidx = 0 := by omega
            simp only [hz, if_false] at e3 e4 e5
            apply ih sb s1 _ _ _ _ h
            · intro hc; omega
            · omega
            · intro _
              rw [e4, hA1]
              simp
            · intro t ht
              rw [e4, hA1] at ht
              simp only [Option.some.injEq] at ht
              rw [← ht]
              exact hty
          · have hz : sa.operandidx = 0 := by omega
            simp only [hz, if_true] at e3 e4 e5
            apply ih sb s1 _ _ _ _ h
            · intro _
              rw [e4, e5]
              exact ⟨hA1, hA2⟩
            · omega
            · intro hc
              rw [e5] at hc
              exact absurd hA2 hc
            · intro t ht
              rw [e4, hA1] at ht
              simp at ht
    · simp only [pure_ok] at h
      subst h
      exact ⟨h21, hop⟩

/-- The operand tokens that `parseCompOperand` accepts: a register name, or
a number in the range of a constant. -/
theorem parseCompOperand_some (t : Token) (e : Option AsmExprAST)
    (h : parseCompOperand (some t) = .ok e) :
    (t.type = TOK_IDENTIFIER ∧ isregister t.value = true) ∨
    (t.type = TOK_NUMBER ∧ decValue t.value.toList ≤ 24576) := by
  simp only [parseCompOperand] at h
  split at h
  · rename_i hty
    split at h
    · simp at h
    · rename_i hreg
      left
      refine ⟨hty, ?_⟩
      simpa using hreg
  · split at h
    · rename_i hty
      right
      refine ⟨hty, ?_⟩
      simp only [bind_ok, pure_ok] at h
      obtain ⟨v, hv, c, hc, _⟩ := h
      unfold stoi at hv
      simp only at hv
      split at hv
      · simp at hv
      · simp only [Except.ok.injEq] at hv
        subst hv
        unfold mkConstantExprAST at hc
        split at hc
        · simp at hc
        · rename_i hr
          simp only [Bool.or_eq_true, decide_eq_true_eq, not_or, not_lt] at hr
          omega
    · simp at h

theorem checkComp_ok (t0 t1 t2 : Option Token) (b : Bool) (h : checkComp t0 t1 t2 = .ok b) :
    (t0 ≠ none ∨ t2 ≠ none) ∧ (t0 ≠ none → t1 ≠ none → t2 ≠ none) := by
  unfold checkComp at h
  split at h
  · simp at h
  · rename_i h1
    split at h
    · simp at h
    · rename_i h2
      constructor
      · by_contra hc
        simp only [not_or, not_not] at hc
        exact h1 hc
      · intro a0 a1 a2
        exact h2 ⟨a0, a1, a2⟩

/-! ## Accepted comp texts and the comp table -/

/-- C21 as stated fails: the parser accepts the C-instructions `D=M+D`, `+D`
and `D=5`, and the comp texts it stores for them (`M+D`, `+D`, `5`) are not
keys of the comp table, so the comp lookup during emission fails. -/
theorem accepted_comp_outside_table :
    parseCInstr ⟨⟨TOK_IDENTIFIER, "D"⟩, "=M+D\n".toList, [], []⟩ =
      .ok (.CInstrAST (some ⟨"D"⟩)
            ⟨true, "M+D", "+", some (.SymbolExprAST "M"), some (.SymbolExprAST "D")⟩ none,
           ⟨⟨TOK_EOL, "\n"⟩, [], [], []⟩) ∧
    comp_to_bincode.lookup "M+D" = none ∧
    translate "D=M+D\n".toList = .error .mapAt ∧
    parseCInstr ⟨⟨TOK_OPERATOR, "+"⟩, "D\n".toList, [], []⟩ =
      .ok (.CInstrAST none ⟨false, "+D", "+", none, some (.SymbolExprAST "D")⟩ none,
           ⟨⟨TOK_EOL, "\n"⟩, [], [], []⟩) ∧
    comp_to_bincode.lookup "+D" = none ∧
    translate "+D\n".toList = .error .mapAt ∧
    parseCInstr ⟨⟨TOK_IDENTIFIER, "D"⟩, "=5\n".toList, [], []⟩ =
      .ok (.CInstrAST (some ⟨"D"⟩) ⟨false, "5", "", none, some (.ConstantExprAST 5)⟩ none,
           ⟨⟨TOK_EOL, "\n"⟩, [], [], []⟩) ∧
    comp_to_bincode.lookup "5" = none ∧
    translate "D=5\n".toList = .error .mapAt := by
  decide

/-- C21, amended: for every C-instruction that the parser accepts, the comp
text it stores is the concatenation of the texts of an optional left operand
token, an optional operator token and an optional right operand token, where
at least one operand is present, a right operand is present only after an
operator, a left operand followed by an operator has a right operand, and
every operand is a register name (A, D, M) or a number in [0, 24576].  The
text need not be a key of the comp table: when it is not, emission of the
instruction fails with the error of the table lookup, and when it is, the comp
lookup returns its code. -/
theorem accepted_comp_text (a a1 : State) (dest : Option DestAST) (comp : CompAST)
    (jump : Option JmpAST) (h : parseCInstr a = .ok (.CInstrAST dest comp jump, a1)) :
    (∃ t0 t1 t2 : Option Token,
      comp.raw = ((t0.map Token.value).getD "") ++ ((t1.map Token.value).getD "") ++
        ((t2.map Token.value).getD "") ∧
      (t0 ≠ none ∨ t2 ≠ none) ∧ (t2 ≠ none → t1 ≠ none) ∧
      (t0 ≠ none → t1 ≠ none → t2 ≠ none) ∧
      (∀ t, t1 = some t → t.type = TOK_OPERATOR) ∧
      (∀ t, t0 = some t ∨ t2 = some t →
        (t.type = TOK_IDENTIFIER ∧ isregister t.value = true) ∨
        (t.type = TOK_NUMBER ∧ decValue t.value.toList ≤ 24576))) ∧
    (comp_to_bincode.lookup comp.raw = none →
      ∀ ctx : SymbolTable,
        InstrAST.codegen ctx (.CInstrAST dest comp jump) = .error .mapAt) ∧
    (∀ code : String, comp_to_bincode.lookup comp.raw = some code →
      comp.codegen = .ok code) := by
  refine ⟨?_, ?_, ?_⟩
  · simp only [parseCInstr, bind_ok, pure_ok, Prod.mk.injEq] at h
    obtain ⟨r, hr, s, hs, isM, hchk, rhs, hrhs, lhs, hlhs, j, hj, heq, _⟩ := h
    simp only [InstrAST.CInstrAST.injEq] at heq
    obtain ⟨_, hcomp, _⟩ := heq
    obtain ⟨i0, i1, i2, i3, i4⟩ := parseDest_init a r.1 r.2 hr
    have hraw := compLoop_raw 3 r.2 s (by simp [i1, i2, i3, i4]) (fun _ => ⟨i3, i4⟩)
      (fun _ => i2) (by omega) hs
    obtain ⟨hs21, hsop⟩ := compLoop_slots 3 r.2 s (fun _ => ⟨i3, i4⟩) (by omega)
      (by simp [i4]) (by simp [i3]) hs
    obtain ⟨hc1, hc2⟩ := checkComp_ok _ _ _ isM hchk
    refine ⟨s.comp_toks0, s.comp_toks1, s.comp_toks2, ?_, hc1, hs21, hc2, hsop, ?_⟩
    · rw [← hcomp]
      exact hraw
    · intro t ht
      by_cases hsingle : s.comp_toks0 ≠ none ∧ s.comp_toks1 = none
      · have hd : decide (s.comp_toks0 ≠ none ∧ s.comp_toks1 = none) = true := by
          simpa using hsingle
        rw [hd] at hrhs
        simp only [if_true] at hrhs
        rcases ht with ht | ht
        · rw [ht] at hrhs
          exact parseCompOperand_some t rhs hrhs
        · exact absurd hsingle.2 (hs21 (by rw [ht]; simp))
      · have hd : decide (s.comp_toks0 ≠ none ∧ s.comp_toks1 = none) = false := by
          simpa using hsingle
        rw [hd] at hrhs hlhs
        simp only [Bool.false_eq_true, if_false] at hrhs hlhs
        rcases ht with ht | ht
        · rw [ht] at hlhs
          exact parseCompOperand_some t lhs hlhs
        · rw [ht] at hrhs
          exact parseCompOperand_some t rhs hrhs
  · intro hkey ctx
    simp [InstrAST.codegen, CompAST.codegen, mapAt, hkey, bind, Except.bind]
  · intro code hkey
    simp [CompAST.codegen, mapAt, hkey]

theorem accepted_comp_text_witness :
    (∀ ctx : SymbolTable,
      InstrAST.codegen ctx (.CInstrAST (some ⟨"D"⟩)
        ⟨true, "M+D", "+", some (.SymbolExprAST "M"), some (.SymbolExprAST "D")⟩ none) =
        .error .mapAt) ∧
    (CompAST.mk false "D+1" "+" (some (.SymbolExprAST "D"))
      (some (.ConstantExprAST 1))).codegen = .ok "0011111" :=
  ⟨(accepted_comp_text ⟨⟨TOK_IDENTIFIER, "D"⟩, "=M+D\n".toList, [], []⟩
      ⟨⟨TOK_EOL, "\n"⟩, [], [], []⟩ (some ⟨"D"⟩)
      ⟨true, "M+D", "+", some (.SymbolExprAST "M"), some (.SymbolExprAST "D")⟩ none
      (by decide)).2.1 (by decide),
   (accepted_comp_text ⟨⟨TOK_IDENTIFIER, "D"⟩, "=D+1;JGT\n".toList, [], []⟩
      ⟨⟨TOK_EOL, "\n"⟩, [], [], []⟩ (some ⟨"D"⟩)
      ⟨false, "D+1", "+", some (.SymbolExprAST "D"), some (.ConstantExprAST 1)⟩
      (some ⟨"JGT"⟩) (by decide)).2.2 "0011111" (by decide)⟩

/-! ## Progress of the lexer -/

theorem skipSpaces_suffix (r : Reader) : skipSpaces r <:+ r := by
  rw [skipSpaces_eq_dropWhile]
  exact List.dropWhile_suffix _

/-- Every successful call of `nexttok` leaves a suffix of the unread input; a
token other than the end-of-file token consumes at least one character, and
the end-of-file token is returned at the end of the input or in front of a
character equal to `EOF`. -/
theorem nexttok_progress (r r1 : Reader) (t : Token) (h : nexttok r = .ok (t, r1)) :
    r1 <:+ r ∧ (t.type = TOK_EOF → r1 = [] ∨ r1.head? = some eofChar) ∧
    (t.type ≠ TOK_EOF → r1.length < r.length) := by
  have hsuf := skipSpaces_suffix r
  rw [nexttok_skip] at h
  cases hs : skipSpaces r with
  | nil =>
    rw [hs, nexttok_nil] at h
    simp only [Except.ok.injEq, Prod.mk.injEq] at h
    obtain ⟨rfl, rfl⟩ := h
    exact ⟨List.nil_suffix, fun _ => Or.inl rfl, fun hc => absurd rfl hc⟩
  | cons c rest =>
    rw [hs] at h hsuf
    have hlen : rest.length < r.length := by
      have := hsuf.length_le
      simp only [List.length_cons] at this
      omega
    have hrest : rest <:+ r := (List.suffix_cons c rest).trans hsuf
    have hss : skipSpaces (c :: rest) = c :: rest := by rw [← hs, skipSpaces_idem]
    -- either the token is EOF in front of `c`, or it is another token and `r1` is a
    -- suffix of `rest`
    suffices hk : (r1 = c :: rest ∧ c = eofChar) ∨ (r1 <:+ rest ∧ t.type ≠ TOK_EOF) by
      rcases hk with ⟨e1, e2⟩ | hk
      · subst e1
        subst e2
        refine ⟨hsuf, fun _ => Or.inr rfl, fun hc => ?_⟩
        exfalso
        simp only [nexttok, hss] at h
        have h5 : nexttok (eofChar :: rest) = .ok (t, eofChar :: rest) := by
          simp only [nexttok, hss]
          exact h
        rw [nexttok_eofChar] at h5
        simp only [Except.ok.injEq, Prod.mk.injEq] at h5
        exact hc (by rw [← h5.1])
      · refine ⟨hk.1.trans hrest, fun hc => absurd hc hk.2, fun _ => ?_⟩
        have := hk.1.length_le
        omega
    simp only [nexttok, hss] at h
    split at h
    · simp only [scanWhile_eq, Except.ok.injEq, Prod.mk.injEq] at h
      obtain ⟨rfl, rfl⟩ := h
      exact Or.inr ⟨List.dropWhile_suffix _, by simp⟩
    · split at h
      · simp only [scanWhile_eq, Except.ok.injEq, Prod.mk.injEq] at h
        obtain ⟨rfl, rfl⟩ := h
        exact Or.inr ⟨List.dropWhile_suffix _, by simp⟩
      · split at h
        · cases rest with
          | nil => simp [nextch] at h
          | cons c2 rest2 =>
            simp only [nextch] at h
            split at h
            · simp at h
            · simp only [scanWhile_eq, Except.ok.injEq, Prod.mk.injEq] at h
              obtain ⟨rfl, rfl⟩ := h
              exact Or.inr
                ⟨(List.dropWhile_suffix _).trans (List.suffix_cons c2 rest2), by simp⟩
        · split at h
          · rename_i hc
            simp only [Except.ok.injEq, Prod.mk.injEq] at h
            exact Or.inl ⟨h.2.symm, by simpa using hc⟩
          · simp only [nextch_snd, Except.ok.injEq, Prod.mk.injEq] at h
            obtain ⟨rfl, rfl⟩ := h
            refine Or.inr ⟨List.suffix_refl _, ?_⟩
            simp only
            split_ifs <;> simp

theorem nexttok_length (r r1 : Reader) (t : Token) (h : nexttok r = .ok (t, r1)) :
    r1.length ≤ r.length ∧ (eofChar ∉ r → r ≠ [] → r1.length < r.length) := by
  obtain ⟨h1, h2, h3⟩ := nexttok_progress r r1 t h
  refine ⟨h1.length_le, fun he hr => ?_⟩
  by_cases ht : t.type = TOK_EOF
  · rcases h2 ht with e | e
    · rw [e]
      cases r with
      | nil => exact absurd rfl hr
      | cons c rest => simp
    · exfalso
      apply he
      cases r1 with
      | nil => simp at e
      | cons d r2 =>
        simp only [List.head?_cons, Option.some.injEq] at e
        subst e
        exact h1.subset (by simp)
  · exact h3 ht

theorem advance_length (a b : State) (h : advance a = .ok b) :
    b.lexer.length ≤ a.lexer.length ∧
    (b.cur_tok.type ≠ TOK_EOF → b.lexer.length < a.lexer.length) := by
  obtain ⟨t, r, hn, rfl⟩ := advance_ok a b h
  obtain ⟨h1, _, h3⟩ := nexttok_progress _ _ _ hn
  exact ⟨h1.length_le, h3⟩

theorem advance_error (a : State) (e : Err) (h : advance a = .error e) : e = .lexComment := by
  unfold advance at h
  cases hn : nexttok a.lexer with
  | error e1 =>
    rw [hn, error_bind] at h
    simp only [Except.error.injEq] at h
    subst h
    exact nexttok_error _ _ hn
  | ok tr =>
    rw [hn, ok_bind] at h
    simp [pure, Except.pure] at h

theorem step_length (s s1 : CompState) (h : CompState.step s = .ok s1) :
    s1.lexer.length ≤ s.lexer.length := by
  unfold CompState.step at h
  split at h
  · simp only [bind_ok, pure_ok] at h
    obtain ⟨r, hr, rfl⟩ := h
    exact (nexttok_length _ _ _ hr).1
  · simp only [pure_ok] at h
    subst h
    exact Nat.le_refl _

theorem step_error (s : CompState) (e : Err) (h : CompState.step s = .error e) :
    e = .lexComment := by
  unfold CompState.step at h
  split at h
  · cases hn : nexttok s.lexer with
    | error e1 =>
      rw [hn, error_bind] at h
      simp only [Except.error.injEq] at h
      subst h
      exact nexttok_error _ _ hn
    | ok tr =>
      rw [hn, ok_bind] at h
      simp [pure, Except.pure] at h
  · simp [pure, Except.pure] at h

/-! ## Bounds of the loops -/

theorem bind_noFuel {α β : Type} (x : Except Err α) (f : α → Except Err β)
    (hx : x ≠ .error .outOfFuel) (hf : ∀ a, x = .ok a → f a ≠ .error .outOfFuel) :
    (x >>= f) ≠ .error .outOfFuel := by
  cases x with
  | error e =>
    rw [error_bind]
    intro h
    apply hx
    simp only [Except.error.injEq] at h
    rw [h]
  | ok a =>
    rw [ok_bind]
    exact hf a rfl

theorem advance_noFuel (a : State) : advance a ≠ .error .outOfFuel := by
  intro h
  have := advance_error a _ h
  simp at this

theorem step_noFuel (s : CompState) : CompState.step s ≠ .error .outOfFuel := by
  intro h
  have := step_error s _ h
  simp at this

theorem nexttok_noFuel (r : Reader) : nexttok r ≠ .error .outOfFuel := by
  intro h
  have := nexttok_error r _ h
  simp at this

/-- The loop of `skipEOL` ends within the bound `skipEOL` gives it: every
iteration but the last consumes a character. -/
theorem skipEOLLoop_noFuel : ∀ (k : Nat) (a : State),
    (if a.cur_tok.type = TOK_EOL then a.lexer.length + 2 else 1) ≤ k →
    skipEOLLoop k a ≠ .error .outOfFuel := by
  intro k
  induction k with
  | zero =>
    intro a h
    split_ifs at h <;> omega
  | succ k ih =>
    intro a h
    unfold skipEOLLoop
    by_cases hE : a.cur_tok.type = TOK_EOL
    · rw [if_pos hE] at h
      rw [if_pos hE]
      refine bind_noFuel _ _ (advance_noFuel a) (fun a1 ha1 => ih a1 ?_)
      obtain ⟨h1, h2⟩ := advance_length a a1 ha1
      by_cases h3 : a1.cur_tok.type = TOK_EOL
      · rw [if_pos h3]
        have := h2 (by rw [h3]; decide)
        omega
      · rw [if_neg h3]
        omega
    · rw [if_neg hE]
      simp [pure, Except.pure]

theorem skipEOLLoop_length : ∀ (k : Nat) (a b : State), skipEOLLoop k a = .ok b →
    b.lexer.length ≤ a.lexer.length ∧
    (a.cur_tok.type = TOK_EOL → b.cur_tok.type = TOK_EOF ∨ b.lexer.length < a.lexer.length) ∧
    (a.cur_tok.type ≠ TOK_EOL → b = a) := by
  intro k
  induction k with
  | zero => intro a b h; simp [skipEOLLoop] at h
  | succ k ih =>
    intro a b h
    unfold skipEOLLoop at h
    by_cases hE : a.cur_tok.type = TOK_EOL
    · rw [if_pos hE] at h
      simp only [bind_ok] at h
      obtain ⟨a1, ha1, h⟩ := h
      obtain ⟨h1, h2⟩ := advance_length a a1 ha1
      obtain ⟨i1, i2, i3⟩ := ih a1 b h
      refine ⟨by omega, fun _ => ?_, fun hc => absurd hE hc⟩
      by_cases h3 : a1.cur_tok.type = TOK_EOF
      · left
        have : b = a1 := i3 (by rw [h3]; decide)
        rw [this]
        exact h3
      · right
        have := h2 h3
        omega
    · rw [if_neg hE] at h
      simp only [pure_ok] at h
      subst h
      exact ⟨Nat.le_refl _, fun hc => absurd hc hE, fun _ => rfl⟩

theorem compOperator_idx (s s1 : CompState) (h : compOperator s = .ok s1) :
    (s1.operandidx = 2 ∨ s1.operandidx = s.operandidx) ∧ s1.lexer.length ≤ s.lexer.length := by
  unfold compOperator at h
  split at h
  · obtain ⟨e1, _⟩ := step_ok _ s1 h
    exact ⟨Or.inl e1, by simpa using step_length _ s1 h⟩
  · simp only [pure_ok] at h
    subst h
    exact ⟨Or.inr rfl, Nat.le_refl _⟩

theorem compOperator_noFuel (s : CompState) : compOperator s ≠ .error .outOfFuel := by
  unfold compOperator
  split
  · exact step_noFuel _
  · simp [pure, Except.pure]

theorem compOperand_idx (s s1 : CompState) (h : compOperand s = .ok s1) :
    s1.operandidx = s.operandidx + 1 ∧ s1.lexer.length ≤ s.lexer.length := by
  unfold compOperand at h
  obtain ⟨e1, _⟩ := step_ok _ s1 h
  have hl := step_length _ s1 h
  refine ⟨e1, ?_⟩
  simp only at hl
  split at hl <;> exact hl

theorem compOperand_noFuel (s : CompState) : compOperand s ≠ .error .outOfFuel := by
  unfold compOperand
  exact step_noFuel _

/-- The comp loop ends within three tests of its condition when it starts with
`operandidx = 0`. -/
theorem compLoop_noFuel : ∀ (fuel : Nat) (s : CompState),
    (if 3 ≤ s.operandidx then 1 else if s.operandidx = 0 then 3 else 2) ≤ fuel →
    compLoop fuel s ≠ .error .outOfFuel := by
  intro fuel
  induction fuel with
  | zero =>
    intro s h
    split_ifs at h <;> omega
  | succ fuel ih =>
    intro s h
    unfold compLoop
    by_cases hlt : s.operandidx < 3
    · rw [if_pos hlt]
      rw [if_neg (by omega)] at h
      refine bind_noFuel _ _ (compOperator_noFuel s) (fun s1 hs1 => ?_)
      obtain ⟨hidx, _⟩ := compOperator_idx s s1 hs1
      split
      · simp [pure, Except.pure]
      · split
        · simp
        · rename_i hne1
          refine bind_noFuel _ _ (compOperand_noFuel s1) (fun s2 hs2 => ih s2 ?_)
          obtain ⟨hidx2, _⟩ := compOperand_idx s1 s2 hs2
          split_ifs at h ⊢ <;> omega
    · rw [if_neg hlt]
      simp [pure, Except.pure]

theorem compLoop_length : ∀ (fuel : Nat) (s s1 : CompState), compLoop fuel s = .ok s1 →
    s1.lexer.length ≤ s.lexer.length := by
  intro fuel
  induction fuel with
  | zero => intro s s1 h; simp [compLoop] at h
  | succ fuel ih =>
    intro s s1 h
    unfold compLoop at h
    split at h
    · simp only [bind_ok] at h
      obtain ⟨sa, hsa, h⟩ := h
      obtain ⟨_, hl1⟩ := compOperator_idx s sa hsa
      split at h
      · simp only [pure_ok] at h
        subst h
        exact hl1
      · split at h
        · simp at h
        · simp only [bind_ok] at h
          obtain ⟨sb, hsb, h⟩ := h
          obtain ⟨_, hl2⟩ := compOperand_idx sa sb hsb
          have := ih sb s1 h
          omega
    · simp only [pure_ok] at h
      subst h
      exact Nat.le_refl _

/-! ## The parser rules never exhaust a loop bound -/

theorem stoi_noFuel (s : String) : stoi s ≠ .error .outOfFuel := by
  unfold stoi
  simp only
  split <;> simp

theorem mkConstantExprAST_noFuel (v : Int) : mkConstantExprAST v ≠ .error .outOfFuel := by
  unfold mkConstantExprAST
  split <;> simp

theorem parseCompOperand_noFuel (t : Option Token) :
    parseCompOperand t ≠ .error .outOfFuel := by
  cases t with
  | none => simp [parseCompOperand, pure, Except.pure]
  | some tok =>
    simp only [parseCompOperand]
    split
    · split <;> simp [pure, Except.pure]
    · split
      · refine bind_noFuel _ _ (stoi_noFuel _) (fun v _ => ?_)
        refine bind_noFuel _ _ (mkConstantExprAST_noFuel v) (fun e _ => ?_)
        simp [pure, Except.pure]
      · simp

theorem checkComp_noFuel (t0 t1 t2 : Option Token) :
    checkComp t0 t1 t2 ≠ .error .outOfFuel := by
  unfold checkComp
  split
  · simp
  · split
    · simp
    · split
      · split
        · simp
        · split
          · split
            · simp
            · split
              · simp
              · split
                · simp
                · simp [pure, Except.pure]
          · simp [pure, Except.pure]
      · simp [pure, Except.pure]

theorem expectEOInstr_noFuel (a : State) : expectEOInstr a ≠ .error .outOfFuel := by
  unfold expectEOInstr
  split <;> simp [pure, Except.pure]

theorem parseAInstr_noFuel (a : State) : parseAInstr a ≠ .error .outOfFuel := by
  unfold parseAInstr
  refine bind_noFuel _ _ (advance_noFuel a) (fun a1 _ => ?_)
  refine bind_noFuel _ _ ?_ (fun e _ => ?_)
  · split
    · simp [pure, Except.pure]
    · refine bind_noFuel _ _ (stoi_noFuel _) (fun v _ => mkConstantExprAST_noFuel v)
    · simp
  · refine bind_noFuel _ _ (advance_noFuel a1) (fun a2 _ => ?_)
    simp [pure, Except.pure]

theorem parseAInstr_length (a b : State) (i : InstrAST) (h : parseAInstr a = .ok (i, b)) :
    b.lexer.length ≤ a.lexer.length := by
  simp only [parseAInstr, bind_ok, pure_ok, Prod.mk.injEq] at h
  obtain ⟨a1, h1, e, _, a2, h2, _, rfl⟩ := h
  have := (advance_length a a1 h1).1
  have := (advance_length a1 a2 h2).1
  omega

theorem parseLabelInstr_noFuel (a : State) : parseLabelInstr a ≠ .error .outOfFuel := by
  unfold parseLabelInstr
  refine bind_noFuel _ _ (advance_noFuel a) (fun a1 _ => ?_)
  split
  · simp
  · split
    · simp
    · refine bind_noFuel _ _ (advance_noFuel a1) (fun a2 _ => ?_)
      split
      · simp
      · refine bind_noFuel _ _ (advance_noFuel a2) (fun a3 _ => ?_)
        simp [pure, Except.pure]

theorem parseLabelInstr_length (a b : State) (l : LabelAST)
    (h : parseLabelInstr a = .ok (l, b)) : b.lexer.length ≤ a.lexer.length := by
  simp only [parseLabelInstr, bind_ok] at h
  obtain ⟨a1, h1, h⟩ := h
  split at h
  · simp at h
  · split at h
    · simp at h
    · simp only [bind_ok] at h
      obtain ⟨a2, h2, h⟩ := h
      split at h
      · simp at h
      · simp only [bind_ok, pure_ok, Prod.mk.injEq] at h
        obtain ⟨a3, h3, _, rfl⟩ := h
        have := (advance_length a a1 h1).1
        have := (advance_length a1 a2 h2).1
        have := (advance_length a2 a3 h3).1
        omega

theorem parseDest_noFuel (a : State) : parseDest a ≠ .error .outOfFuel := by
  unfold parseDest
  simp only
  split
  · refine bind_noFuel _ _ (nexttok_noFuel _) (fun r _ => ?_)
    split
    · split
      · simp
      · refine bind_noFuel _ _ (nexttok_noFuel _) (fun t _ => ?_)
        refine bind_noFuel _ _ (nexttok_noFuel _) (fun c _ => ?_)
        simp [pure, Except.pure]
    · simp [pure, Except.pure]
  · simp [pure, Except.pure]

theorem parseDest_length (a : State) (d : Option DestAST) (s : CompState)
    (h : parseDest a = .ok (d, s)) : s.lexer.length ≤ a.lexer.length := by
  unfold parseDest at h
  simp only at h
  split at h
  · simp only [bind_ok] at h
    obtain ⟨r, hr, h⟩ := h
    have l1 := (nexttok_length _ _ _ hr).1
    split at h
    · split at h
      · simp at h
      · simp only [bind_ok, pure_ok, Prod.mk.injEq] at h
        obtain ⟨t, ht, c, hc, _, rfl⟩ := h
        have l2 := (nexttok_length _ _ _ ht).1
        have l3 := (nexttok_length _ _ _ hc).1
        simp only
        omega
    · simp only [pure_ok, Prod.mk.injEq] at h
      obtain ⟨_, rfl⟩ := h
      exact l1
  · simp only [pure_ok, Prod.mk.injEq] at h
    obtain ⟨_, rfl⟩ := h
    exact Nat.le_refl _

theorem parseJump_noFuel (a : State) : parseJump a ≠ .error .outOfFuel := by
  unfold parseJump
  split
  · refine bind_noFuel _ _ (advance_noFuel a) (fun a1 _ => ?_)
    split
    · simp
    · refine bind_noFuel _ _ (advance_noFuel a1) (fun a2 _ => ?_)
      simp [pure, Except.pure]
  · simp [pure, Except.pure]

theorem parseJump_length (a b : State) (j : Option JmpAST) (h : parseJump a = .ok (j, b)) :
    b.lexer.length ≤ a.lexer.length := by
  unfold parseJump at h
  split at h
  · simp only [bind_ok] at h
    obtain ⟨a1, h1, h⟩ := h
    split at h
    · simp at h
    · simp only [bind_ok, pure_ok, Prod.mk.injEq] at h
      obtain ⟨a2, h2, _, rfl⟩ := h
      have := (advance_length a a1 h1).1
      have := (advance_length a1 a2 h2).1
      omega
  · simp only [pure_ok, Prod.mk.injEq] at h
    obtain ⟨_, rfl⟩ := h
    exact Nat.le_refl _

theorem parseCInstr_noFuel (a : State) : parseCInstr a ≠ .error .outOfFuel := by
  unfold parseCInstr
  refine bind_noFuel _ _ (parseDest_noFuel a) (fun r hr => ?_)
  obtain ⟨i0, _⟩ := parseDest_init a r.1 r.2 hr
  refine bind_noFuel _ _ (compLoop_noFuel 3 r.2 (by simp [i0])) (fun s _ => ?_)
  refine bind_noFuel _ _ (checkComp_noFuel _ _ _) (fun isM _ => ?_)
  simp only
  refine bind_noFuel _ _ (parseCompOperand_noFuel _) (fun lhs _ => ?_)
  refine bind_noFuel _ _ (parseCompOperand_noFuel _) (fun rhs _ => ?_)
  refine bind_noFuel _ _ (parseJump_noFuel _) (fun j _ => ?_)
  simp [pure, Except.pure]

theorem parseCInstr_length (a b : State) (i : InstrAST) (h : parseCInstr a = .ok (i, b)) :
    b.lexer.length ≤ a.lexer.length := by
  simp only [parseCInstr, bind_ok, pure_ok, Prod.mk.injEq] at h
  obtain ⟨r, hr, s, hs, isM, _, lhs, _, rhs, _, j, hj, _, rfl⟩ := h
  have l1 := parseDest_length a r.1 r.2 hr
  have l2 := compLoop_length 3 r.2 s hs
  have l3 := parseJump_length _ _ _ hj
  simp only at l3
  omega

theorem parseDefault_noFuel (a : State) : parseDefault a ≠ .error .outOfFuel := by
  unfold parseDefault
  refine bind_noFuel _ _ ?_ (fun b _ => ?_)
  · split
    · refine bind_noFuel _ _ (parseLabelInstr_noFuel a) (fun r _ => ?_)
      simp [pure, Except.pure]
    · split
      · refine bind_noFuel _ _ (parseAInstr_noFuel a) (fun r _ => ?_)
        simp [pure, Except.pure]
      · refine bind_noFuel _ _ (parseCInstr_noFuel a) (fun r _ => ?_)
        simp [pure, Except.pure]
  · refine bind_noFuel _ _ (expectEOInstr_noFuel b) (fun _ _ => ?_)
    simp [pure, Except.pure]

theorem parseDefault_length (a b : State) (h : parseDefault a = .ok b) :
    b.lexer.length ≤ a.lexer.length := by
  simp only [parseDefault, bind_ok, pure_ok] at h
  obtain ⟨c, hc, _, _, rfl⟩ := h
  split at hc
  · simp only [bind_ok, pure_ok] at hc
    obtain ⟨r, hr, rfl⟩ := hc
    exact parseLabelInstr_length a r.2 r.1 hr
  · split at hc
    · simp only [bind_ok, pure_ok] at hc
      obtain ⟨r, hr, rfl⟩ := hc
      exact parseAInstr_length a r.2 r.1 hr
    · simp only [bind_ok, pure_ok] at hc
      obtain ⟨r, hr, rfl⟩ := hc
      exact parseCInstr_length a r.2 r.1 hr

/-! ## Termination of the parser -/

theorem skipEOL_noFuel (a : State) : skipEOL a ≠ .error .outOfFuel := by
  unfold skipEOL
  apply skipEOLLoop_noFuel
  split_ifs <;> omega

/-- The loop of `parse` ends within the bound: every iteration consumes at
least one character, unless it reads the end-of-file token, after which the
loop stops. -/
theorem parseLoop_noFuel : ∀ (f : Nat) (a : State),
    (if a.cur_tok.type = TOK_EOF then 1 else a.lexer.length + 2) ≤ f →
    parseLoop f a ≠ .error .outOfFuel := by
  intro f
  induction f with
  | zero =>
    intro a h
    split_ifs at h <;> omega
  | succ f ih =>
    intro a h
    unfold parseLoop
    by_cases h0 : a.cur_tok.type = TOK_EOF
    · rw [if_pos h0]
      simp [pure, Except.pure]
    · rw [if_neg h0] at h ⊢
      have step : ∀ (b c : State), b.lexer.length ≤ a.lexer.length → advance b = .ok c →
          (if c.cur_tok.type = TOK_EOF then 1 else c.lexer.length + 2) ≤ f := by
        intro b c hb hc
        obtain ⟨_, l2⟩ := advance_length b c hc
        split_ifs with h3
        · omega
        · have := l2 h3
          omega
      by_cases h1 : a.cur_tok.type = TOK_COMMENT
      · rw [if_pos h1]
        exact bind_noFuel _ _ (advance_noFuel a)
          (fun a1 ha1 => ih a1 (step a a1 (Nat.le_refl _) ha1))
      · rw [if_neg h1]
        by_cases h2 : a.cur_tok.type = TOK_EOL
        · rw [if_pos h2]
          refine bind_noFuel _ _ (skipEOL_noFuel a) (fun a1 ha1 => ih a1 ?_)
          obtain ⟨l1, l2, _⟩ := skipEOLLoop_length _ a a1 ha1
          rcases l2 h2 with h3 | h3
          · rw [if_pos h3]
            omega
          · split_ifs <;> omega
        · rw [if_neg h2]
          refine bind_noFuel _ _ (parseDefault_noFuel a) (fun b hb => ?_)
          have lb := parseDefault_length a b hb
          exact bind_noFuel _ _ (advance_noFuel b) (fun c hc => ih c (step b c lb hc))

theorem parseLoop_ok_eof : ∀ (f : Nat) (a b : State), parseLoop f a = .ok b →
    b.cur_tok.type = TOK_EOF := by
  intro f
  induction f with
  | zero => intro a b h; simp [parseLoop] at h
  | succ f ih =>
    intro a b h
    unfold parseLoop at h
    split at h
    · rename_i h0
      simp only [pure_ok] at h
      subst h
      exact h0
    · split at h
      · simp only [bind_ok] at h
        obtain ⟨a1, _, h⟩ := h
        exact ih a1 b h
      · split at h
        · simp only [bind_ok] at h
          obtain ⟨a1, _, h⟩ := h
          exact ih a1 b h
        · simp only [bind_ok] at h
          obtain ⟨a1, _, a2, _, h⟩ := h
          exact ih a2 b h

theorem parse_noFuel (buffer : List Char) : parse buffer ≠ .error .outOfFuel := by
  unfold parse
  refine bind_noFuel _ _ (nexttok_noFuel buffer) (fun r hr => parseLoop_noFuel _ _ ?_)
  obtain ⟨_, _, h3⟩ := nexttok_progress buffer r.2 r.1 hr
  simp only
  split_ifs with h0
  · omega
  · have := h3 h0
    omega

/-- C25: every successful call of `nexttok` leaves a suffix of the unread
input; every token other than the end-of-file token consumes at least one
character; the end-of-file token is returned at the end of input and, with the
reader left where it is, in front of a character with the value of `EOF` (the
byte 255), the only place where a call made before the end of input does not
advance.  On an input without that character every call made before the end of
input advances by at least one character.  The only failure of `nexttok` is
the lexical error of a lone `/` (raised with the cursor not at the end).  The
loops of the parser end within their bounds on every input buffer: `parse`
either returns the lists, with the end-of-file token as current token, or
raises one of the errors of the parser, and neither `skipEOL` nor the comp
loop of `parseCInstr` runs out of its bound.  On the seven characters `@1`,
line break, byte 255, `@2`, line break, the call at the byte 255 does not
advance and `parse` returns after the first instruction. -/
theorem parse_terminates :
    (∀ (r r1 : Reader) (t : Token), nexttok r = .ok (t, r1) →
      r1 <:+ r ∧ (t.type ≠ TOK_EOF → r1.length < r.length) ∧
      (t.type = TOK_EOF → r1 = [] ∨ r1.head? = some eofChar) ∧
      (eofChar ∉ r → r ≠ [] → r1.length < r.length)) ∧
    (∀ (r : Reader) (e : Err), nexttok r = .error e → e = .lexComment ∧ r ≠ []) ∧
    nexttok [] = .ok (⟨TOK_EOF, eofText⟩, []) ∧
    (∀ rest : List Char,
      nexttok (eofChar :: rest) = .ok (⟨TOK_EOF, eofText⟩, eofChar :: rest)) ∧
    (∀ buffer : List Char, parse buffer ≠ .error .outOfFuel) ∧
    (∀ buffer : List Char,
      (∃ a : State, parse buffer = .ok a ∧ a.cur_tok.type = TOK_EOF) ∨
      (∃ e : Err, parse buffer = .error e ∧ e ≠ .outOfFuel)) ∧
    (∀ a : State, skipEOL a ≠ .error .outOfFuel) ∧
    (∀ a : State, parseCInstr a ≠ .error .outOfFuel) ∧
    (nexttok "\xff@2\n".toList = .ok (⟨TOK_EOF, eofText⟩, "\xff@2\n".toList) ∧
      parse "@1\n\xff@2\n".toList =
        .ok ⟨⟨TOK_EOF, eofText⟩, "\xff@2\n".toList,
          [.AInstrAST (.ConstantExprAST 1)], []⟩) := by
  refine ⟨?_, ?_, nexttok_nil, nexttok_eofChar, parse_noFuel, ?_, skipEOL_noFuel,
    parseCInstr_noFuel, by decide⟩
  · intro r r1 t h
    obtain ⟨h1, h2, h3⟩ := nexttok_progress r r1 t h
    exact ⟨h1, h3, h2, (nexttok_length r r1 t h).2⟩
  · intro r e h
    refine ⟨nexttok_error r e h, ?_⟩
    intro hr
    rw [hr, nexttok_nil] at h
    simp at h
  · intro buffer
    cases hp : parse buffer with
    | error e =>
      right
      refine ⟨e, rfl, ?_⟩
      intro he
      rw [he] at hp
      exact parse_noFuel buffer hp
    | ok a =>
      left
      refine ⟨a, rfl, ?_⟩
      simp only [parse, bind_ok] at hp
      obtain ⟨r, _, hl⟩ := hp
      exact parseLoop_ok_eof _ _ a hl

theorem parse_terminates_witness :
    "1\n".toList.length < "  @1\n".toList.length ∧
    (Err.lexComment = Err.lexComment ∧ "/ x".toList ≠ []) :=
  ⟨(parse_terminates.1 "  @1\n".toList "1\n".toList ⟨TOK_ANY, "@"⟩ (by decide)).2.2.2
      (by decide) (by decide),
   parse_terminates.2.1 "/ x".toList .lexComment (by decide)⟩

/-! ## Programs as lists of lines -/

/-- The result of the loop of `skipEOL` does not depend on the bound. -/
theorem skipEOLLoop_fuel : ∀ (k : Nat) (a b : State), skipEOLLoop k a = .ok b →
    ∀ k1 : Nat, skipEOLLoop k1 a ≠ .error .outOfFuel → skipEOLLoop k1 a = .ok b := by
  intro k
  induction k with
  | zero => intro a b h; simp [skipEOLLoop] at h
  | succ k ih =>
    intro a b h k1 hk1
    cases k1 with
    | zero => exact absurd rfl hk1
    | succ k1 =>
      unfold skipEOLLoop at h hk1 ⊢
      by_cases hE : a.cur_tok.type = TOK_EOL
      · rw [if_pos hE] at h hk1 ⊢
        simp only [bind_ok] at h
        obtain ⟨c, hc, h⟩ := h
        rw [hc, ok_bind] at hk1 ⊢
        exact ih c b h k1 hk1
      · rw [if_neg hE] at h ⊢
        exact h

/-- The result of the loop of `parse` does not depend on the bound. -/
theorem parseLoop_fuel : ∀ (f : Nat) (a b : State), parseLoop f a = .ok b →
    ∀ g : Nat, parseLoop g a ≠ .error .outOfFuel → parseLoop g a = .ok b := by
  intro f
  induction f with
  | zero => intro a b h; simp [parseLoop] at h
  | succ f ih =>
    intro a b h g hg
    cases g with
    | zero => exact absurd rfl hg
    | succ g =>
      unfold parseLoop at h hg ⊢
      by_cases h0 : a.cur_tok.type = TOK_EOF
      · rw [if_pos h0] at h ⊢
        exact h
      · rw [if_neg h0] at h hg ⊢
        by_cases h1 : a.cur_tok.type = TOK_COMMENT
        · rw [if_pos h1] at h hg ⊢
          simp only [bind_ok] at h
          obtain ⟨c, hc, h⟩ := h
          rw [hc, ok_bind] at hg ⊢
          exact ih c b h g hg
        · rw [if_neg h1] at h hg ⊢
          by_cases h2 : a.cur_tok.type = TOK_EOL
          · rw [if_pos h2] at h hg ⊢
            simp only [bind_ok] at h
            obtain ⟨c, hc, h⟩ := h
            rw [hc, ok_bind] at hg ⊢
            exact ih c b h g hg
          · rw [if_neg h2] at h hg ⊢
            simp only [bind_ok] at h
            obtain ⟨c, hc, d, hd, h⟩ := h
            rw [hc, ok_bind, hd, ok_bind] at hg ⊢
            exact ih d b h g hg

theorem advance_parseLoop (f : Nat) (tok : Token) (t : Reader) (ins : List InstrAST)
    (labels : List LabelAST) :
    (advance ⟨tok, t, ins, labels⟩ >>= parseLoop f) = parseFrom f t ins labels := by
  unfold advance parseFrom
  cases nexttok t with
  | error e => rfl
  | ok r => rfl

theorem parseLoop_eol_unfold (f : Nat) (a : State) (h : a.cur_tok.type = TOK_EOL) :
    parseLoop (f + 1) a = (skipEOL a >>= parseLoop f) := by
  simp [parseLoop, h]

theorem parseLoop_comment_unfold (f : Nat) (a : State) (h : a.cur_tok.type = TOK_COMMENT) :
    parseLoop (f + 1) a = (advance a >>= parseLoop f) := by
  simp [parseLoop, h]

/-- On an end-of-line token the parse loop goes on with the text that follows,
as from the start of a line. -/
theorem parseLoop_eol (tok : Token) (htok : tok.type = TOK_EOL) (t : Reader)
    (ins : List InstrAST) (labels : List LabelAST) (res : State)
    (h : ∃ f, parseFrom f t ins labels = .ok res) :
    ∃ f, parseLoop f ⟨tok, t, ins, labels⟩ = .ok res := by
  obtain ⟨f, hf⟩ := h
  simp only [parseFrom, bind_ok] at hf
  obtain ⟨r, hr, hf⟩ := hf
  have hskip : skipEOL ⟨tok, t, ins, labels⟩ =
      skipEOLLoop (t.length + 1) ⟨r.1, r.2, ins, labels⟩ := by
    simp only [skipEOL, skipEOLLoop, htok, if_true, advance, hr, ok_bind, pure, Except.pure]
  by_cases hE : r.1.type = TOK_EOL
  · cases f with
    | zero => simp [parseLoop] at hf
    | succ g =>
      rw [parseLoop_eol_unfold g _ hE, bind_ok] at hf
      obtain ⟨s2, hs2, hf⟩ := hf
      refine ⟨g + 1, ?_⟩
      rw [parseLoop_eol_unfold g _ htok, hskip]
      have hlen : r.2.length < t.length := by
        have := (nexttok_progress t r.2 r.1 hr).2.2 (by rw [hE]; decide)
        exact this
      have := skipEOLLoop_fuel _ _ _ hs2 (t.length + 1)
        (skipEOLLoop_noFuel _ _ (by simp only [hE, if_true]; omega))
      rw [this, ok_bind]
      exact hf
  · refine ⟨f + 1, ?_⟩
    rw [parseLoop_eol_unfold f _ htok, hskip]
    simp only [skipEOLLoop, hE, if_false, pure, Except.pure, ok_bind]
    exact hf

theorem parseFrom_nil (ins : List InstrAST) (labels : List LabelAST) :
    parseFrom 1 [] ins labels = .ok ⟨⟨TOK_EOF, eofText⟩, [], ins, labels⟩ := by
  simp only [parseFrom, nexttok_nil, ok_bind]
  exact parseLoop_eof 0 _ rfl

/-- A blank line contributes nothing. -/
theorem parseFrom_blank (ws : List Char) (hws : ∀ x ∈ ws, isspace x = true ∧ x ≠ '\n')
    (t : Reader) (ins : List InstrAST) (labels : List LabelAST) (res : State)
    (h : ∃ f, parseFrom f t ins labels = .ok res) :
    ∃ f, parseFrom f (ws ++ '\n' :: t) ins labels = .ok res := by
  have hn : nexttok (ws ++ '\n' :: t) = .ok (⟨TOK_EOL, "\n"⟩, t) := by
    rw [nexttok_skip, skipSpaces_blanks ws '\n' t hws rfl, nexttok_eol]
  obtain ⟨f, hf⟩ := parseLoop_eol ⟨TOK_EOL, "\n"⟩ rfl t ins labels res h
  exact ⟨f, by simp only [parseFrom, hn, ok_bind]; exact hf⟩

/-- A comment line contributes nothing. -/
theorem parseFrom_comment (body : List Char) (h1 : '\n' ∉ body) (h2 : eofChar ∉ body)
    (t : Reader) (ins : List InstrAST) (labels : List LabelAST) (res : State)
    (h : ∃ f, parseFrom f t ins labels = .ok res) :
    ∃ f, parseFrom f ('/' :: '/' :: (body ++ '\n' :: t)) ins labels = .ok res := by
  obtain ⟨e1, e2⟩ := takeWhile_run (fun c => c != eofChar && c != '\n') body '\n' t
    (by
      intro x hx
      have a1 : x ≠ eofChar := fun e => h2 (e ▸ hx)
      have a2 : x ≠ '\n' := fun e => h1 (e ▸ hx)
      simp [a1, a2]) rfl
  have hn := nexttok_comment (body ++ '\n' :: t)
  rw [e1, e2] at hn
  obtain ⟨f, hf⟩ := parseLoop_eol ⟨TOK_EOL, "\n"⟩ rfl t ins labels res h
  refine ⟨f + 1, ?_⟩
  simp only [parseFrom, hn, ok_bind]
  rw [parseLoop_comment_unfold f _ rfl]
  simp only [advance, nexttok_eol, ok_bind, pure, Except.pure]
  exact hf

/-- A label declaration records the label with the number of instructions
parsed so far. -/
theorem parseFrom_label (c : Char) (cs : List Char) (hc : isidentstart c = true)
    (hcs : ∀ x ∈ cs, isident x = true)
    (hp : (presymbols_to_addr.lookup ⟨c :: cs⟩).isSome = false)
    (t : Reader) (ins : List InstrAST) (labels : List LabelAST) (res : State)
    (h : ∃ f, parseFrom f t ins (labels ++ [⟨⟨c :: cs⟩, (ins.length : Int)⟩]) = .ok res) :
    ∃ f, parseFrom f ('(' :: ((c :: cs) ++ [')']) ++ '\n' :: t) ins labels = .ok res := by
  obtain ⟨f, hf⟩ := h
  refine ⟨f + 1, ?_⟩
  have e : '(' :: ((c :: cs) ++ [')']) ++ '\n' :: t = '(' :: c :: (cs ++ ')' :: '\n' :: t) := by
    simp
  rw [e]
  simp only [parseFrom, nexttok_lparen, ok_bind]
  rw [parseLoop_real _ _ (by simp) (by simp) (by simp)]
  have hl := parseLabelInstr_ident ⟨⟨TOK_ANY, "("⟩, c :: (cs ++ ')' :: '\n' :: t), ins, labels⟩
    c cs t hc hcs rfl
  rw [hp] at hl
  simp only [Bool.false_eq_true, if_false] at hl
  have hd : parseDefault ⟨⟨TOK_ANY, "("⟩, c :: (cs ++ ')' :: '\n' :: t), ins, labels⟩ =
      .ok ⟨⟨TOK_EOL, "\n"⟩, t, ins, labels ++ [⟨⟨c :: cs⟩, (ins.length : Int)⟩]⟩ := by
    simp only [parseDefault, if_true]
    rw [hl]
    simp [expectEOInstr, bind, Except.bind, pure, Except.pure]
  rw [hd, ok_bind, advance_parseLoop]
  exact hf

/-- An instruction line appends its instruction. -/
theorem parseFrom_instr (text : List Char) (i : InstrAST) (hi : instrLine text i)
    (t : Reader) (ins : List InstrAST) (labels : List LabelAST) (res : State)
    (h : ∃ f, parseFrom f t (ins ++ [i]) labels = .ok res) :
    ∃ f, parseFrom f (text ++ '\n' :: t) ins labels = .ok res := by
  obtain ⟨tok, rest, e, r1, hn, k1, k2, k3, hd, hend⟩ := hi t ins labels
  rcases hend with ⟨rfl, rfl⟩ | ⟨he, rfl⟩
  · obtain ⟨f, hf⟩ := h
    refine ⟨f + 1, ?_⟩
    simp only [parseFrom, hn, ok_bind]
    rw [parseLoop_real _ _ k1 k2 k3, hd, ok_bind, advance_parseLoop]
    exact hf
  · obtain ⟨f, hf⟩ := parseLoop_eol ⟨TOK_EOL, "\n"⟩ rfl t (ins ++ [i]) labels res h
    refine ⟨f + 1, ?_⟩
    simp only [parseFrom, hn, ok_bind]
    rw [parseLoop_real _ _ k1 k2 k3, hd, ok_bind]
    simp only [advance, nexttok_eol, ok_bind, pure, Except.pure]
    exact hf

/-- The parse loop over the lines of a program. -/
theorem parseFrom_render : ∀ (prog : List SrcLine), (∀ l ∈ prog, l.wellFormed) →
    ∀ (ins : List InstrAST) (labels : List LabelAST),
    ∃ f, parseFrom f (render prog) ins labels =
      .ok ⟨⟨TOK_EOF, eofText⟩, [], ins ++ realInstrs prog,
        labels ++ labelsFrom ins.length prog⟩ := by
  intro prog
  induction prog with
  | nil =>
    intro _ ins labels
    exact ⟨1, by simp [render, realInstrs, labelsFrom, parseFrom_nil]⟩
  | cons l ls ih =>
    intro hwf ins labels
    have hl := hwf l (List.mem_cons_self _ _)
    have hls : ∀ x ∈ ls, x.wellFormed := fun x hx => hwf x (List.mem_cons_of_mem _ hx)
    cases l with
    | instr text i =>
      have := ih hls (ins ++ [i]) labels
      simp only [List.append_assoc, List.singleton_append, List.length_append,
        List.length_singleton] at this
      exact parseFrom_instr text i hl _ ins labels _ this
    | label n =>
      obtain ⟨⟨c, cs, rfl, hc, hcs⟩, hp⟩ := hl
      have := ih hls ins (labels ++ [⟨⟨c :: cs⟩, (ins.length : Int)⟩])
      simp only [List.append_assoc, List.singleton_append] at this
      exact parseFrom_label c cs hc hcs hp _ ins labels _ this
    | comment body =>
      exact parseFrom_comment body hl.1 hl.2 _ ins labels _ (ih hls ins labels)
    | blank ws =>
      exact parseFrom_blank ws hl _ ins labels _ (ih hls ins labels)

/-- The parse of a program: the instruction list holds the real instructions
in source order, and the label list holds every declared label with the number
of real instructions that precede its declaration. -/
theorem parse_render (prog : List SrcLine) (hwf : ∀ l ∈ prog, l.wellFormed) :
    parse (render prog) =
      .ok ⟨⟨TOK_EOF, eofText⟩, [], realInstrs prog, labelsFrom 0 prog⟩ := by
  obtain ⟨f, hf⟩ := parseFrom_render prog hwf [] []
  simp only [parseFrom, bind_ok, List.nil_append, List.length_nil] at hf
  obtain ⟨r, hr, hf⟩ := hf
  have hnf := parse_noFuel (render prog)
  simp only [parse, hr, ok_bind] at hnf ⊢
  exact parseLoop_fuel f _ _ hf _ hnf

/-- The line `@n` for a number `n` of the accepted range. -/
theorem instrLine_const (d : Char) (ds : List Char) (hd : isdigit d = true)
    (hds : ∀ c ∈ ds, isdigit c = true) (hv : decValue (d :: ds) ≤ 24576) :
    instrLine ('@' :: d :: ds) (.AInstrAST (.ConstantExprAST (decValue (d :: ds)))) := by
  intro r ins labels
  refine ⟨⟨TOK_ANY, "@"⟩, d :: (ds ++ '\n' :: r), ⟨TOK_EOL, "\n"⟩, r, ?_, by simp, by simp,
    by simp, ?_, Or.inl ⟨rfl, rfl⟩⟩
  · simp only [List.cons_append, nexttok_at]
  · have h2 := parseAInstr_number ⟨⟨TOK_ANY, "@"⟩, d :: (ds ++ '\n' :: r), ins, labels⟩ d ds r
      rfl hd hds
    have hs : stoi ⟨d :: ds⟩ = .ok (decValue (d :: ds) : Int) := by
      have e : (⟨d :: ds⟩ : String).toList = d :: ds := rfl
      simp only [stoi, e]
      rw [if_neg (by omega)]
    have hm : mkConstantExprAST (decValue (d :: ds) : Int) =
        .ok (.ConstantExprAST (decValue (d :: ds) : Int)) := by
      simp only [mkConstantExprAST]
      rw [if_neg]
      simp only [Bool.or_eq_true, decide_eq_true_eq, not_or, not_lt]
      omega
    rw [hs, ok_bind, hm, ok_bind] at h2
    simp [parseDefault, h2, expectEOInstr, bind, Except.bind, pure, Except.pure]

/-- The line `@name` for an identifier `name`. -/
theorem instrLine_symbol (c : Char) (cs : List Char) (hc : isidentstart c = true)
    (hcs : ∀ x ∈ cs, isident x = true) :
    instrLine ('@' :: c :: cs) (.AInstrAST (.SymbolExprAST ⟨c :: cs⟩)) := by
  intro r ins labels
  refine ⟨⟨TOK_ANY, "@"⟩, c :: (cs ++ '\n' :: r), ⟨TOK_EOL, "\n"⟩, r, ?_, by simp, by simp,
    by simp, ?_, Or.inl ⟨rfl, rfl⟩⟩
  · simp only [List.cons_append, nexttok_at]
  · obtain ⟨e1, e2⟩ := takeWhile_run isident cs '\n' r hcs rfl
    have hn : nexttok (c :: (cs ++ '\n' :: r)) = .ok (⟨TOK_IDENTIFIER, ⟨c :: cs⟩⟩, '\n' :: r) := by
      rw [nexttok_ident c _ hc, e1, e2]
    simp [parseDefault, parseAInstr, advance, hn, nexttok_eol, expectEOInstr, bind, Except.bind,
      pure, Except.pure]

theorem instrLine_D_eq_A :
    instrLine "D=A".toList
      (.CInstrAST (some ⟨"D"⟩) ⟨false, "A", "", none, some (.SymbolExprAST "A")⟩ none) := by
  intro r ins labels
  have n1 : nexttok ('D' :: '=' :: 'A' :: '\n' :: r) =
      .ok (⟨TOK_IDENTIFIER, "D"⟩, '=' :: 'A' :: '\n' :: r) := by
    rw [nexttok_ident 'D' _ rfl]
    rfl
  have n3 : nexttok ('A' :: '\n' :: r) = .ok (⟨TOK_IDENTIFIER, "A"⟩, '\n' :: r) := by
    rw [nexttok_ident 'A' _ rfl]
    rfl
  refine ⟨⟨TOK_IDENTIFIER, "D"⟩, '=' :: 'A' :: '\n' :: r, ⟨TOK_EOL, "\n"⟩, r, n1, by simp,
    by simp, by simp, ?_, Or.inl ⟨rfl, rfl⟩⟩
  have hc : parseCInstr ⟨⟨TOK_IDENTIFIER, "D"⟩, '=' :: 'A' :: '\n' :: r, ins, labels⟩ =
      .ok (.CInstrAST (some ⟨"D"⟩) ⟨false, "A", "", none, some (.SymbolExprAST "A")⟩ none,
        ⟨⟨TOK_EOL, "\n"⟩, r, ins, labels⟩) := by
    simp [parseCInstr, parseDest, nexttok_equal, n3, nexttok_eol, compLoop, compOperator,
      compOperand, CompState.step, checkComp, parseCompOperand, parseJump, isdest, isregister,
      bind, Except.bind, pure, Except.pure]
  have hv : (⟨TOK_IDENTIFIER, "D"⟩ : Token).value ≠ "(" := by decide
  have hv2 : (⟨TOK_IDENTIFIER, "D"⟩ : Token).value ≠ "@" := by decide
  simp only [parseDefault, hv, hv2, if_false, hc, ok_bind]
  simp [expectEOInstr, bind, Except.bind, pure, Except.pure]

theorem instrLine_M_eq_M_plus_1 :
    instrLine "M=M+1".toList
      (.CInstrAST (some ⟨"M"⟩)
        ⟨false, "M+1", "+", some (.SymbolExprAST "M"), some (.ConstantExprAST 1)⟩ none) := by
  intro r ins labels
  have n1 : nexttok ('M' :: '=' :: 'M' :: '+' :: '1' :: '\n' :: r) =
      .ok (⟨TOK_IDENTIFIER, "M"⟩, '=' :: 'M' :: '+' :: '1' :: '\n' :: r) := by
    rw [nexttok_ident 'M' _ rfl]
    rfl
  have n3 : nexttok ('M' :: '+' :: '1' :: '\n' :: r) =
      .ok (⟨TOK_IDENTIFIER, "M"⟩, '+' :: '1' :: '\n' :: r) := by
    rw [nexttok_ident 'M' _ rfl]
    rfl
  have n5 : nexttok ('1' :: '\n' :: r) = .ok (⟨TOK_NUMBER, "1"⟩, '\n' :: r) := by
    rw [nexttok_digits '1' _ rfl]
    rfl
  refine ⟨⟨TOK_IDENTIFIER, "M"⟩, '=' :: 'M' :: '+' :: '1' :: '\n' :: r, ⟨TOK_EOL, "\n"⟩, r, n1,
    by simp, by simp, by simp, ?_, Or.inl ⟨rfl, rfl⟩⟩
  have hs : stoi "1" = .ok 1 := by decide
  have hm : mkConstantExprAST 1 = .ok (.ConstantExprAST 1) := by decide
  have hc : parseCInstr
      ⟨⟨TOK_IDENTIFIER, "M"⟩, '=' :: 'M' :: '+' :: '1' :: '\n' :: r, ins, labels⟩ =
      .ok (.CInstrAST (some ⟨"M"⟩)
          ⟨false, "M+1", "+", some (.SymbolExprAST "M"), some (.ConstantExprAST 1)⟩ none,
        ⟨⟨TOK_EOL, "\n"⟩, r, ins, labels⟩) := by
    simp [parseCInstr, parseDest, nexttok_equal, nexttok_plus, n3, n5, nexttok_eol, compLoop,
      compOperator, compOperand, CompState.step, checkComp, parseCompOperand, parseJump, isdest,
      isregister, hs, hm, bind, Except.bind, pure, Except.pure]
  have hv : (⟨TOK_IDENTIFIER, "M"⟩ : Token).value ≠ "(" := by decide
  have hv2 : (⟨TOK_IDENTIFIER, "M"⟩ : Token).value ≠ "@" := by decide
  simp only [parseDefault, hv, hv2, if_false, hc, ok_bind]
  simp [expectEOInstr, bind, Except.bind, pure, Except.pure]

theorem instrLine_zero_JMP :
    instrLine "0;JMP".toList
      (.CInstrAST none ⟨false, "0", "", none, some (.ConstantExprAST 0)⟩ (some ⟨"JMP"⟩)) := by
  intro r ins labels
  have n1 : nexttok ('0' :: ';' :: 'J' :: 'M' :: 'P' :: '\n' :: r) =
      .ok (⟨TOK_NUMBER, "0"⟩, ';' :: 'J' :: 'M' :: 'P' :: '\n' :: r) := by
    rw [nexttok_digits '0' _ rfl]
    rfl
  have n3 : nexttok ('J' :: 'M' :: 'P' :: '\n' :: r) =
      .ok (⟨TOK_IDENTIFIER, "JMP"⟩, '\n' :: r) := by
    rw [nexttok_ident 'J' _ rfl]
    rfl
  refine ⟨⟨TOK_NUMBER, "0"⟩, ';' :: 'J' :: 'M' :: 'P' :: '\n' :: r, ⟨TOK_EOL, "\n"⟩, r, n1,
    by simp, by simp, by simp, ?_, Or.inl ⟨rfl, rfl⟩⟩
  have hs : stoi "0" = .ok 0 := by decide
  have hm : mkConstantExprAST 0 = .ok (.ConstantExprAST 0) := by decide
  have hc : parseCInstr
      ⟨⟨TOK_NUMBER, "0"⟩, ';' :: 'J' :: 'M' :: 'P' :: '\n' :: r, ins, labels⟩ =
      .ok (.CInstrAST none ⟨false, "0", "", none, some (.ConstantExprAST 0)⟩ (some ⟨"JMP"⟩),
        ⟨⟨TOK_EOL, "\n"⟩, r, ins, labels⟩) := by
    simp [parseCInstr, parseDest, nexttok_semicolon, n3, nexttok_eol, compLoop,
      compOperator, compOperand, CompState.step, checkComp, parseCompOperand, parseJump, isjmp,
      advance, hs, hm, bind, Except.bind, pure, Except.pure]
  have hv : (⟨TOK_NUMBER, "0"⟩ : Token).value ≠ "(" := by decide
  have hv2 : (⟨TOK_NUMBER, "0"⟩ : Token).value ≠ "@" := by decide
  simp only [parseDefault, hv, hv2, if_false, hc, ok_bind]
  simp [expectEOInstr, bind, Except.bind, pure, Except.pure]

/-- The line `@name`, blanks and a trailing comment. -/
theorem instrLine_symbol_comment (c : Char) (cs ws body : List Char)
    (hc : isidentstart c = true) (hcs : ∀ x ∈ cs, isident x = true)
    (hws : ∀ x ∈ ws, isspace x = true ∧ x ≠ '\n')
    (h1 : '\n' ∉ body) (h2 : eofChar ∉ body) :
    instrLine ('@' :: c :: (cs ++ (ws ++ '/' :: '/' :: body)))
      (.AInstrAST (.SymbolExprAST ⟨c :: cs⟩)) := by
  intro r ins labels
  refine ⟨⟨TOK_ANY, "@"⟩, c :: (cs ++ (ws ++ '/' :: '/' :: (body ++ '\n' :: r))),
    ⟨TOK_COMMENT, ⟨'/' :: '/' :: body⟩⟩, '\n' :: r, ?_, by simp, by simp,
    by simp, ?_, Or.inr ⟨rfl, rfl⟩⟩
  · simp only [List.cons_append, List.append_assoc, nexttok_at]
  · obtain ⟨e1, e2⟩ := takeWhile_run (fun c => c != eofChar && c != '\n') body '\n' r
      (by
        intro x hx
        have a1 : x ≠ eofChar := fun e => h2 (e ▸ hx)
        have a2 : x ≠ '\n' := fun e => h1 (e ▸ hx)
        simp [a1, a2]) rfl
    have hcm : nexttok (ws ++ '/' :: '/' :: (body ++ '\n' :: r)) =
        .ok (⟨TOK_COMMENT, ⟨'/' :: '/' :: body⟩⟩, '\n' :: r) := by
      rw [nexttok_skip, skipSpaces_blanks ws '/' _ hws rfl, nexttok_comment, e1, e2]
    have hid : nexttok (c :: (cs ++ (ws ++ '/' :: '/' :: (body ++ '\n' :: r)))) =
        .ok (⟨TOK_IDENTIFIER, ⟨c :: cs⟩⟩, ws ++ '/' :: '/' :: (body ++ '\n' :: r)) := by
      cases ws with
      | nil =>
        obtain ⟨t1, t2⟩ := takeWhile_run isident cs '/' ('/' :: (body ++ '\n' :: r)) hcs rfl
        rw [nexttok_ident c _ hc, List.nil_append, t1, t2]
      | cons w ws1 =>
        have hw := (hws w (List.mem_cons_self _ _)).1
        have hwi : isident w = false := by
          rcases isspace_cases w hw with rfl | rfl | rfl | rfl | rfl | rfl <;> rfl
        obtain ⟨t1, t2⟩ := takeWhile_run isident cs w
          (ws1 ++ '/' :: '/' :: (body ++ '\n' :: r)) hcs hwi
        rw [nexttok_ident c _ hc, List.cons_append, t1, t2]
    simp [parseDefault, parseAInstr, advance, hid, hcm, expectEOInstr, bind, Except.bind,
      pure, Except.pure]

theorem translate_render (prog : List SrcLine) (hwf : ∀ l ∈ prog, l.wellFormed) :
    translate (render prog) =
      link (realInstrs prog) (labelsFrom 0 prog) SymbolTable.clear := by
  simp only [translate, parse_render prog hwf, ok_bind]

theorem realInstrs_append (p q : List SrcLine) :
    realInstrs (p ++ q) = realInstrs p ++ realInstrs q := by
  induction p with
  | nil => rfl
  | cons l ls ih => cases l <;> simp [realInstrs, ih]

theorem labelsFrom_append (p q : List SrcLine) : ∀ n : Nat,
    labelsFrom n (p ++ q) = labelsFrom n p ++ labelsFrom (n + (realInstrs p).length) q := by
  induction p with
  | nil => intro n; simp [labelsFrom, realInstrs]
  | cons l ls ih =>
    intro n
    cases l with
    | instr t i =>
      have e : n + 1 + (realInstrs ls).length = n + ((realInstrs ls).length + 1) := by omega
      have := ih (n + 1)
      rw [e] at this
      simpa only [List.cons_append, labelsFrom, realInstrs, List.length_cons] using this
    | label name => simp [labelsFrom, realInstrs, ih]
    | comment t => simp [labelsFrom, realInstrs, ih]
    | blank ws => simp [labelsFrom, realInstrs, ih]

theorem realInstrs_filter (p : List SrcLine) :
    realInstrs (p.filter SrcLine.isCode) = realInstrs p := by
  induction p with
  | nil => rfl
  | cons l ls ih => cases l <;> simp [List.filter_cons, SrcLine.isCode, realInstrs, ih]

theorem labelsFrom_filter (p : List SrcLine) : ∀ n : Nat,
    labelsFrom n (p.filter SrcLine.isCode) = labelsFrom n p := by
  induction p with
  | nil => intro n; rfl
  | cons l ls ih =>
    intro n
    cases l <;> simp [List.filter_cons, SrcLine.isCode, labelsFrom, ih]

theorem realInstrs_replicate (t : List Char) (i : InstrAST) (n : Nat) :
    realInstrs (List.replicate n (.instr t i)) = List.replicate n i := by
  induction n with
  | zero => rfl
  | succ n ih => simp [List.replicate_succ, realInstrs, ih]

theorem labelsFrom_replicate (t : List Char) (i : InstrAST) (n : Nat) : ∀ k : Nat,
    labelsFrom k (List.replicate n (.instr t i)) = [] := by
  induction n with
  | zero => intro k; rfl
  | succ n ih => intro k; simp [List.replicate_succ, labelsFrom, ih]

/-- A name that no line declares is the name of no recorded label. -/
theorem labelsFrom_count_zero (L : List Char) (ls : List SrcLine)
    (h : SrcLine.label L ∉ ls) : ∀ n : Nat,
    ((labelsFrom n ls).map (fun l => l.label)).count ⟨L⟩ = 0 := by
  induction ls with
  | nil => intro n; rfl
  | cons l ls ih =>
    intro n
    have hl : SrcLine.label L ∉ ls := fun m => h (List.mem_cons_of_mem _ m)
    cases l with
    | instr t i => simpa [labelsFrom] using ih hl (n + 1)
    | label name =>
      have hne : name ≠ L := by
        intro e
        subst e
        exact h (List.mem_cons_self _ _)
      have hs : (⟨name⟩ : String) ≠ ⟨L⟩ := by
        intro e
        exact hne (congrArg String.data e)
      simp only [labelsFrom, List.map_cons]
      rw [List.count_cons_of_ne (Ne.symm hs)]
      exact ih hl n
    | comment t => simpa [labelsFrom] using ih hl n
    | blank ws => simpa [labelsFrom] using ih hl n

/-- The label list of a program that declares `L` exactly once: `L` is
recorded once, with the number of real instructions in front of its
declaration. -/
theorem labelsFrom_once (pre post : List SrcLine) (L : List Char)
    (hpre : SrcLine.label L ∉ pre) (hpost : SrcLine.label L ∉ post) :
    (⟨⟨L⟩, ((realInstrs pre).length : Int)⟩ : LabelAST) ∈
        labelsFrom 0 (pre ++ SrcLine.label L :: post) ∧
    ((labelsFrom 0 (pre ++ SrcLine.label L :: post)).map (fun l => l.label)).count ⟨L⟩ = 1 := by
  rw [labelsFrom_append]
  simp only [labelsFrom, Nat.zero_add, List.map_append, List.map_cons, List.count_append,
    List.count_cons_self, labelsFrom_count_zero L pre hpre, labelsFrom_count_zero L post hpost]
  simp

theorem variableNames_not_label (ins : List InstrAST) (labels : List LabelAST) (L : String)
    (h : L ∈ labels.map (fun l => l.label)) : L ∉ variableNames ins labels := by
  intro hm
  rw [variableNames, firstOccurrences_mem] at hm
  simp only [List.mem_filter, Bool.and_eq_true, Bool.not_eq_true'] at hm
  have hc : (labels.map (fun l => l.label)).contains L = true := by
    simpa using h
  rw [hc] at hm
  exact absurd hm.2.2 (by simp)

theorem labelAround_wellFormed (n : Nat) : ∀ l ∈ labelAround n, l.wellFormed := by
  have hL : instrLine "@L".toList (.AInstrAST (.SymbolExprAST "L")) :=
    instrLine_symbol 'L' [] rfl (by simp)
  have h0 : instrLine "@0".toList (.AInstrAST (.ConstantExprAST 0)) :=
    instrLine_const '0' [] rfl (by simp) (by decide)
  intro l hl
  simp only [labelAround, List.mem_cons, List.mem_append, List.mem_replicate,
    List.mem_singleton, List.not_mem_nil, or_false] at hl
  rcases hl with rfl | ⟨_, rfl⟩ | rfl | rfl
  · exact hL
  · exact h0
  · exact ⟨⟨'L', [], rfl, rfl, by simp⟩, by decide⟩
  · exact hL

theorem realInstrs_labelAround (n : Nat) :
    realInstrs (labelAround n) =
      .AInstrAST (.SymbolExprAST "L") ::
        (List.replicate n (.AInstrAST (.ConstantExprAST 0)) ++
          [.AInstrAST (.SymbolExprAST "L")]) := by
  simp only [labelAround, realInstrs, realInstrs_append, realInstrs_replicate]

theorem labelsFrom_labelAround (n : Nat) :
    labelsFrom 0 (labelAround n) = [⟨"L", ((n + 1 : Nat) : Int)⟩] := by
  simp only [labelAround, labelsFrom, labelsFrom_append, labelsFrom_replicate,
    realInstrs_replicate, List.length_replicate, List.nil_append]
  have e : 0 + 1 + n = n + 1 := by omega
  rw [e]
  rfl

/-- The translation of `labelAround`: both references to `L` emit the low 15
bits of the number of real instructions in front of the declaration. -/
theorem translate_labelAround (n : Nat) :
    (linkTable (realInstrs (labelAround n)) (labelsFrom 0 (labelAround n))
      SymbolTable.clear).get "L" = .ok ((n + 1 : Nat) : Int) ∧
    translate (render (labelAround n)) =
      .ok (("0" ++ bitset15 ((n + 1 : Nat) : Int)) ::
        (List.replicate n "0000000000000000" ++ ["0" ++ bitset15 ((n + 1 : Nat) : Int)])) := by
  have h1 := linkLabels_once [⟨"L", ((n + 1 : Nat) : Int)⟩] "L" ((n + 1 : Nat) : Int)
    SymbolTable.clear (by simp) (by simp)
  have h2 : (linkTable (realInstrs (labelAround n)) (labelsFrom 0 (labelAround n))
      SymbolTable.clear).tbl.lookup "L" = some ((n + 1 : Nat) : Int) := by
    rw [labelsFrom_labelAround, linkTable, linkSymbols_eq]
    exact foldl_putwinc_bound _ _ "L" _ h1
  have h3 := get_ok _ _ _ h2
  refine ⟨h3, ?_⟩
  rw [translate_render _ (labelAround_wellFormed n), link]
  have hL : InstrAST.codegen (linkTable (realInstrs (labelAround n))
      (labelsFrom 0 (labelAround n)) SymbolTable.clear) (.AInstrAST (.SymbolExprAST "L")) =
      .ok ("0" ++ bitset15 ((n + 1 : Nat) : Int)) := by
    simp only [InstrAST.codegen, h3, ok_bind]
    rfl
  generalize linkTable (realInstrs (labelAround n)) (labelsFrom 0 (labelAround n))
      SymbolTable.clear = tbl at hL ⊢
  rw [realInstrs_labelAround, mapM_ok_cons]
  refine ⟨_, _, hL, ?_, rfl⟩
  apply mapM_append_ok
  · rw [List.mapM_cons, List.mapM_nil, hL]
    rfl
  · exact mapM_replicate_ok (InstrAST.codegen _) (.AInstrAST (.ConstantExprAST 0))
      "0000000000000000" rfl n

/-! ## Output lines of a program -/

/-- C7: for every program made of instruction lines, label declarations,
comment lines and blank lines (each line ended by a line break; no comment
holds a character with the value of `EOF`, the byte 255), `parse` returns the
real instructions of the source in source order, and the translation is `link`
on that list.  So when the program translates successfully there are as many
output lines as real instructions, the `k`-th output line is the encoding of
the `k`-th real instruction, and the label declarations, comments and blank
lines contribute no line: the program without its comments and blank lines has
the same output.  A byte 255 in a comment ends the parse: the source `@1`,
`//a`, byte 255, `b`, `@2` (three lines) translates successfully to the single
word of `@1`. -/
theorem translate_lines (prog : List SrcLine) (hwf : ∀ l ∈ prog, l.wellFormed) :
    parse (render prog) =
      .ok ⟨⟨TOK_EOF, eofText⟩, [], realInstrs prog, labelsFrom 0 prog⟩ ∧
    translate (render prog) =
      link (realInstrs prog) (labelsFrom 0 prog) SymbolTable.clear ∧
    (∀ out : List String, translate (render prog) = .ok out →
      out.length = (realInstrs prog).length ∧
      (∀ (k : Nat) (instr : InstrAST), (realInstrs prog)[k]? = some instr →
        ∃ w, out[k]? = some w ∧
          InstrAST.codegen
            (linkTable (realInstrs prog) (labelsFrom 0 prog) SymbolTable.clear) instr = .ok w) ∧
      translate (render (prog.filter SrcLine.isCode)) = .ok out) ∧
    (parse "@1\n//a\xffb\n@2\n".toList =
        .ok ⟨⟨TOK_EOF, eofText⟩, "\xffb\n@2\n".toList, [.AInstrAST (.ConstantExprAST 1)], []⟩ ∧
      translate "@1\n//a\xffb\n@2\n".toList = .ok ["0000000000000001"]) := by
  refine ⟨parse_render prog hwf, translate_render prog hwf, ?_, by decide⟩
  intro out h
  have hf : ∀ l ∈ prog.filter SrcLine.isCode, l.wellFormed :=
    fun l hl => hwf l (List.mem_of_mem_filter hl)
  rw [translate_render prog hwf] at h
  obtain ⟨h1, h2, _⟩ := link_ok _ _ _ out h
  refine ⟨h1, h2, ?_⟩
  rw [translate_render _ hf, realInstrs_filter, labelsFrom_filter]
  exact h

theorem translate_lines_witness :
    [ "0000000000010000", "1111110111001000", "0000000000000000",
      "1110101010000111"].length =
      (realInstrs [.comment " sum".toList, .label "LOOP".toList, .blank [],
        .instr "@i // counter".toList (.AInstrAST (.SymbolExprAST "i")),
        .instr "M=M+1".toList (.CInstrAST (some ⟨"M"⟩)
          ⟨false, "M+1", "+", some (.SymbolExprAST "M"), some (.ConstantExprAST 1)⟩ none),
        .blank "  ".toList,
        .instr "@LOOP".toList (.AInstrAST (.SymbolExprAST "LOOP")),
        .instr "0;JMP".toList (.CInstrAST none
          ⟨false, "0", "", none, some (.ConstantExprAST 0)⟩ (some ⟨"JMP"⟩)),
        .label "END".toList]).length ∧
    translate "(LOOP)\n@i // counter\nM=M+1\n@LOOP\n0;JMP\n(END)\n".toList =
      .ok ["0000000000010000", "1111110111001000", "0000000000000000", "1110101010000111"] :=
  (fun h => ⟨h.1, h.2.2⟩)
    ((translate_lines [.comment " sum".toList, .label "LOOP".toList, .blank [],
        .instr "@i // counter".toList (.AInstrAST (.SymbolExprAST "i")),
        .instr "M=M+1".toList (.CInstrAST (some ⟨"M"⟩)
          ⟨false, "M+1", "+", some (.SymbolExprAST "M"), some (.ConstantExprAST 1)⟩ none),
        .blank "  ".toList,
        .instr "@LOOP".toList (.AInstrAST (.SymbolExprAST "LOOP")),
        .instr "0;JMP".toList (.CInstrAST none
          ⟨false, "0", "", none, some (.ConstantExprAST 0)⟩ (some ⟨"JMP"⟩)),
        .label "END".toList]
      (by
        intro l hl
        simp only [List.mem_cons, List.mem_singleton, List.not_mem_nil, or_false] at hl
        rcases hl with rfl | rfl | rfl | rfl | rfl | rfl | rfl | rfl | rfl
        · exact ⟨by decide, by decide⟩
        · exact ⟨⟨'L', "OOP".toList, rfl, rfl, by decide⟩, by decide⟩
        · exact fun x hx => absurd hx (List.not_mem_nil x)
        · exact instrLine_symbol_comment 'i' [] " ".toList " counter".toList rfl (by simp)
            (by decide) (by decide) (by decide)
        · exact instrLine_M_eq_M_plus_1
        · exact (by decide : ∀ x ∈ "  ".toList, isspace x = true ∧ x ≠ '\n')
        · exact instrLine_symbol 'L' "OOP".toList rfl (by decide)
        · exact instrLine_zero_JMP
        · exact ⟨⟨'E', "ND".toList, rfl, rfl, by decide⟩, by decide⟩)).2.2.1
      ["0000000000010000", "1111110111001000", "0000000000000000", "1110101010000111"]
      (by decide))

/-! ## References to a label -/

/-- C6: in a program made of instruction lines, label declarations, comment
lines and blank lines in which the label `L` is declared exactly once, after
the lines `pre` and before the lines `post`, the parser records `L` with the
number `p` of real instructions of `pre`, the table resolves `L` to `p` after
`link`, and every `@L` of a successful translation, in front of the
declaration or behind it, emits the digit 0 followed by `bitset15 p`.  Those
15 digits hold `p` modulo 32768, which is `p` when `p` is below 32768.  `L` is
none of the variables, and the references to `L` leave the symbol table as it
would be without them (no variable address is spent on `L`).  In the program
of the line `@L`, 32767 lines `@0`, the declaration `(L)` and the line `@L`,
32768 real instructions precede the declaration, `L` resolves to 32768 and
both references emit sixteen zeros, the word of address 0. -/
theorem label_reference (pre post : List SrcLine) (L : List Char)
    (hwf : ∀ l ∈ pre ++ SrcLine.label L :: post, l.wellFormed)
    (hpre : SrcLine.label L ∉ pre) (hpost : SrcLine.label L ∉ post) :
    (∃ a : State, parse (render (pre ++ SrcLine.label L :: post)) = .ok a ∧
      a.ins = realInstrs pre ++ realInstrs post ∧
      (⟨⟨L⟩, ((realInstrs pre).length : Int)⟩ : LabelAST) ∈ a.labels ∧
      (a.labels.map (fun l => l.label)).count ⟨L⟩ = 1 ∧
      (linkTable a.ins a.labels SymbolTable.clear).get ⟨L⟩ =
        .ok ((realInstrs pre).length : Int) ∧
      (⟨L⟩ : String) ∉ variableNames a.ins a.labels ∧
      linkTable a.ins a.labels SymbolTable.clear =
        linkTable (a.ins.filter (fun i => i ≠ .AInstrAST (.SymbolExprAST ⟨L⟩))) a.labels
          SymbolTable.clear) ∧
    (∀ out : List String, translate (render (pre ++ SrcLine.label L :: post)) = .ok out →
      ∀ k : Nat, (realInstrs pre ++ realInstrs post)[k]? =
          some (.AInstrAST (.SymbolExprAST ⟨L⟩)) →
        out[k]? = some ("0" ++ bitset15 ((realInstrs pre).length : Int))) ∧
    binaryValue (bitset15 ((realInstrs pre).length : Int)) = (realInstrs pre).length % 32768 ∧
    ((realInstrs pre).length < 32768 →
      binaryValue (bitset15 ((realInstrs pre).length : Int)) = (realInstrs pre).length) ∧
    ((linkTable (realInstrs (labelAround 32767)) (labelsFrom 0 (labelAround 32767))
        SymbolTable.clear).get "L" = .ok 32768 ∧
      translate (render (labelAround 32767)) =
        .ok ("0000000000000000" ::
          (List.replicate 32767 "0000000000000000" ++ ["0000000000000000"]))) := by
  have hparse := parse_render _ hwf
  obtain ⟨hmem, honce⟩ := labelsFrom_once pre post L hpre hpost
  have hins : realInstrs (pre ++ SrcLine.label L :: post) = realInstrs pre ++ realInstrs post := by
    rw [realInstrs_append]
    rfl
  have h1 := linkLabels_once _ ⟨L⟩ _ SymbolTable.clear hmem honce
  have h2 : (linkTable (realInstrs pre ++ realInstrs post)
      (labelsFrom 0 (pre ++ SrcLine.label L :: post)) SymbolTable.clear).tbl.lookup ⟨L⟩ =
      some ((realInstrs pre).length : Int) := by
    rw [linkTable, linkSymbols_eq]
    exact foldl_putwinc_bound _ _ _ _ h1
  have h3 := get_ok _ _ _ h2
  refine ⟨⟨_, hparse, hins, hmem, honce, ?_, ?_, ?_⟩, ?_, ?_, ?_,
    (translate_labelAround 32767).1, (translate_labelAround 32767).2⟩
  · simp only [hins]
    exact h3
  · apply variableNames_not_label
    exact List.count_pos_iff.1 (by rw [honce]; exact Nat.one_pos)
  · simp only [hins]
    exact linkSymbols_filter ⟨L⟩ _ _ _ h1
  · intro out h k hk
    rw [translate_render _ hwf, hins] at h
    obtain ⟨_, hget, _⟩ := link_ok _ _ _ out h
    obtain ⟨w, hw, hc⟩ := hget k _ hk
    simp only [InstrAST.codegen, h3, ok_bind, pure_ok] at hc
    rw [hw, ← hc]
  · rw [bitset15_value]
    omega
  · intro hlt
    exact bitset15_value_nat _ hlt

theorem label_reference_witness :
    ["0000000000000010", "0000000000000111", "0000000000000010"][0]? =
        some "0000000000000010" ∧
      ["0000000000000010", "0000000000000111", "0000000000000010"][2]? =
        some "0000000000000010" :=
  (fun h => ⟨h 0 (by decide), h 2 (by decide)⟩)
    ((label_reference
      [.instr "@END".toList (.AInstrAST (.SymbolExprAST "END")), .comment " loop".toList,
        .instr "@7".toList (.AInstrAST (.ConstantExprAST 7))]
      [.blank [], .instr "@END".toList (.AInstrAST (.SymbolExprAST "END"))] "END".toList
      (by
        intro l hl
        simp only [List.cons_append, List.nil_append, List.mem_cons, List.mem_singleton,
          List.not_mem_nil, or_false] at hl
        rcases hl with rfl | rfl | rfl | rfl | rfl | rfl
        · exact instrLine_symbol 'E' "ND".toList rfl (by decide)
        · exact ⟨by decide, by decide⟩
        · exact instrLine_const '7' [] rfl (by simp) (by decide)
        · exact ⟨⟨'E', "ND".toList, rfl, rfl, by decide⟩, by decide⟩
        · exact fun x hx => absurd hx (List.not_mem_nil x)
        · exact instrLine_symbol 'E' "ND".toList rfl (by decide))
      (by simp) (by simp)).2.1
      ["0000000000000010", "0000000000000111", "0000000000000010"] (by decide))

end Assembler
